import Mathlib

/-!
# FlowCanvas — verification of the DSL parser, validator, layout and simulator

A shallow embedding, in Lean 4, of the core of the FlowCanvas repository:

* `src/parser/dsl-parser.ts` — `parseDSL` (block grammar scanner, legacy line
  grammar, merge/assembly) and `validateTopology`;
* `src/renderer/canvas.ts`   — `calculateLayout` level assignment,
  `addParticle`, `updateParticles` (with `getNextEdge`);
* `src/animation/engine.js`  — per-event spawn timers
  (`initEventTimers`, `updateEventSpawning`).

Modelling conventions:

* JavaScript numbers are modelled as `ℚ` (exact real semantics — no claim
  below depends on floating-point rounding).  `parseFloat`/`parseInt`
  results are `Option ℚ`/`Option ℤ` with `none` playing the role of `NaN`
  (non-finite results such as `parseFloat("Infinity")` are also collapsed
  to `none`; no claim depends on them).
* Strings are scanned as `List Char` with an explicit cursor `pos : ℕ`,
  exactly like the hand-written scanner in `dsl-parser.ts`.  Character
  classes (`/\s/`, identifier characters, …) are modelled on their ASCII
  portion; the exotic Unicode white-space code points of JavaScript's
  `/\s/` are not modelled.
* Every scanning loop of the source is given an explicit fuel.  The three
  cursor loops the specification singles out (main keyword loop, block
  body loop, bracketed-array loop) return `none` on fuel exhaustion, so
  that termination within `|input| + 1` iterations is a provable statement
  (claim C1) rather than an artifact of the embedding.  The low-level
  scanners (`skipWhitespace`, identifier/string/number scanning) advance
  the cursor by exactly one position per fuel unit, so running them with
  fuel `|input| + 1` reproduces the JavaScript behaviour exactly.
* The `line` counter and the `try/catch` parse-error channel are omitted:
  no handler of the source can throw, so `Topology.errors` is always empty
  and the line counter has no observable effect on the returned topology.
* `Map` objects are modelled as association lists with the JavaScript
  insertion-order semantics: `Map.set` on an existing key updates the
  entry in place, otherwise appends.
* `Math.random()`-driven choices (random outgoing edge, random source
  node) are modelled by an explicit oracle argument `r : ℕ`, used as an
  index modulo the number of candidates.
-/

/-! ## Association lists with JavaScript `Map` insertion-order semantics -/

/-- `Map.get`: first value bound to `k`. -/
def aget {β : Type} (m : List (String × β)) (k : String) : Option β :=
  match m with
  | [] => none
  | (k', v) :: rest => if k' = k then some v else aget rest k

/-- `Map.get(k) !== undefined` / `Map.has`. -/
def ahas {β : Type} (m : List (String × β)) (k : String) : Bool :=
  (aget m k).isSome

/-- `Map.set`: update in place if the key is present, else append. -/
def aset {β : Type} (m : List (String × β)) (k : String) (v : β) :
    List (String × β) :=
  match m with
  | [] => [(k, v)]
  | (k', v') :: rest =>
    if k' = k then (k', v) :: rest else (k', v') :: aset rest k v

/-- `Map.values()` in insertion order. -/
def avalues {β : Type} (m : List (String × β)) : List β := m.map Prod.snd

/-- Lookup with a default (`map.get(k) || d` on a map of numbers ≥ 0). -/
def agetD {β : Type} (m : List (String × β)) (k : String) (d : β) : β :=
  (aget m k).getD d

/-! ## JavaScript string/number primitives (ASCII fragment) -/

/-- The ASCII portion of JavaScript's `/\s/` character class. -/
def jsWs (ch : Char) : Bool :=
  ch = ' ' || ch = '\t' || ch = '\n' || ch = '\r' || ch = '\x0b' || ch = '\x0c'

/-- The identifier character class `[a-zA-Z0-9_\-]` of the parser. -/
def isIdentChar (ch : Char) : Bool :=
  ch.isAlpha || ch.isDigit || ch = '_' || ch = '-'

/-- `str.replace(/['"]/g, '')`. -/
def stripQuotes (l : List Char) : List Char :=
  l.filter (fun ch => !(ch = '\'' || ch = '"'))

/-- `String.prototype.trim()` (ASCII white-space). -/
def jsTrim (l : List Char) : List Char :=
  ((l.dropWhile jsWs).reverse.dropWhile jsWs).reverse

/-- `str.split(sep)` for a single-character separator. -/
def splitCharAux (sep : Char) (acc : List Char) :
    List Char → List (List Char)
  | [] => [acc.reverse]
  | ch :: rest =>
    if ch = sep then acc.reverse :: splitCharAux sep [] rest
    else splitCharAux sep (ch :: acc) rest

def splitChar (sep : Char) (l : List Char) : List (List Char) :=
  splitCharAux sep [] l

/-- `str.split(sep)` for a multi-character separator (fueled; with fuel
`≥ l.length` this is exactly the JavaScript left-to-right non-overlapping
split). -/
def splitStrAux (sep : List Char) :
    Nat → List Char → List Char → List (List Char)
  | 0, acc, _ => [acc.reverse]
  | _, acc, [] => [acc.reverse]
  | fuel + 1, acc, l@(ch :: rest) =>
    if sep.isPrefixOf l then
      acc.reverse :: splitStrAux sep fuel [] (l.drop sep.length)
    else
      splitStrAux sep fuel (ch :: acc) rest

def splitStr (sep : List Char) (l : List Char) : List (List Char) :=
  splitStrAux sep l.length [] l

/-! ### Kernel-computable rational arithmetic

The `Rat` field operations of core Lean are `@[extern]` definitions the
kernel does not unfold, so a `decide`/`rfl` evaluation of the embedding on
a concrete input would get stuck on them.  The embedding therefore uses
the wrappers below — built from `mkRat`/`Rat.divInt`, which do reduce —
and the lemmas identify them with the standard operations for algebraic
reasoning.  (Division by zero, `Infinity` in JavaScript, is `0` here; no
claim depends on it.) -/

def qadd (a b : ℚ) : ℚ := mkRat (a.num * b.den + b.num * a.den) (a.den * b.den)

def qsub (a b : ℚ) : ℚ := mkRat (a.num * b.den - b.num * a.den) (a.den * b.den)

def qmul (a b : ℚ) : ℚ := mkRat (a.num * b.num) (a.den * b.den)

def qdiv (a b : ℚ) : ℚ := Rat.divInt (a.num * b.den) (a.den * b.num)

def qneg (a : ℚ) : ℚ := mkRat (-a.num) a.den

/-- `Math.min` (on the `NaN`-free fragment). -/
def jsMin (a b : ℚ) : ℚ := if a ≤ b then a else b

/-- Numeric value of a digit run. -/
def natOfDigits (l : List Char) : Nat :=
  l.foldl (fun acc ch => 10 * acc + (ch.toNat - '0'.toNat)) 0

/-- `parseFloat` (longest valid numeric prefix; `none` = `NaN`;
non-finite results such as `"Infinity"` are also collapsed to `none`). -/
def jsParseFloat (l : List Char) : Option ℚ :=
  let l₁ := l.dropWhile jsWs
  let sign : ℚ := match l₁ with
    | '-' :: _ => -1
    | _ => 1
  let l₂ := match l₁ with
    | '-' :: r => r
    | '+' :: r => r
    | _ => l₁
  let intD := l₂.takeWhile Char.isDigit
  let r₁ := l₂.dropWhile Char.isDigit
  let fracD := match r₁ with
    | '.' :: r => r.takeWhile Char.isDigit
    | _ => []
  let r₂ := match r₁ with
    | '.' :: r => r.dropWhile Char.isDigit
    | _ => r₁
  if intD = [] && fracD = [] then none
  else
    let mant : ℚ :=
      qadd (natOfDigits intD : ℚ) (mkRat (natOfDigits fracD) (10 ^ fracD.length))
    let expo : ℤ := match r₂ with
      | 'e' :: r₃ | 'E' :: r₃ =>
        let esign : ℤ := match r₃ with
          | '-' :: _ => -1
          | _ => 1
        let r₄ := match r₃ with
          | '-' :: r => r
          | '+' :: r => r
          | _ => r₃
        let eD := r₄.takeWhile Char.isDigit
        if eD = [] then 0 else esign * (natOfDigits eD : ℤ)
      | _ => 0
    let scaled : ℚ :=
      if 0 ≤ expo then qmul mant ((10 ^ expo.toNat : ℕ) : ℚ)
      else qdiv mant ((10 ^ (-expo).toNat : ℕ) : ℚ)
    some (if sign = -1 then qneg scaled else scaled)

/-- `parseInt(str, 10)` (`none` = `NaN`). -/
def jsParseInt (l : List Char) : Option ℤ :=
  let l₁ := l.dropWhile jsWs
  let sign : ℤ := match l₁ with
    | '-' :: _ => -1
    | _ => 1
  let l₂ := match l₁ with
    | '-' :: r => r
    | '+' :: r => r
    | _ => l₁
  let intD := l₂.takeWhile Char.isDigit
  if intD = [] then none else some (sign * (natOfDigits intD : ℤ))

/-- Characters of a string. -/
def chs (s : String) : List Char := s.data

/-- String from characters. -/
def mkStr (l : List Char) : String := ⟨l⟩

/-! ## Data model (`src/types/index.ts`)

`NodeType` and `EventShape` are kept as strings (they are validated against
the closed lists `NODE_TYPES` / `EVENT_SHAPES` exactly where the source
does so; the particle simulator overrides shapes without validation).
Attribute values are the union of the runtime value shapes the parser can
actually store in an attribute bag: strings, finite numbers, `NaN`, and
string arrays. -/

inductive AttrVal : Type
  | str (s : String)
  | num (q : ℚ)
  | nan
  | arr (l : List String)
deriving DecidableEq, Repr

/-- JavaScript truthiness of an attribute value (`NaN`, `0`, `''` are
falsy; arrays are truthy). -/
def AttrVal.truthy : AttrVal → Bool
  | .str s => s ≠ ""
  | .num q => q ≠ 0
  | .nan => false
  | .arr _ => true

/-- Open attribute bag of a node (string-keyed, insertion ordered). -/
abbrev NodeAttributes : Type := List (String × AttrVal)

structure Node where
  id : String
  type : String
  attributes : NodeAttributes
deriving DecidableEq, Repr

structure Edge where
  fromId : String
  toId : String
  fromSide : String
  toSide : String
deriving DecidableEq, Repr

structure PathStep where
  nodeId : String
  attributes : Option (List (String × String))
deriving DecidableEq, Repr

structure FlowEvent where
  name : String
  label : Option AttrVal
  color : AttrVal
  shape : String
  size : ℚ
  source : Option AttrVal
  rate : ℚ
  path : Option (List PathStep)
deriving DecidableEq, Repr

structure Transformation where
  name : String
  label : Option AttrVal
  input : AttrVal
  output : AttrVal
  outputRate : ℚ
  delay : ℚ
deriving DecidableEq, Repr

structure Subsystem where
  name : String
  nodes : List String
  color : Option AttrVal
deriving DecidableEq, Repr

structure Topology where
  nodes : List Node
  edges : List Edge
  events : List FlowEvent
  transformations : List Transformation
  subsystems : List Subsystem
  errors : List String
deriving DecidableEq, Repr

def emptyTopology : Topology :=
  { nodes := [], edges := [], events := [], transformations := [],
    subsystems := [], errors := [] }

def NODE_TYPES : List String := ["service", "topic", "db", "processor", "external"]

def EVENT_SHAPES : List String :=
  ["circle", "triangle", "square", "diamond",
   "message", "document", "alert", "lightning", "package", "pulse", "key"]

def VALID_SIDES : List String := ["top", "bottom", "left", "right"]

/-! ## The character scanner of `parseDSL`

All scanners take the content `c : List Char` and a cursor `pos : ℕ` and
are structurally recursive on an explicit fuel.  Each recursive step
consumes one fuel unit and advances `pos` by at least one, so with fuel
`c.length + 1` (what `parseDSL` passes) a scanner can run out of fuel only
with the cursor already past the end — where it returns exactly what the
JavaScript loop returns. -/

/-- `content[pos]` (`none` = `undefined`). -/
def charAt (c : List Char) (pos : Nat) : Option Char := c.get? pos

/-- `charAt` comparison: `content[pos] === ch`. -/
def chIs (c : List Char) (pos : Nat) (ch : Char) : Bool :=
  charAt c pos = some ch

/-- Inner comment loop of `skipWhitespace`:
`while (pos < content.length && content[pos] !== '\n') pos++`. -/
def skipToNl (c : List Char) : Nat → Nat → Nat
  | 0, pos => pos
  | fuel + 1, pos =>
    match charAt c pos with
    | none => pos
    | some ch => if ch = '\n' then pos else skipToNl c fuel (pos + 1)

/-- `skipWhitespace` (the `lineNum` counter is dropped — it has no
observable effect, see the header). -/
def skipWs (c : List Char) : Nat → Nat → Nat
  | 0, pos => pos
  | fuel + 1, pos =>
    match charAt c pos with
    | none => pos
    | some ch =>
      if ch = '\n' then skipWs c fuel (pos + 1)
      else if jsWs ch then skipWs c fuel (pos + 1)
      else if ch = '#' then skipWs c fuel (skipToNl c fuel (pos + 1))
      else pos

/-- Identifier-character run (the body of `parseIdentifier` after its
`skipWhitespace`). -/
def takeIdent (c : List Char) : Nat → Nat → (List Char × Nat)
  | 0, pos => ([], pos)
  | fuel + 1, pos =>
    match charAt c pos with
    | none => ([], pos)
    | some ch =>
      if isIdentChar ch then
        let (l, p) := takeIdent c fuel (pos + 1)
        (ch :: l, p)
      else ([], pos)

/-- `parseIdentifier`. -/
def parseIdent (c : List Char) (pos : Nat) : (List Char × Nat) :=
  takeIdent c (c.length + 1) (skipWs c (c.length + 1) pos)

/-- Character run up to (but not including) a terminator character. -/
def takeUntil (c : List Char) (stop : Char) : Nat → Nat → (List Char × Nat)
  | 0, pos => ([], pos)
  | fuel + 1, pos =>
    match charAt c pos with
    | none => ([], pos)
    | some ch =>
      if ch = stop then ([], pos)
      else
        let (l, p) := takeUntil c stop fuel (pos + 1)
        (ch :: l, p)

/-- `parseString`: returns `''` unless the cursor is on a quote; otherwise
scans to the matching quote and skips it (the closing `pos++` happens even
at end of input). -/
def parseStr (c : List Char) (pos : Nat) : (List Char × Nat) :=
  let pos₁ := skipWs c (c.length + 1) pos
  match charAt c pos₁ with
  | some '"' =>
    let (l, p) := takeUntil c '"' (c.length + 1) (pos₁ + 1)
    (l, p + 1)
  | some '\'' =>
    let (l, p) := takeUntil c '\'' (c.length + 1) (pos₁ + 1)
    (l, p + 1)
  | _ => ([], pos₁)

/-- Digit/dot run of `parseNumber`. -/
def takeNumChars (c : List Char) : Nat → Nat → (List Char × Nat)
  | 0, pos => ([], pos)
  | fuel + 1, pos =>
    match charAt c pos with
    | none => ([], pos)
    | some ch =>
      if ch.isDigit || ch = '.' then
        let (l, p) := takeNumChars c fuel (pos + 1)
        (ch :: l, p)
      else ([], pos)

/-- `parseNumber`: optional `'-'`, then `[0-9.]*`, then
`parseFloat(numStr) || 0`. -/
def parseNum (c : List Char) (pos : Nat) : (ℚ × Nat) :=
  let pos₁ := skipWs c (c.length + 1) pos
  let (sgn, pos₂) :=
    if chIs c pos₁ '-' then (('-' : Char) :: [], pos₁ + 1)
    else (([] : List Char), pos₁)
  let (ds, pos₃) := takeNumChars c (c.length + 1) pos₂
  let v : ℚ := match jsParseFloat (sgn ++ ds) with
    | some q => if q = 0 then 0 else q
    | none => 0
  (v, pos₃)

/-- `while (pos < content.length && content[pos] !== '\n') line += content[pos++]`:
reads the rest of the current line, returning it and the new cursor. -/
def readLine (c : List Char) : Nat → Nat → (List Char × Nat)
  | 0, pos => ([], pos)
  | fuel + 1, pos =>
    match charAt c pos with
    | none => ([], pos)
    | some ch =>
      if ch = '\n' then ([], pos)
      else
        let (l, p) := readLine c fuel (pos + 1)
        (ch :: l, p)

/-- Generic predicate run (used for the `^:?[a-z]*\s*->` look-ahead). -/
def skipPred (c : List Char) (pred : Char → Bool) : Nat → Nat → Nat
  | 0, pos => pos
  | fuel + 1, pos =>
    match charAt c pos with
    | none => pos
    | some ch => if pred ch then skipPred c pred fuel (pos + 1) else pos

/-! ## `parseBlock` — values of a `key: value;` block -/

inductive BlockVal : Type
  | strV (s : String)
  | numV (q : ℚ)
  | arrV (l : List String)
deriving DecidableEq, Repr

/-- JavaScript truthiness of a block value. -/
def BlockVal.truthy : BlockVal → Bool
  | .strV s => s ≠ ""
  | .numV q => q ≠ 0
  | .arrV _ => true

/-- Reinterpret a block value as a stored attribute value. -/
def BlockVal.toAttr : BlockVal → AttrVal
  | .strV s => .str s
  | .numV q => .num q
  | .arrV l => .arr l

abbrev Block : Type := List (String × BlockVal)

/-- `skipWhitespace(); if (content[pos] === ',') pos++` — the trailing part
of one bracketed-array iteration. -/
def commaSkip (c : List Char) (pos : Nat) : Nat :=
  let p := skipWs c (c.length + 1) pos
  if chIs c p ',' then p + 1 else p

/-- `skipWhitespace(); if (content[pos] === ';') pos++` — the trailing part
of one block-body iteration. -/
def semiSkip (c : List Char) (pos : Nat) : Nat :=
  let p := skipWs c (c.length + 1) pos
  if chIs c p ';' then p + 1 else p

/-- The bracketed-array loop of `parseBlock` (cursor starts just past `[`).
Returns `none` only on fuel exhaustion; `parseBlock` passes fuel
`content.length + 1`. -/
def arrLoop (c : List Char) : Nat → Nat → List String → Option (List String × Nat)
  | fuel, pos, arr =>
    if pos ≥ c.length ∨ chIs c pos ']' then some (arr, pos)
    else match fuel with
    | 0 => none
    | fuel + 1 =>
      let pos₁ := skipWs c (c.length + 1) pos
      if pos₁ ≥ c.length ∨ chIs c pos₁ ']' then some (arr, pos₁)
      else
        let (item, pos₂) := parseIdent c pos₁
        if item ≠ [] then
          arrLoop c fuel (commaSkip c pos₂) (arr ++ [mkStr item])
        else
          -- unrecognized character inside the array: advance to avoid an
          -- infinite loop (the explicitly commented fix in the source)
          let pos₂' := if chIs c pos₂ ']' then pos₂ else pos₂ + 1
          arrLoop c fuel (commaSkip c pos₂') arr

/-- `skipWhitespace(); if (content[pos] === ':') pos++` after a block
key. -/
def bvColon (c : List Char) (pos₂ : Nat) : Nat :=
  let pos₃ := skipWs c (c.length + 1) pos₂
  if chIs c pos₃ ':' then pos₃ + 1 else pos₃

/-- Cursor at the second coordinate of a `(x, y)` value (after the first
number, white-space and the optional `','`). -/
def bvTupleComma (c : List Char) (pos₅ : Nat) : Nat :=
  let pos₇ := skipWs c (c.length + 1) (parseNum c (pos₅ + 1)).2
  if chIs c pos₇ ',' then pos₇ + 1 else pos₇

/-- Cursor after a whole `(x, y)` value (second number, white-space,
optional `')'`). -/
def bvTupleEnd (c : List Char) (pos₅ : Nat) : Nat :=
  let pos₁₀ := skipWs c (c.length + 1) (parseNum c (bvTupleComma c pos₅)).2
  if chIs c pos₁₀ ')' then pos₁₀ + 1 else pos₁₀

/-- The non-array value forms of a block entry (coordinate tuple, quoted
string, bare identifier/number), with the trailing `';'` skip. -/
def bvOther (c : List Char) (key : List Char) (pos₅ : Nat) (block : Block) :
    Block × Nat :=
  if chIs c pos₅ '(' then
    (aset (aset block "x" (.numV (parseNum c (pos₅ + 1)).1))
          "y" (.numV (parseNum c (bvTupleComma c pos₅)).1),
     semiSkip c (bvTupleEnd c pos₅))
  else if chIs c pos₅ '"' ∨ chIs c pos₅ '\'' then
    (aset block (mkStr key) (.strV (mkStr (parseStr c pos₅).1)),
     semiSkip c (parseStr c pos₅).2)
  else
    (aset block (mkStr key)
       (match jsParseFloat (parseIdent c pos₅).1 with
        | some q => .numV q
        | none => .strV (mkStr (parseIdent c pos₅).1)),
     semiSkip c (parseIdent c pos₅).2)

/-- One `key: value` entry of a block body: the `skipWhitespace` / `':'`
handling followed by the four value forms and the trailing `';'` skip.
Returns `none` only if the array loop runs out of fuel, which
`arrLoop_complete` excludes. -/
def blockValue (c : List Char) (key : List Char) (pos₂ : Nat) (block : Block) :
    Option (Block × Nat) :=
  let pos₅ := skipWs c (c.length + 1) (bvColon c pos₂)
  if chIs c pos₅ '[' then
    (arrLoop c (c.length + 1) (pos₅ + 1) []).bind fun (arr, pos₆) =>
    some (aset block (mkStr key) (.arrV arr),
          semiSkip c (if pos₆ < c.length then pos₆ + 1 else pos₆))
  else some (bvOther c key pos₅ block)

/-- The block-body loop of `parseBlock` (cursor starts just past `{`).
Returns `none` only on fuel exhaustion; `parseBlock` passes fuel
`content.length + 1`. -/
def blockLoop (c : List Char) : Nat → Nat → Block → Option (Block × Nat)
  | fuel, pos, block =>
    if pos ≥ c.length then some (block, pos)
    else match fuel with
    | 0 => none
    | fuel + 1 =>
      let pos₁ := skipWs c (c.length + 1) pos
      if chIs c pos₁ '}' then some (block, pos₁ + 1)
      else
        let (key, pos₂) := parseIdent c pos₁
        if key = [] then blockLoop c fuel (pos₂ + 1) block
        else
          (blockValue c key pos₂ block).bind fun (block', pos') =>
          blockLoop c fuel pos' block'

/-- `parseBlock`: empty block unless the cursor (after white-space) is on
`{`, else the block-body loop. -/
def parseBlock (c : List Char) (pos : Nat) : Option (Block × Nat) :=
  let pos₁ := skipWs c (c.length + 1) pos
  if chIs c pos₁ '{' then blockLoop c (c.length + 1) (pos₁ + 1) []
  else some ([], pos₁)

/-! ## `parsePath` -/

/-- `hay.includes(needle)`. -/
def containsStr (needle hay : List Char) : Bool :=
  hay.tails.any (fun t => needle.isPrefixOf t)

/-- Attribute list of one path segment
(`match[3].split(',')` handling of `parsePath`). -/
def parseSegAttrs (mid : List Char) : List (String × String) :=
  (splitChar ',' mid).foldl
    (fun acc pair =>
      let kv := (splitChar '=' pair).map jsTrim
      let key := kv.headD []
      if key ≠ [] then
        match kv.get? 1 with
        | some v =>
          if v ≠ [] then aset acc (mkStr key) (mkStr (stripQuotes v))
          else aset acc "transformation" (mkStr key)
        | none => aset acc "transformation" (mkStr key)
      else acc)
    []

/-- One segment of a path against
`^([a-zA-Z0-9_\-]+)(?::([a-z]+))?\s*(?:\[(.+)\])?$` (the regex is
deterministic here: greedy matching cannot be rescued by backtracking, and
`.` excludes the line terminators, which are modelled as `\n`/`\r`). -/
def segMatch (seg : List Char) : Option (String × Option (List (String × String))) :=
  let ident := seg.takeWhile isIdentChar
  let rest := seg.dropWhile isIdentChar
  if ident = [] then none
  else
    let restB : Option (List Char) := match rest with
      | ':' :: r =>
        let lows := r.takeWhile (fun ch => 'a' ≤ ch && ch ≤ 'z')
        if lows = [] then none else some (r.dropWhile (fun ch => 'a' ≤ ch && ch ≤ 'z'))
      | _ => some rest
    restB.bind fun r₁ =>
    let r₂ := r₁.dropWhile jsWs
    match r₂ with
    | [] => some (mkStr ident, none)
    | '[' :: body =>
      if body.getLast? = some ']' then
        let mid := body.dropLast
        if mid ≠ [] ∧ ¬ mid.contains '\n' ∧ ¬ mid.contains '\r' then
          let attrs := parseSegAttrs mid
          some (mkStr ident, if attrs ≠ [] then some attrs else none)
        else none
      else none
    | _ => none

/-- `parsePath(pathStr)`. -/
def parsePath (pathStr : List Char) : List PathStep :=
  ((splitStr (chs "->") pathStr).map jsTrim).foldl
    (fun steps seg =>
      if seg = [] then steps
      else match segMatch seg with
        | some (nodeId, attrs) => steps ++ [⟨nodeId, attrs⟩]
        | none => steps)
    []

/-! ## The main keyword loop of `parseDSL` -/

structure MState where
  pos : Nat
  nodeMap : List (String × Node)
  eventMap : List (String × FlowEvent)
  transformationMap : List (String × Transformation)
  subsystemMap : List (String × Subsystem)
  flowEvents : List FlowEvent
  edges : List Edge
deriving DecidableEq, Repr

/-- `case 'event'`. -/
def handleEvent (c : List Char) (st : MState) : Option MState :=
  let (name, pos₁) := parseIdent c st.pos
  (parseBlock c pos₁).bind fun (block, pos₂) =>
  let ev : FlowEvent :=
    { name := mkStr name
      label := match aget block "label" with
        | some v => if v.truthy then some v.toAttr else none
        | none => none
      color := match aget block "color" with
        | some v => if v.truthy then v.toAttr else .str "#6366f1"
        | none => .str "#6366f1"
      shape := match aget block "shape" with
        | some (.strV s) => if s ∈ EVENT_SHAPES then s else "circle"
        | _ => "circle"
      size := match aget block "size" with
        | some (.numV q) => q
        | some (.strV "small") => mkRat 6 10    -- 0.6
        | some (.strV "large") => mkRat 3 2     -- 1.5
        | _ => 1
      source := none
      rate := 2
      path := none }
  some { st with pos := pos₂, eventMap := aset st.eventMap (mkStr name) ev }

/-- `case 'transformation'`. -/
def handleTransformation (c : List Char) (st : MState) : Option MState :=
  let (name, pos₁) := parseIdent c st.pos
  (parseBlock c pos₁).bind fun (block, pos₂) =>
  let tr : Transformation :=
    { name := mkStr name
      label := match aget block "label" with
        | some v => if v.truthy then some v.toAttr else none
        | none => none
      input := match aget block "input" with
        | some v => if v.truthy then v.toAttr else .str ""
        | none => .str ""
      output := match aget block "output" with
        | some v => if v.truthy then v.toAttr else .str ""
        | none => .str ""
      outputRate := match aget block "outputRate" with
        | some (.numV q) => q
        | _ => 1
      delay := match aget block "delay" with
        | some (.numV q) => q
        | _ => 0 }
  some { st with
         pos := pos₂
         transformationMap := aset st.transformationMap (mkStr name) tr }

/-- `case 'node'`. -/
def handleNode (c : List Char) (st : MState) : Option MState :=
  let (name, pos₁) := parseIdent c st.pos
  (parseBlock c pos₁).bind fun (block, pos₂) =>
  let nodeType := match aget block "type" with
    | some (.strV s) => if s ∈ NODE_TYPES then s else "service"
    | _ => "service"
  -- the attribute object is built with the six recognized keys, then the
  -- `undefined` entries are deleted: net effect, a key is present exactly
  -- when the block defined it
  let attributes : NodeAttributes :=
    (["label", "x", "y", "delay", "transformation", "subsystem"]).foldl
      (fun acc k => match aget block k with
        | some v => acc ++ [(k, v.toAttr)]
        | none => acc) []
  some { st with
         pos := pos₂
         nodeMap := aset st.nodeMap (mkStr name)
           { id := mkStr name, type := nodeType, attributes := attributes } }

/-- `case 'subsystem'`: `parseString() || parseIdentifier()` — both calls
run (the identifier is scanned from wherever the string scan stopped). -/
def handleSubsystemKw (c : List Char) (st : MState) : Option MState :=
  let (s, pos₁) := parseStr c st.pos
  let (name, pos₂) := if s ≠ [] then (s, pos₁) else parseIdent c pos₁
  (parseBlock c pos₂).bind fun (block, pos₃) =>
  let nodes : List String := match aget block "nodes" with
    | some (.arrV l) => l
    -- `(block.nodes as string[]) || []`: a truthy string ends up iterated
    -- per character by the downstream `for…of` loops; a truthy number
    -- would make those loops throw — not representable here, modelled as []
    | some (.strV s') => if s' ≠ "" then s'.data.map String.singleton else []
    | _ => []
  let color : Option AttrVal := match aget block "color" with
    | some v => if v.truthy then some v.toAttr else none
    | none => none
  some { st with
         pos := pos₃
         subsystemMap := aset st.subsystemMap (mkStr name)
           { name := mkStr name, nodes := nodes, color := color } }

/-- `case 'flow'`. -/
def handleFlow (c : List Char) (st : MState) : Option MState :=
  let (name, pos₁) := parseIdent c st.pos
  (parseBlock c pos₁).bind fun (block, pos₂) =>
  let baseEvent : Option FlowEvent := match aget block "event" with
    | some (.strV s) => aget st.eventMap s
    | _ => none
  let ev : FlowEvent :=
    { name := mkStr name
      label := match aget block "label" with
        | some v => if v.truthy then some v.toAttr else none
        | none => none
      color := match baseEvent with
        | some be => if be.color.truthy then be.color else .str "#6366f1"
        | none => .str "#6366f1"
      shape := match baseEvent with
        | some be => if be.shape ≠ "" then be.shape else "circle"
        | none => "circle"
      size := match baseEvent with
        | some be => if be.size ≠ 0 then be.size else 1
        | none => 1
      source := match aget block "source" with
        | some v => if v.truthy then some v.toAttr else none
        | none => none
      rate := match aget block "rate" with
        | some (.numV q) => q
        | _ => 2
      path := none }
  some { st with pos := pos₂, flowEvents := st.flowEvents ++ [ev] }

/-- The `content.slice(pos, pos + 2) === '->' ||
content.slice(pos).match(/^:?[a-z]*\s*->/)` look-ahead (the regex is
deterministic: failing after the greedy runs cannot be rescued by
backtracking). -/
def edgeLookahead (c : List Char) (pos : Nat) : Bool :=
  (chIs c pos '-' && chIs c (pos + 1) '>')
  ||
  (let p₁ := if chIs c pos ':' then pos + 1 else pos
   let p₂ := skipPred c (fun ch => 'a' ≤ ch && ch ≤ 'z') (c.length + 1) p₁
   let p₃ := skipPred c jsWs (c.length + 1) p₂
   chIs c p₃ '-' && chIs c (p₃ + 1) '>')

/-- `name:side` handling of one endpoint of an edge-shorthand line. -/
def sideParse (raw : List Char) (deflt : String) : List Char × String :=
  if raw.contains ':' then
    let sp := splitChar ':' raw
    let nm := jsTrim (sp.headD [])
    let sd := mkStr (jsTrim ((sp.get? 1).getD []))
    (nm, if sd ∈ VALID_SIDES then sd else deflt)
  else (raw, deflt)

/-- Edge-shorthand processing of one `A -> B -> C` line: auto-creates
missing endpoint nodes and pushes one edge per adjacent pair. -/
def processEdgeLine (edgeLine : List Char)
    (nodeMap : List (String × Node)) (edges : List Edge) :
    List (String × Node) × List Edge :=
  let parts := (splitStr (chs "->") edgeLine).map jsTrim
  (parts.zip parts.tail).foldl
    (fun (acc : List (String × Node) × List Edge) (pr : List Char × List Char) =>
      let (nm, es) := acc
      let (fromRaw, toRaw) := pr
      let (fromN, fromSide) := sideParse fromRaw "right"
      let (toN₀, toSide) := sideParse toRaw "left"
      let toN := jsTrim ((splitChar '[' toN₀).headD [])
      if fromN ≠ [] ∧ toN ≠ [] then
        let fromS := mkStr fromN
        let toS := mkStr toN
        let nm₁ := if ahas nm fromS then nm
          else aset nm fromS { id := fromS, type := "service", attributes := [] }
        let nm₂ := if ahas nm₁ toS then nm₁
          else aset nm₁ toS { id := toS, type := "service", attributes := [] }
        (nm₂, es ++ [{ fromId := fromS, toId := toS,
                       fromSide := fromSide, toSide := toSide }])
      else acc)
    (nodeMap, edges)

/-- The `subsystemMap.get(name)!.nodes.push(id)` helper (the map entry is
always present at the call sites — guarded by a `has`/`set` just above). -/
def subsystemPush (m : List (String × Subsystem)) (name id : String) :
    List (String × Subsystem) :=
  match aget m name with
  | some sub => aset m name { sub with nodes := sub.nodes ++ [id] }
  | none => m

/-- Shared attribute-pair parsing of the colon node-definition lines
(`key=value` with the `delay/x/y/partitions`, `label/transformation/
subsystem`, `transform`, `transformColor` special cases). -/
def nodeDefAttr (acc : NodeAttributes) (p : List Char) : NodeAttributes :=
  let kv := (splitChar '=' p).map jsTrim
  let key := kv.headD []
  match kv.get? 1 with
  | some v =>
    if key ≠ [] ∧ v ≠ [] then
      let k := mkStr key
      let vs := mkStr v
      if k = "delay" ∨ k = "x" ∨ k = "y" ∨ k = "partitions" then
        aset acc k (match jsParseInt v with
          | some z => .num (z : ℚ)
          | none => .nan)
      else if k = "label" ∨ k = "transformation" ∨ k = "subsystem" then
        aset acc k (.str (mkStr (stripQuotes v)))
      else if k = "transform" ∧ vs ∈ EVENT_SHAPES then
        aset acc "transform" (.str vs)
      else if k = "transformColor" then
        aset acc "transformColor" (.str (mkStr (stripQuotes v)))
      else
        aset acc k (match jsParseFloat v with
          | some q => .num q
          | none => .str vs)
    else acc
  | none => acc

/-- The `default:` case of the keyword switch: edge shorthand or colon
node definition.  `skipWhitespace()` has the usual global effect on the
cursor even when neither form matches. -/
def handleOther (c : List Char) (kw : List Char) (st : MState) : Option MState :=
  let pos₁ := skipWs c (c.length + 1) st.pos
  if edgeLookahead c pos₁ then
    let (lineRest, pos₂) := readLine c (c.length + 1) pos₁
    let (nm, es) := processEdgeLine (kw ++ lineRest) st.nodeMap st.edges
    some { st with
           pos := pos₂
           nodeMap := nm
           edges := es }
  else if chIs c pos₁ ':' then
    let pos₂ := skipWs c (c.length + 1) (pos₁ + 1)
    let (defLine, pos₃) := readLine c (c.length + 1) pos₂
    let parts := (splitChar ',' defLine).map jsTrim
    let nodeType :=
      if mkStr (parts.headD []) ∈ NODE_TYPES then mkStr (parts.headD [])
      else "service"
    let attributes := parts.tail.foldl nodeDefAttr []
    let st₁ := match aget attributes "subsystem" with
      | some v =>
        if v.truthy then
          let subName := match v with
            | .str s => s
            | _ => ""  -- unreachable: the subsystem key is always stored as a string
          let sm := if ahas st.subsystemMap subName then st.subsystemMap
            else aset st.subsystemMap subName
              { name := subName, nodes := [], color := none }
          { st with subsystemMap := subsystemPush sm subName (mkStr kw) }
        else st
      | none => st
    some { st₁ with
           pos := pos₃
           nodeMap := aset st₁.nodeMap (mkStr kw)
             { id := mkStr kw, type := nodeType, attributes := attributes } }
  else
    some { st with pos := pos₁ }

/-- Keyword dispatch of the main loop. -/
def dispatch (c : List Char) (kw : List Char) (st : MState) : Option MState :=
  if kw = chs "event" then handleEvent c st
  else if kw = chs "transformation" then handleTransformation c st
  else if kw = chs "node" then handleNode c st
  else if kw = chs "subsystem" then handleSubsystemKw c st
  else if kw = chs "flow" then handleFlow c st
  else handleOther c kw st

/-- The main keyword loop (`while (pos < content.length) …`).  Returns
`none` only on fuel exhaustion; `parseDSL` passes fuel
`content.length + 1`. -/
def mainLoop (c : List Char) : Nat → MState → Option MState
  | fuel, st =>
    if st.pos ≥ c.length then some st
    else match fuel with
    | 0 => none
    | fuel + 1 =>
      let pos₁ := skipWs c (c.length + 1) st.pos
      if pos₁ ≥ c.length then some { st with pos := pos₁ }
      else
        let (kw, pos₂) := parseIdent c pos₁
        if kw = [] then mainLoop c fuel { st with pos := pos₂ + 1 }
        else
          (dispatch c kw { st with pos := pos₂ }).bind fun st' =>
          mainLoop c fuel st'

/-! ## The legacy line-oriented pass of `parseDSL` -/

structure LState where
  nodeMap : List (String × Node)
  subsystemMap : List (String × Subsystem)
  flowEvents : List FlowEvent
  inEventsBlock : Bool
  inSubsystemBlock : Bool
  currentSubsystemName : Option String
  currentEvent : Option FlowEvent
deriving DecidableEq, Repr

/-- `^subsystem\s+["'](.+)["']\s*:$` on a trimmed line (greedy capture:
the closing quote is the last one followed only by white-space and the
final colon; `.` excludes the line terminators, modelled `\n`/`\r`). -/
def subsysHeaderMatch (trimmed : List Char) : Option String :=
  if (chs "subsystem").isPrefixOf trimmed then
    let rest := trimmed.drop 9
    if rest.takeWhile jsWs = [] then none
    else
      match rest.dropWhile jsWs with
      | q :: body =>
        if q = '"' ∨ q = '\'' then
          match body.getLast? with
          | some ':' =>
            let b₂ := body.dropLast
            let b₃ := (b₂.reverse.dropWhile jsWs).reverse
            match b₃.getLast? with
            | some q₂ =>
              if q₂ = '"' ∨ q₂ = '\'' then
                let cap := b₃.dropLast
                if cap ≠ [] ∧ ¬ cap.contains '\n' ∧ ¬ cap.contains '\r' then
                  some (mkStr cap)
                else none
              else none
            | none => none
          | _ => none
        else none
      | [] => none
  else none

/-- Sub-key updates of a legacy event list item (the `else if` chain on
`label:`/`color:`/`shape:`/`size:`/`source:`/`rate:`/`path:`). -/
def legacyEventUpdate (ev : FlowEvent) (trimmed : List Char) : FlowEvent :=
  if (chs "label:").isPrefixOf trimmed then
    { ev with label := some (.str (mkStr (stripQuotes (jsTrim (trimmed.drop 6))))) }
  else if (chs "color:").isPrefixOf trimmed then
    { ev with color := .str (mkStr (stripQuotes (jsTrim (trimmed.drop 6)))) }
  else if (chs "shape:").isPrefixOf trimmed then
    let sh := mkStr (jsTrim (trimmed.drop 6))
    if sh ∈ EVENT_SHAPES then { ev with shape := sh } else ev
  else if (chs "size:").isPrefixOf trimmed then
    let sv := jsTrim (trimmed.drop 5)
    { ev with size :=
        if sv = chs "small" then mkRat 6 10     -- 0.6
        else if sv = chs "large" then mkRat 3 2 -- 1.5
        else match jsParseFloat sv with   -- parseFloat(sizeVal) || 1
          | some q => if q = 0 then 1 else q
          | none => 1 }
  else if (chs "source:").isPrefixOf trimmed then
    { ev with source := some (.str (mkStr (jsTrim (trimmed.drop 7)))) }
  else if (chs "rate:").isPrefixOf trimmed then
    { ev with rate :=
        match jsParseFloat (jsTrim (trimmed.drop 5)) with  -- parseFloat(...) || 2
        | some q => if q = 0 then 2 else q
        | none => 2 }
  else if (chs "path:").isPrefixOf trimmed then
    { ev with path := some (parsePath (jsTrim (trimmed.drop 5))) }
  else ev

/-- Fresh legacy event from a `- name:` list item. -/
def legacyNewEvent (trimmed : List Char) : FlowEvent :=
  { name := mkStr (jsTrim (trimmed.drop 7))
    label := none
    color := .str "#6366f1"
    shape := "circle"
    size := 1
    source := none
    rate := 2
    path := none }

/-- One line of the legacy (backwards-compatibility) pass. -/
def legacyLine (st : LState) (line : List Char) : LState :=
  let trimmed := jsTrim line
  if trimmed = [] ∨ ['#'].isPrefixOf trimmed then st
  else match subsysHeaderMatch trimmed with
  | some nm =>
    { st with
      currentSubsystemName := some nm
      subsystemMap :=
        if ahas st.subsystemMap nm then st.subsystemMap
        else aset st.subsystemMap nm { name := nm, nodes := [], color := none }
      inSubsystemBlock := true
      inEventsBlock := false }
  | none =>
  if trimmed = chs "events:" then
    { st with inEventsBlock := true, inSubsystemBlock := false,
              currentSubsystemName := none }
  else
  let indent := (chs "  ").isPrefixOf line ∨ ['\t'].isPrefixOf line
  if h : st.inSubsystemBlock ∧ st.currentSubsystemName.isSome ∧ indent then
    let nm := st.currentSubsystemName.get h.2.1
    if (chs "color:").isPrefixOf trimmed then
      { st with subsystemMap :=
          match aget st.subsystemMap nm with
          | some sub => aset st.subsystemMap nm
              { sub with color := some (.str (mkStr (stripQuotes (jsTrim (trimmed.drop 6))))) }
          | none => st.subsystemMap }
    else
      match trimmed.findIdx? (· = ':') with
      | some i =>
        if i > 0 ∧ ¬ containsStr (chs "->") trimmed then
          let nodeName := mkStr (jsTrim (trimmed.take i))
          let defPart := jsTrim (trimmed.drop (i + 1))
          let parts := (splitChar ',' defPart).map jsTrim
          let nodeType :=
            if mkStr (parts.headD []) ∈ NODE_TYPES then mkStr (parts.headD [])
            else "service"
          let attrs := parts.tail.foldl nodeDefAttr [("subsystem", .str nm)]
          { st with
            nodeMap := aset st.nodeMap nodeName
              { id := nodeName, type := nodeType, attributes := attrs }
            subsystemMap := subsystemPush st.subsystemMap nm nodeName }
        else st
      | none => st
  else
  -- closing an indented subsystem block: no `continue`, the events-block
  -- handling below still sees this line
  let st := if st.inSubsystemBlock ∧ ¬ indent ∧ trimmed ≠ [] then
    { st with inSubsystemBlock := false, currentSubsystemName := none }
  else st
  if st.inEventsBlock then
    if (chs "- name:").isPrefixOf trimmed then
      let pushed := match st.currentEvent with
        | some ev => if ev.name ≠ "" then st.flowEvents ++ [ev] else st.flowEvents
        | none => st.flowEvents
      { st with flowEvents := pushed, currentEvent := some (legacyNewEvent trimmed) }
    else
      let st₁ := match st.currentEvent with
        | some ev => { st with currentEvent := some (legacyEventUpdate ev trimmed) }
        | none => st
      if ¬ [' '].isPrefixOf line ∧ ¬ ['\t'].isPrefixOf line ∧
         ¬ ['-'].isPrefixOf trimmed ∧ trimmed ≠ [] then
        match st₁.currentEvent with
        | some ev =>
          if ev.name ≠ "" then
            { st₁ with flowEvents := st₁.flowEvents ++ [ev],
                       currentEvent := none, inEventsBlock := false }
          else { st₁ with inEventsBlock := false }
        | none => { st₁ with inEventsBlock := false }
      else st₁
  else st

/-! ## `parseDSL`: merge and assembly -/

/-- `!dsl || !dsl.trim()`. -/
def dslBlank (s : String) : Bool := jsTrim (chs s) = []

def initialMState : MState :=
  { pos := 0, nodeMap := [], eventMap := [], transformationMap := [],
    subsystemMap := [], flowEvents := [], edges := [] }

/-- The block-grammar pass (main keyword loop over the whole input). -/
def parseDSLMain (s : String) : Option MState :=
  mainLoop (chs s) ((chs s).length + 1) initialMState

/-- The legacy pass, continuing on the maps produced by the block-grammar
pass, plus the final `if (currentEvent && currentEvent.name)` push. -/
def runLegacy (s : String) (mst : MState) : LState :=
  let st₀ : LState :=
    { nodeMap := mst.nodeMap, subsystemMap := mst.subsystemMap,
      flowEvents := mst.flowEvents, inEventsBlock := false,
      inSubsystemBlock := false, currentSubsystemName := none,
      currentEvent := none }
  let st₁ := (splitChar '\n' (chs s)).foldl legacyLine st₀
  match st₁.currentEvent with
  | some ev =>
    if ev.name ≠ "" then { st₁ with flowEvents := st₁.flowEvents ++ [ev] }
    else st₁
  | none => st₁

/-- The default event injected when neither grammar produced any event. -/
def defaultEvent : FlowEvent :=
  { name := "event", label := none, color := .str "#6366f1",
    shape := "circle", size := 1, source := none, rate := 2, path := none }

/-- Final assembly of the `Topology` record. -/
def assembleTopology (mst : MState) (lst : LState) : Topology :=
  let events₀ := if lst.flowEvents ≠ [] then lst.flowEvents
                 else avalues mst.eventMap
  { nodes := avalues lst.nodeMap
    edges := mst.edges
    events := if events₀ = [] then [defaultEvent] else events₀
    transformations := avalues mst.transformationMap
    subsystems := avalues lst.subsystemMap
    errors := [] }

/-- `parseDSL`, with the fuel exhaustion of the three scanner loops left
visible (`none`); claim C1 proves it never occurs. -/
def parseDSLRaw (s : String) : Option Topology :=
  if dslBlank s then some emptyTopology
  else (parseDSLMain s).map fun mst => assembleTopology mst (runLegacy s mst)

/-- `parseDSL(dsl)`. -/
def parseDSL (s : String) : Topology := (parseDSLRaw s).getD emptyTopology

/-! ## `validateTopology` -/

structure ValidationResult where
  valid : Bool
  errors : List String
deriving DecidableEq, Repr

/-- String interpolation of an attribute value into an error message
(JavaScript `${v}`; arrays join with commas). -/
def attrToString : AttrVal → String
  | .str s => s
  | .num q => toString q
  | .nan => "NaN"
  | .arr l => String.intercalate "," l

/-- `set.has(v)` where the set holds strings: true only for a string
member. -/
def attrMem (v : AttrVal) (ids : List String) : Bool :=
  match v with
  | .str s => ids.contains s
  | _ => false

/-- `validateTopology(topology)`. -/
def validateTopology (t : Topology) : ValidationResult :=
  let nodeIds := t.nodes.map Node.id
  let eventNames := t.events.map FlowEvent.name
  let transformationNames := t.transformations.map Transformation.name
  let errors :=
    (t.edges.flatMap fun e =>
      (if nodeIds.contains e.fromId then []
       else ["Edge references unknown node: " ++ e.fromId]) ++
      (if nodeIds.contains e.toId then []
       else ["Edge references unknown node: " ++ e.toId]))
    ++ (t.events.flatMap fun ev =>
      match ev.source with
      | some v =>
        if v.truthy ∧ ¬ attrMem v nodeIds then
          ["Event \"" ++ ev.name ++ "\" references unknown source: " ++ attrToString v]
        else []
      | none => [])
    ++ (t.transformations.flatMap fun tr =>
      (if tr.input.truthy ∧ ¬ attrMem tr.input eventNames then
        ["Transformation \"" ++ tr.name ++ "\" references unknown input event: "
          ++ attrToString tr.input]
       else []) ++
      (if tr.output.truthy ∧ ¬ attrMem tr.output eventNames then
        ["Transformation \"" ++ tr.name ++ "\" references unknown output event: "
          ++ attrToString tr.output]
       else []))
    ++ (t.nodes.flatMap fun n =>
      match aget n.attributes "transformation" with
      | some v =>
        if v.truthy ∧ ¬ attrMem v transformationNames then
          ["Node \"" ++ n.id ++ "\" references unknown transformation: " ++ attrToString v]
        else []
      | none => [])
    ++ (t.subsystems.flatMap fun sub =>
      sub.nodes.flatMap fun nodeId =>
        if nodeIds.contains nodeId then []
        else ["Subsystem \"" ++ sub.name ++ "\" references unknown node: " ++ nodeId])
  { valid := errors.isEmpty, errors := errors }

/-- `P` holds of the value of an optional field (vacuously true when
absent). -/
def optionHolds {α : Type} (o : Option α) (P : α → Prop) : Prop :=
  match o with
  | some a => P a
  | none => True

instance {α : Type} (o : Option α) (P : α → Prop) [∀ a, Decidable (P a)] :
    Decidable (optionHolds o P) := by
  cases o <;> simp only [optionHolds] <;> infer_instance

/-- Referential closure exactly as `validateTopology` checks it
(JavaScript truthiness: empty-string / zero / `NaN` references are
skipped). -/
def referentialClosureCode (t : Topology) : Prop :=
  (∀ e ∈ t.edges, e.fromId ∈ t.nodes.map Node.id ∧ e.toId ∈ t.nodes.map Node.id)
  ∧ (∀ ev ∈ t.events, optionHolds ev.source (fun v => v.truthy = true →
      attrMem v (t.nodes.map Node.id) = true))
  ∧ (∀ tr ∈ t.transformations,
      (tr.input.truthy = true → attrMem tr.input (t.events.map FlowEvent.name) = true)
      ∧ (tr.output.truthy = true → attrMem tr.output (t.events.map FlowEvent.name) = true))
  ∧ (∀ n ∈ t.nodes, optionHolds (aget n.attributes "transformation") (fun v =>
      v.truthy = true → attrMem v (t.transformations.map Transformation.name) = true))
  ∧ (∀ sub ∈ t.subsystems, ∀ x ∈ sub.nodes, x ∈ t.nodes.map Node.id)

/-- Referential closure as the claim words it: every *non-null* event
source (rather than every *truthy* one) must name a node, and every
present node `transformation` attribute must name a transformation. -/
def referentialClosureClaim (t : Topology) : Prop :=
  (∀ e ∈ t.edges, e.fromId ∈ t.nodes.map Node.id ∧ e.toId ∈ t.nodes.map Node.id)
  ∧ (∀ ev ∈ t.events, optionHolds ev.source (fun v =>
      attrMem v (t.nodes.map Node.id) = true))
  ∧ (∀ tr ∈ t.transformations,
      (tr.input ≠ .str "" → attrMem tr.input (t.events.map FlowEvent.name) = true)
      ∧ (tr.output ≠ .str "" → attrMem tr.output (t.events.map FlowEvent.name) = true))
  ∧ (∀ n ∈ t.nodes, optionHolds (aget n.attributes "transformation") (fun v =>
      attrMem v (t.transformations.map Transformation.name) = true))
  ∧ (∀ sub ∈ t.subsystems, ∀ x ∈ sub.nodes, x ∈ t.nodes.map Node.id)

instance (t : Topology) : Decidable (referentialClosureCode t) := by
  unfold referentialClosureCode; infer_instance

instance (t : Topology) : Decidable (referentialClosureClaim t) := by
  unfold referentialClosureClaim; infer_instance

/-! ## `calculateLayout` — level assignment -/

structure LevelState where
  visited : List String
  levels : List (String × Nat)
deriving DecidableEq, Repr

/-- The recursive `assignLevel` closure of `calculateLayout`: a visited
node only has its level raised to the maximum of the proposals (its
successors are not re-walked), an unvisited node is assigned the proposed
level and its successors are descended into.  Fuel bounds the recursion
depth; `calculateLevels` passes `nodes.length + 1`, which claim C2's
development shows is always sufficient. -/
def assignLevel (outgoing : List (String × List String)) :
    Nat → LevelState → String → Nat → LevelState
  | 0, st, _, _ => st
  | fuel + 1, st, nodeId, level =>
    if nodeId ∈ st.visited then
      { st with levels := aset st.levels nodeId (max (agetD st.levels nodeId 0) level) }
    else
      let st₁ : LevelState :=
        { visited := nodeId :: st.visited, levels := aset st.levels nodeId level }
      (agetD outgoing nodeId []).foldl
        (fun s nxt => assignLevel outgoing fuel s nxt (level + 1)) st₁

/-- One edge of the adjacency-building pass of `calculateLayout`
(`acc.1` is `outgoing`, `acc.2` is `incoming`; an edge with an endpoint
missing from the maps is skipped). -/
def adjStep (acc : List (String × List String) × List (String × List String))
    (e : Edge) : List (String × List String) × List (String × List String) :=
  if ahas acc.1 e.fromId ∧ ahas acc.2 e.toId then
    (aset acc.1 e.fromId (agetD acc.1 e.fromId [] ++ [e.toId]),
     aset acc.2 e.toId (agetD acc.2 e.toId [] ++ [e.fromId]))
  else acc

/-- Initial adjacency map: every node id bound to an empty list. -/
def adjInit (nodes : List Node) : List (String × List String) :=
  nodes.foldl (fun m n => aset m n.id []) []

/-- Outgoing/incoming adjacency of `calculateLayout`. -/
def buildAdjacency (t : Topology) :
    List (String × List String) × List (String × List String) :=
  t.edges.foldl adjStep (adjInit t.nodes, adjInit t.nodes)

/-- The level-assignment portion of `calculateLayout` (lines 213–270 of
`canvas.ts`): seed all in-degree-zero nodes at level 0 in node order
(falling back to the first node when there are none), then seed any node
still unvisited at level 0. -/
def calculateLevels (t : Topology) : LevelState :=
  if t.nodes = [] then ⟨[], []⟩
  else
    let adj := buildAdjacency t
    let outgoing := adj.1
    let incoming := adj.2
    let fuel := t.nodes.length + 1
    let sources := t.nodes.filter (fun n => agetD incoming n.id [] = [])
    let st₀ : LevelState := ⟨[], []⟩
    let st₁ :=
      if sources = [] then
        match t.nodes with
        | n :: _ => assignLevel outgoing fuel st₀ n.id 0
        | [] => st₀
      else st₀
    let st₂ := sources.foldl (fun s n => assignLevel outgoing fuel s n.id 0) st₁
    t.nodes.foldl
      (fun s n => if n.id ∈ s.visited then s else assignLevel outgoing fuel s n.id 0)
      st₂

/-- `levels.get(id) || 0` on the final level map. -/
def levelOf (t : Topology) (id : String) : Nat :=
  agetD (calculateLevels t).levels id 0

/-- In-degree of a node id as `calculateLayout` computes it
(`incoming.get(id).length`). -/
def inDegree (t : Topology) (id : String) : Nat :=
  (agetD (buildAdjacency t).2 id []).length

/-- `b` is a successor of `a` in an outgoing-adjacency map. -/
def adjMem (o : List (String × List String)) (a b : String) : Prop :=
  b ∈ agetD o a []

/-- Level recorded for `x` (`levels.get(x) || 0`). -/
def lvOf (st : LevelState) (x : String) : Nat := agetD st.levels x 0

/-- How many of the listed ids are not yet visited (with multiplicity). -/
def unvisCount (ids : List String) (st : LevelState) : Nat :=
  (ids.filter (fun x => !(st.visited.contains x))).length

/-- Discipline of `assignLevel` call sites in `calculateLayout`: a node is
proposed level 0 when it has no predecessor, and level `parent + 1` by an
already-visited predecessor. -/
def callOK (o : List (String × List String)) (st : LevelState) (n : String)
    (l : Nat) : Prop :=
  (l = 0 ∧ ∀ a, ¬ adjMem o a n) ∨
  (∃ a, adjMem o a n ∧ a ∈ st.visited ∧ l = lvOf st a + 1)

/-- A visited node's level is one more than its (visited) predecessor's. -/
def levInv (o : List (String × List String)) (st : LevelState) : Prop :=
  ∀ a b, adjMem o a b → b ∈ st.visited →
    a ∈ st.visited ∧ lvOf st b = lvOf st a + 1

/-- Successors of visited nodes are visited, up to an excuse set `E` of
pairs still pending. -/
def visClosed (o : List (String × List String)) (st : LevelState)
    (E : List (String × String)) : Prop :=
  ∀ a b, adjMem o a b → a ∈ st.visited → b ∈ st.visited ∨ (a, b) ∈ E

/-- A node with no predecessor that is visited sits at level 0. -/
def zeroInv (o : List (String × List String)) (st : LevelState) : Prop :=
  ∀ x, (∀ a, ¬ adjMem o a x) → x ∈ st.visited → lvOf st x = 0

/-- Only visited nodes carry a level entry. -/
def keysInv (st : LevelState) : Prop :=
  ∀ x, aget st.levels x ≠ none → x ∈ st.visited

/-- Visited nodes are drawn from the id list. -/
def visIds (ids : List String) (st : LevelState) : Prop :=
  ∀ x ∈ st.visited, x ∈ ids

/-! ## `AnimationEngine` — per-event spawn timers (`engine.js`) -/

/-- `event.rate || this.globalSpawnRate` (a zero rate is falsy). -/
def effectiveRate (rate globalRate : ℚ) : ℚ :=
  if rate = 0 then globalRate else rate

/-- `initEventTimers`: a fresh timer starts *full* so the first event
spawns immediately. -/
def freshTimer (rate globalRate : ℚ) : ℚ :=
  qdiv 1000 (effectiveRate rate globalRate)

/-- The catch-up loop of `updateEventSpawning`:
`while (timer ≥ interval && spawnCount < 5) { spawn; timer -= interval; spawnCount++ }`.
The first argument is the remaining spawn budget (`5 - spawnCount`). -/
def spawnLoop : Nat → ℚ → ℚ → Nat → (ℚ × Nat)
  | 0, t, _, count => (t, count)
  | budget + 1, t, interval, count =>
    if t ≥ interval then spawnLoop budget (qsub t interval) interval (count + 1)
    else (t, count)

/-- One tick of `updateEventSpawning` for a single event timer: accumulate
`elapsed × speed`, spawn per whole interval (capped at 5), and reset any
backlog still greater than one interval. -/
def updateEventTimer (t elapsed speed rate globalRate : ℚ) : ℚ × Nat :=
  let spawnInterval := qdiv 1000 (effectiveRate rate globalRate)
  let t₁ := qadd t (qmul elapsed speed)
  let (t₂, count) := spawnLoop 5 t₁ spawnInterval 0
  (if t₂ > spawnInterval then 0 else t₂, count)

/-! ## `FlowCanvas` particle simulator (`canvas.ts`) -/

structure Pt where
  x : ℚ
  y : ℚ
deriving DecidableEq, Repr

/-- A cubic path (`BezierPath`; the `end` field is called `pend` because
`end` is reserved in Lean). -/
structure BPath where
  start : Pt
  cp1 : Pt
  cp2 : Pt
  pend : Pt
deriving DecidableEq, Repr

structure LayoutEdge where
  fromId : String
  toId : String
  fromPoint : Pt
  toPoint : Pt
  path : BPath
deriving DecidableEq, Repr

/-- The projection of a `LayoutNode` the particle simulator reads: the
`delay`, `transform` and `transformColor` attributes (a `NaN` or absent
delay acts as 0 through `|| 0` and is modelled as `none`). -/
structure LayoutNodeSim where
  delay : Option ℚ
  transform : Option String
  transformColor : Option String
deriving DecidableEq, Repr

structure Particle where
  event : FlowEvent
  originalEvent : FlowEvent
  currentEdgeIndex : Nat
  pathIndex : Nat
  progress : ℚ
  x : ℚ
  y : ℚ
deriving DecidableEq, Repr

structure DelayedParticle where
  particle : Particle
  atNodeId : String
  remainingDelay : ℚ
  totalDelay : ℚ
deriving DecidableEq, Repr

/-- `getBezierPoint` (`edges.ts`). -/
def getBezierPoint (p0 p1 p2 p3 : Pt) (t : ℚ) : Pt :=
  let mt := qsub 1 t
  let mt2 := qmul mt mt
  let mt3 := qmul mt2 mt
  let t2 := qmul t t
  let t3 := qmul t2 t
  { x := qadd (qadd (qadd (qmul mt3 p0.x) (qmul (qmul (qmul 3 mt2) t) p1.x))
           (qmul (qmul (qmul 3 mt) t2) p2.x)) (qmul t3 p3.x)
    y := qadd (qadd (qadd (qmul mt3 p0.y) (qmul (qmul (qmul 3 mt2) t) p1.y))
           (qmul (qmul (qmul 3 mt) t2) p2.y)) (qmul t3 p3.y) }

/-- `addParticle(event, startNodeId)`: edge selection (the value returned
is the index of the chosen edge in `layoutEdges`, i.e. the
`indexOf(edge)` the source stores) together with the `pathIndex` cursor.
Matches the source structure: itinerary head / itinerary resync / plain
first-outgoing fallback. -/
def addParticleSelect (layoutEdges : List LayoutEdge) (event : FlowEvent)
    (startNodeId : String) : Nat × Option Nat :=
  let prim : Nat × Option Nat :=
    match event.path with
    | some (step0 :: step1 :: rest) =>
      let p := step0 :: step1 :: rest
      if step0.nodeId = startNodeId then
        let e₁ := layoutEdges.findIdx?
          (fun e => e.fromId = startNodeId ∧ e.toId = step1.nodeId)
        (0, match e₁ with
            | some i => some i
            | none => layoutEdges.findIdx? (fun e => e.fromId = startNodeId))
      else
        match p.findIdx? (fun s => s.nodeId = startNodeId) with
        | some idx =>
          if idx < p.length - 1 then
            (idx, layoutEdges.findIdx? (fun e => e.fromId = startNodeId ∧
              (p.get? (idx + 1)).map PathStep.nodeId = some e.toId))
          else (0, none)
        | none => (0, none)
    | _ => (0, none)
  let (pathIndex, primary) := prim
  (pathIndex,
   match primary with
   | some i => some i
   | none => layoutEdges.findIdx? (fun e => e.fromId = startNodeId))

/-- `addParticle`: returns the updated travelling collection and the
created particle (`none` when no edge leaves the start node — the
particle collections are left untouched). -/
def addParticle (layoutEdges : List LayoutEdge) (event : FlowEvent)
    (startNodeId : String) (particles : List Particle) :
    List Particle × Option Particle :=
  let (pathIndex, edgeIdx) := addParticleSelect layoutEdges event startNodeId
  match edgeIdx with
  | none => (particles, none)
  | some i =>
    match layoutEdges.get? i with
    | none => (particles, none)   -- unreachable: `findIdx?` returns a valid index
    | some edge =>
      let particle : Particle :=
        { event := event, originalEvent := event, currentEdgeIndex := i,
          pathIndex := pathIndex, progress := 0,
          x := edge.fromPoint.x, y := edge.fromPoint.y }
      (particles ++ [particle], some particle)

/-- Per-hop attribute overrides of an itinerary step
(`if (step.attributes) { shape/color … }`). -/
def applyStepAttrs (p : Particle) (step : PathStep) : Particle :=
  match step.attributes with
  | some attrs =>
    let ev₁ := match aget attrs "shape" with
      | some s => if s ≠ "" then { p.event with shape := s } else p.event
      | none => p.event
    let ev₂ := match aget attrs "color" with
      | some s => if s ≠ "" then { ev₁ with color := .str s } else ev₁
      | none => ev₁
    { p with event := ev₂ }
  | none => p

/-- Node-attached `transform`/`transformColor` overrides
(`if (node?.attributes) { … }`). -/
def applyNodeTransform (layoutNodes : List (String × LayoutNodeSim))
    (nodeId : String) (p : Particle) : Particle :=
  match aget layoutNodes nodeId with
  | some nd =>
    let ev₁ := match nd.transform with
      | some s => if s ≠ "" then { p.event with shape := s } else p.event
      | none => p.event
    let ev₂ := match nd.transformColor with
      | some s => if s ≠ "" then { ev₁ with color := .str s } else ev₁
      | none => ev₁
    { p with event := ev₂ }
  | none => p

/-- The indices of the outgoing edges of `nodeId` (the random fallback
picks among these; the index returned is the edge's position in
`layoutEdges`, as stored by `indexOf`). -/
def outgoingIdxs (layoutEdges : List LayoutEdge) (nodeId : String) : List Nat :=
  (List.range layoutEdges.length).filter
    (fun i => match layoutEdges.get? i with
      | some e => e.fromId = nodeId
      | none => false)

/-- `getNextEdge(currentParticle, nodeId)`: itinerary first (expected next
step, then anywhere-later resync), then a uniformly random outgoing edge.
`r` is the random draw of this resolution (used modulo the number of
candidates).  Returns the particle with its in-place event/cursor
mutations (applied even when the itinerary step supplies no edge) and the
chosen edge index. -/
def getNextEdge (layoutEdges : List LayoutEdge) (p : Particle)
    (nodeId : String) (r : Nat) : Particle × Option Nat :=
  let fallback : Particle → Particle × Option Nat := fun p' =>
    let outs := outgoingIdxs layoutEdges nodeId
    if houts : outs ≠ [] then
      (p', some (outs.get ⟨r % outs.length, by
        have : outs.length ≠ 0 := fun h => houts (List.length_eq_zero.mp h)
        exact Nat.mod_lt _ (Nat.pos_of_ne_zero this)⟩))
    else (p', none)
  -- drift/recovery `else` branch of the source: resynchronize on the
  -- first itinerary position naming the arrival node
  let resync : List PathStep → Particle × Option Nat := fun path =>
    match path.findIdx? (fun s => s.nodeId = nodeId) with
    | some idx =>
      if idx < path.length - 1 then
        let p₁ := match path.get? idx with
          | some stepIdx => applyStepAttrs p stepIdx
          | none => p
        match path.get? (idx + 1) with
        | some nextT =>
          match layoutEdges.findIdx?
              (fun e => e.fromId = nodeId ∧ e.toId = nextT.nodeId) with
          | some ei => ({ p₁ with pathIndex := idx }, some ei)
          | none => fallback p₁
        | none => fallback p₁        -- unreachable: the index is in range
      else fallback p
    | none => fallback p
  match p.event.path with
  | some path =>
    if path.length > 0 then
      match path.get? (p.pathIndex + 1) with
      | some step =>
        if step.nodeId = nodeId then
          let p₁ := applyStepAttrs p step
          if p.pathIndex + 2 < path.length then
            match path.get? (p.pathIndex + 2) with
            | some nextT =>
              match layoutEdges.findIdx?
                  (fun e => e.fromId = nodeId ∧ e.toId = nextT.nodeId) with
              | some ei => ({ p₁ with pathIndex := p₁.pathIndex + 1 }, some ei)
              | none => fallback p₁
            | none => fallback p₁    -- unreachable: the index is in range
          else fallback p₁
        else resync path
      | none =>
        -- `nextPathStep` is `undefined`: the `else` (resync) branch runs
        resync path
    else fallback p
  | none => fallback p

/-- The base travelling speed of `updateParticles` (`0.0008`). -/
def baseSpeed : ℚ := mkRat 8 10000

/-- Outcome of the arrival handling of one travelling particle. -/
inductive StepOutcome : Type
  | travel (p : Particle)
  | park (d : DelayedParticle)
  | complete (p : Particle)
deriving DecidableEq, Repr

/-- One travelling particle of the `updateParticles` main loop: advance
`progress`, interpolate the position, and on `progress ≥ 1` either park at
a delaying node, hop onto the next edge with `progress = 0`, or complete.
`r` is the random draw used if next-edge resolution falls back to a random
outgoing edge. -/
def travelStep (layoutEdges : List LayoutEdge)
    (layoutNodes : List (String × LayoutNodeSim))
    (deltaTime speed : ℚ) (r : Nat) (p : Particle) : StepOutcome :=
  match layoutEdges.get? p.currentEdgeIndex with
  | none => .complete p
  | some edge =>
    let prog := qadd p.progress (qmul (qmul baseSpeed deltaTime) speed)
    let pos := getBezierPoint edge.path.start edge.path.cp1 edge.path.cp2
      edge.path.pend (jsMin prog 1)
    let p₁ : Particle := { p with progress := prog, x := pos.x, y := pos.y }
    if prog ≥ 1 then
      let delay := match aget layoutNodes edge.toId with
        | some nd => nd.delay.getD 0
        | none => 0
      if delay > 0 then
        .park { particle := p₁, atNodeId := edge.toId,
                remainingDelay := delay, totalDelay := delay }
      else
        let p₂ := applyNodeTransform layoutNodes edge.toId p₁
        let (p₃, ei) := getNextEdge layoutEdges p₂ edge.toId r
        match ei with
        | some i => .travel { p₃ with currentEdgeIndex := i, progress := 0 }
        | none => .complete p₃
    else .travel p₁

/-- One parked particle on countdown expiry (`remainingDelay ≤ 0` after the
decrement): apply the node transform and resolve the next edge. -/
def resumeDelayed (layoutEdges : List LayoutEdge)
    (layoutNodes : List (String × LayoutNodeSim))
    (d : DelayedParticle) (r : Nat) : Particle × Option Nat :=
  let p₁ := applyNodeTransform layoutNodes d.atNodeId d.particle
  getNextEdge layoutEdges p₁ d.atNodeId r

structure CState where
  particles : List Particle
  delayedParticles : List DelayedParticle
deriving DecidableEq, Repr

/-- One delayed particle of the delayed phase: the accumulator is
(kept delayed, resumed travellers, completed, used random draws). -/
def delayedStep (layoutEdges : List LayoutEdge)
    (layoutNodes : List (String × LayoutNodeSim)) (rand : Nat → Nat)
    (acc : List DelayedParticle × List Particle × List Particle × Nat)
    (d : DelayedParticle) :
    List DelayedParticle × List Particle × List Particle × Nat :=
  if d.remainingDelay ≤ 0 then
    match resumeDelayed layoutEdges layoutNodes d (rand acc.2.2.2) with
    | (p₁, some ei) =>
      (acc.1, acc.2.1 ++ [{ p₁ with currentEdgeIndex := ei, progress := 0 }],
       acc.2.2.1, acc.2.2.2 + 1)
    | (p₁, none) => (acc.1, acc.2.1, acc.2.2.1 ++ [p₁], acc.2.2.2 + 1)
  else (d :: acc.1, acc.2.1, acc.2.2.1, acc.2.2.2)

/-- The delayed-particle phase of `updateParticles` (reverse iteration
with in-place removal): decrement every countdown by `deltaTime × speed`,
resume or complete the expired ones (from the highest index down, matching
the source's reverse loop). -/
def delayedPhase (layoutEdges : List LayoutEdge)
    (layoutNodes : List (String × LayoutNodeSim))
    (deltaTime speed : ℚ) (rand : Nat → Nat)
    (delayed : List DelayedParticle) :
    List DelayedParticle × List Particle × List Particle × Nat :=
  let decremented := delayed.map
    (fun d => { d with remainingDelay := qsub d.remainingDelay (qmul deltaTime speed) })
  decremented.reverse.foldl (delayedStep layoutEdges layoutNodes rand)
    ([], [], [], 0)

/-- One travelling particle of the travelling phase: the accumulator is
(still travelling, newly parked, completed, used random draws). -/
def travelPStep (layoutEdges : List LayoutEdge)
    (layoutNodes : List (String × LayoutNodeSim))
    (deltaTime speed : ℚ) (rand : Nat → Nat)
    (acc : List Particle × List DelayedParticle × List Particle × Nat)
    (p : Particle) :
    List Particle × List DelayedParticle × List Particle × Nat :=
  match travelStep layoutEdges layoutNodes deltaTime speed (rand acc.2.2.2) p with
  | .travel p' => (p' :: acc.1, acc.2.1, acc.2.2.1, acc.2.2.2 + 1)
  | .park d => (acc.1, acc.2.1 ++ [d], acc.2.2.1, acc.2.2.2 + 1)
  | .complete p' => (acc.1, acc.2.1, acc.2.2.1 ++ [p'], acc.2.2.2 + 1)

/-- The travelling-particle phase of `updateParticles` (reverse
iteration; newly parked particles are appended to the delayed set).
`k₁` is the index of the first unused random draw. -/
def travelPhase (layoutEdges : List LayoutEdge)
    (layoutNodes : List (String × LayoutNodeSim))
    (deltaTime speed : ℚ) (rand : Nat → Nat) (k₁ : Nat)
    (particles : List Particle) :
    List Particle × List DelayedParticle × List Particle × Nat :=
  particles.reverse.foldl
    (travelPStep layoutEdges layoutNodes deltaTime speed rand)
    ([], [], [], k₁)

/-- `updateParticles(deltaTime, speed)`: the delayed-particle phase
(resumed particles are pushed onto the travelling set and move in the
same tick) followed by the travelling-particle phase.  `rand k` is the
`k`-th random draw of the tick; one draw is budgeted per next-edge
resolution.  Returns the new state and the completed particles, in
source push order. -/
def updateParticles (layoutEdges : List LayoutEdge)
    (layoutNodes : List (String × LayoutNodeSim))
    (deltaTime speed : ℚ) (rand : Nat → Nat) (st : CState) :
    CState × List Particle :=
  let delayedRes :=
    delayedPhase layoutEdges layoutNodes deltaTime speed rand st.delayedParticles
  let keptDelayed := delayedRes.1
  let resumed := delayedRes.2.1
  let completed₁ := delayedRes.2.2.1
  let k₁ := delayedRes.2.2.2
  let travelRes := travelPhase layoutEdges layoutNodes deltaTime speed rand k₁
    (st.particles ++ resumed)
  ({ particles := travelRes.1,
     delayedParticles := keptDelayed ++ travelRes.2.1 },
   completed₁ ++ travelRes.2.2.1)

/-- The flow-block/legacy event list of a parse (the merged `flowEvents`
array after both passes and the final push). -/
def parsedFlowEvents (s : String) : List FlowEvent :=
  match parseDSLMain s with
  | some mst => (runLegacy s mst).flowEvents
  | none => []

/-- The `event` keyword-block map of a parse. -/
def parsedEventMap (s : String) : List (String × FlowEvent) :=
  match parseDSLMain s with
  | some mst => mst.eventMap
  | none => []

/-- All events in the keyword-`event` map carry the literal rate 2. -/
def eventMapRatesOk (st : MState) : Prop :=
  ∀ e ∈ avalues st.eventMap, e.rate = 2

/-- The state after `assignLevel` first visits `n` at level `l`. -/
def pushNode (st : LevelState) (n : String) (l : Nat) : LevelState :=
  { visited := n :: st.visited, levels := aset st.levels n l }

/-! ## Concrete fixtures for the claim counterexamples and witnesses -/

/-- A diamond with a long and a short arm: `A → C`, `B → X → C`, `C → D`. -/
def diamondT : Topology :=
  { nodes := [⟨"A", "service", []⟩, ⟨"B", "service", []⟩, ⟨"X", "service", []⟩,
      ⟨"C", "service", []⟩, ⟨"D", "service", []⟩]
    edges := [⟨"A", "C", "right", "left"⟩, ⟨"B", "X", "right", "left"⟩,
      ⟨"X", "C", "right", "left"⟩, ⟨"C", "D", "right", "left"⟩]
    events := []
    transformations := []
    subsystems := []
    errors := [] }

/-- A topological ranking of `diamondT` (witnessing its acyclicity). -/
def diamondRank (s : String) : Nat :=
  if s = "A" then 0 else if s = "B" then 0 else if s = "X" then 1
  else if s = "C" then 2 else 3

/-- The chain `a → ab → abc` (string length is a ranking). -/
def chainT : Topology :=
  { nodes := [⟨"a", "service", []⟩, ⟨"ab", "service", []⟩,
      ⟨"abc", "service", []⟩]
    edges := [⟨"a", "ab", "right", "left"⟩, ⟨"ab", "abc", "right", "left"⟩]
    events := []
    transformations := []
    subsystems := []
    errors := [] }

/-- A plain event fixture. -/
def EV0 : FlowEvent :=
  { name := "e", label := none, color := .str "#6366f1", shape := "circle",
    size := 1, source := none, rate := 2, path := none }

/-- A straight layout edge from `A` to `B`. -/
def E0 : LayoutEdge :=
  { fromId := "A", toId := "B", fromPoint := ⟨0, 0⟩, toPoint := ⟨100, 0⟩,
    path := ⟨⟨0, 0⟩, ⟨0, 0⟩, ⟨100, 0⟩, ⟨100, 0⟩⟩ }

/-- A particle at the start of edge 0. -/
def P0 : Particle :=
  { event := EV0, originalEvent := EV0, currentEdgeIndex := 0, pathIndex := 0,
    progress := 0, x := 0, y := 0 }

/-- A particle at progress 0.9 on edge 0 (arrives within a 1000 ms tick). -/
def P9 : Particle :=
  { event := EV0, originalEvent := EV0, currentEdgeIndex := 0, pathIndex := 0,
    progress := mkRat 9 10, x := 0, y := 0 }

/-- A parked particle with 5 ms of countdown left. -/
def D5 : DelayedParticle :=
  { particle := P0, atNodeId := "B", remainingDelay := 5, totalDelay := 5 }

/-- A layout node carrying a 3 ms delay attribute. -/
def ND3 : LayoutNodeSim := { delay := some 3, transform := none, transformColor := none }

/-- A single-step itinerary (`path` of length 1). -/
def SB : PathStep := { nodeId := "B", attributes := none }

/-- An event with a single-step path. -/
def EVshort : FlowEvent := { EV0 with path := some [SB] }

/-- A particle whose event has a single-step path. -/
def Pshort : Particle :=
  { event := EVshort, originalEvent := EVshort, currentEdgeIndex := 0,
    pathIndex := 0, progress := 0, x := 0, y := 0 }

/-- The event produced by `parseDSL "event ping"`. -/
def EVping : FlowEvent :=
  { name := "ping", label := none, color := .str "#6366f1", shape := "circle",
    size := 1, source := none, rate := 2, path := none }

/-- C6, witness: the amended tick specification at the concrete rate-2
instance, starting from an empty timer. -/

theorem qadd_eq (a b : ℚ) : qadd a b = a + b := by
  have ha : (a.den : ℚ) ≠ 0 := by exact_mod_cast a.den_nz
  have hb : (b.den : ℚ) ≠ 0 := by exact_mod_cast b.den_nz
  rw [qadd, Rat.mkRat_eq_div]
  push_cast
  conv_rhs => rw [← Rat.num_div_den a, ← Rat.num_div_den b]
  field_simp

theorem qsub_eq (a b : ℚ) : qsub a b = a - b := by
  have ha : (a.den : ℚ) ≠ 0 := by exact_mod_cast a.den_nz
  have hb : (b.den : ℚ) ≠ 0 := by exact_mod_cast b.den_nz
  rw [qsub, Rat.mkRat_eq_div]
  push_cast
  conv_rhs => rw [← Rat.num_div_den a, ← Rat.num_div_den b]
  field_simp
  ring

theorem qmul_eq (a b : ℚ) : qmul a b = a * b := by
  have ha : (a.den : ℚ) ≠ 0 := by exact_mod_cast a.den_nz
  have hb : (b.den : ℚ) ≠ 0 := by exact_mod_cast b.den_nz
  rw [qmul, Rat.mkRat_eq_div]
  push_cast
  conv_rhs => rw [← Rat.num_div_den a, ← Rat.num_div_den b]
  field_simp

theorem qdiv_eq (a b : ℚ) : qdiv a b = a / b := by
  have ha : (a.den : ℚ) ≠ 0 := by exact_mod_cast a.den_nz
  have hb : (b.den : ℚ) ≠ 0 := by exact_mod_cast b.den_nz
  rw [qdiv, Rat.divInt_eq_div]
  push_cast
  rcases eq_or_ne b 0 with rfl | hbz
  · simp
  · have hbn : (b.num : ℚ) ≠ 0 := by
      simpa using Rat.num_ne_zero.mpr hbz
    conv_rhs => rw [← Rat.num_div_den a, ← Rat.num_div_den b]
    field_simp

theorem qneg_eq (a : ℚ) : qneg a = -a := by
  have ha : (a.den : ℚ) ≠ 0 := by exact_mod_cast a.den_nz
  rw [qneg, Rat.mkRat_eq_div]
  push_cast
  rw [neg_div, Rat.num_div_den]

theorem jsMin_eq (a b : ℚ) : jsMin a b = min a b := by
  rw [jsMin, min_def]

theorem optionHolds_some {α : Type} {a : α} {P : α → Prop} :
    optionHolds (some a) P ↔ P a := Iff.rfl

/-! ## Termination of the scanner (claim C1 machinery)

Every loop advances the cursor by at least one position per iteration, so
with the fuels `parseDSL` bakes in (`content.length + 1` everywhere) no
loop ever exhausts its fuel. -/

theorem charAt_none_iff {c : List Char} {pos : Nat} :
    charAt c pos = none ↔ c.length ≤ pos := by
  simp [charAt, List.get?_eq_none]

theorem skipToNl_le (c : List Char) (fuel pos : Nat) :
    pos ≤ skipToNl c fuel pos := by
  induction fuel generalizing pos with
  | zero => simp [skipToNl]
  | succ fuel ih =>
    simp only [skipToNl]
    cases charAt c pos with
    | none => exact Nat.le_refl _
    | some ch =>
      by_cases h : ch = '\n'
      · simp [h]
      · simpa [h] using Nat.le_trans (Nat.le_succ pos) (ih (pos + 1))

theorem skipWs_le (c : List Char) (fuel pos : Nat) :
    pos ≤ skipWs c fuel pos := by
  induction fuel generalizing pos with
  | zero => simp [skipWs]
  | succ fuel ih =>
    simp only [skipWs]
    cases charAt c pos with
    | none => exact Nat.le_refl _
    | some ch =>
      by_cases h1 : ch = '\n'
      · simpa [h1] using Nat.le_trans (Nat.le_succ pos) (ih (pos + 1))
      · by_cases h2 : jsWs ch
        · simpa [h1, h2] using Nat.le_trans (Nat.le_succ pos) (ih (pos + 1))
        · by_cases h3 : ch = '#'
          · simp only [h1, h2, h3, if_true, if_false, Bool.false_eq_true]
            exact Nat.le_trans (Nat.le_succ pos)
              (Nat.le_trans (skipToNl_le c fuel (pos + 1)) (ih _))
          · simp [h1, h2, h3]

/-- Where `skipWhitespace` stops (given fuel covering the remaining
input): end of input, or a character that is neither white-space nor the
start of a comment. -/
theorem skipWs_stop (c : List Char) (fuel pos : Nat)
    (hf : c.length < fuel + pos) :
    charAt c (skipWs c fuel pos) = none ∨
    ∃ ch, charAt c (skipWs c fuel pos) = some ch ∧ jsWs ch = false ∧ ch ≠ '#' := by
  induction fuel generalizing pos with
  | zero =>
    left
    simp only [skipWs]
    exact charAt_none_iff.mpr (Nat.le_of_lt (by simpa using hf))
  | succ fuel ih =>
    simp only [skipWs]
    cases hc : charAt c pos with
    | none => left; simp [hc]
    | some ch =>
      by_cases h1 : ch = '\n'
      · simp only [h1, if_true]
        exact ih (pos + 1) (by omega)
      · by_cases h2 : jsWs ch
        · simp only [h1, h2, if_true, if_false, Bool.false_eq_true]
          exact ih (pos + 1) (by omega)
        · by_cases h3 : ch = '#'
          · simp only [h1, h2, h3, if_true, if_false, Bool.false_eq_true]
            refine ih (skipToNl c fuel (pos + 1)) ?_
            have := skipToNl_le c fuel (pos + 1)
            omega
          · right
            refine ⟨ch, ?_, by simpa using h2, h3⟩
            simpa [h1, h2, h3]

/-- `skipWhitespace` is the identity on a position already satisfying the
stop condition. -/
theorem skipWs_noop (c : List Char) (fuel pos : Nat)
    (h : charAt c pos = none ∨
      ∃ ch, charAt c pos = some ch ∧ jsWs ch = false ∧ ch ≠ '#') :
    skipWs c fuel pos = pos := by
  cases fuel with
  | zero => simp [skipWs]
  | succ fuel =>
    simp only [skipWs]
    rcases h with h | ⟨ch, hch, hws, hht⟩
    · simp [h]
    · have hnl : ch ≠ '\n' := by
        intro h'
        rw [h'] at hws
        simp [jsWs] at hws
      simp [hch, hnl, hws, hht]

theorem takeIdent_snd (c : List Char) (fuel pos : Nat) :
    (takeIdent c fuel pos).2 = pos + (takeIdent c fuel pos).1.length := by
  induction fuel generalizing pos with
  | zero => simp [takeIdent]
  | succ fuel ih =>
    simp only [takeIdent]
    cases charAt c pos with
    | none => simp
    | some ch =>
      by_cases h : isIdentChar ch
      · simpa [h] using by rw [ih (pos + 1)]; omega
      · simp [h]

theorem takeIdent_le (c : List Char) (fuel pos : Nat) :
    pos ≤ (takeIdent c fuel pos).2 := by
  rw [takeIdent_snd]; omega

theorem parseIdent_le (c : List Char) (pos : Nat) :
    pos ≤ (parseIdent c pos).2 := by
  unfold parseIdent
  exact Nat.le_trans (skipWs_le c (c.length + 1) pos) (takeIdent_le c _ _)

/-- A non-empty identifier advances the cursor strictly. -/
theorem parseIdent_advance (c : List Char) (pos : Nat)
    (h : (parseIdent c pos).1 ≠ []) :
    pos + 1 ≤ (parseIdent c pos).2 := by
  have h1 := skipWs_le c (c.length + 1) pos
  have hsnd := takeIdent_snd c (c.length + 1) (skipWs c (c.length + 1) pos)
  unfold parseIdent at h ⊢
  have h2 : 1 ≤ (takeIdent c (c.length + 1) (skipWs c (c.length + 1) pos)).1.length :=
    Nat.succ_le_of_lt (List.length_pos.mpr h)
  omega

/-- If the identifier scan returns nothing, the cursor did not move past
the leading white-space. -/
theorem parseIdent_nil (c : List Char) (pos : Nat)
    (h : (parseIdent c pos).1 = []) :
    (parseIdent c pos).2 = skipWs c (c.length + 1) pos := by
  unfold parseIdent at *
  rw [takeIdent_snd] at *
  simp [h]

theorem takeUntil_le (c : List Char) (stop : Char) (fuel pos : Nat) :
    pos ≤ (takeUntil c stop fuel pos).2 := by
  induction fuel generalizing pos with
  | zero => simp [takeUntil]
  | succ fuel ih =>
    simp only [takeUntil]
    cases charAt c pos with
    | none => simp
    | some ch =>
      by_cases h : ch = stop
      · simp [h]
      · simpa [h] using Nat.le_trans (Nat.le_succ pos) (ih (pos + 1))

theorem parseStr_le (c : List Char) (pos : Nat) :
    pos ≤ (parseStr c pos).2 := by
  have h0 := skipWs_le c (c.length + 1) pos
  have h1 := takeUntil_le c '"' (c.length + 1) (skipWs c (c.length + 1) pos + 1)
  have h2 := takeUntil_le c '\'' (c.length + 1) (skipWs c (c.length + 1) pos + 1)
  simp only [parseStr]
  split
  · show pos ≤ (takeUntil c '"' (c.length + 1) (skipWs c (c.length + 1) pos + 1)).2 + 1
    omega
  · show pos ≤ (takeUntil c '\'' (c.length + 1) (skipWs c (c.length + 1) pos + 1)).2 + 1
    omega
  · exact h0

theorem takeNumChars_le (c : List Char) (fuel pos : Nat) :
    pos ≤ (takeNumChars c fuel pos).2 := by
  induction fuel generalizing pos with
  | zero => simp [takeNumChars]
  | succ fuel ih =>
    simp only [takeNumChars]
    cases charAt c pos with
    | none => simp
    | some ch =>
      by_cases h : ch.isDigit || ch = '.'
      · have := ih (pos + 1)
        simp only [h, if_true]
        show pos ≤ (takeNumChars c fuel (pos + 1)).2
        omega
      · simp [h]

theorem parseNum_le (c : List Char) (pos : Nat) :
    pos ≤ (parseNum c pos).2 := by
  have h0 := skipWs_le c (c.length + 1) pos
  have h1 := takeNumChars_le c (c.length + 1) (skipWs c (c.length + 1) pos)
  have h2 := takeNumChars_le c (c.length + 1) (skipWs c (c.length + 1) pos + 1)
  simp only [parseNum]
  split <;>
    first
    | (show pos ≤ (takeNumChars c (c.length + 1) (skipWs c (c.length + 1) pos + 1)).2
       omega)
    | (show pos ≤ (takeNumChars c (c.length + 1) (skipWs c (c.length + 1) pos)).2
       omega)

theorem readLine_le (c : List Char) (fuel pos : Nat) :
    pos ≤ (readLine c fuel pos).2 := by
  induction fuel generalizing pos with
  | zero => simp [readLine]
  | succ fuel ih =>
    simp only [readLine]
    cases charAt c pos with
    | none => simp
    | some ch =>
      by_cases h : ch = '\n'
      · simp [h]
      · have := ih (pos + 1)
        simp only [h, if_false, Bool.false_eq_true]
        show pos ≤ (readLine c fuel (pos + 1)).2
        omega

theorem commaSkip_le (c : List Char) (pos : Nat) : pos ≤ commaSkip c pos := by
  have h0 := skipWs_le c (c.length + 1) pos
  simp only [commaSkip]
  split <;> omega

theorem semiSkip_le (c : List Char) (pos : Nat) : pos ≤ semiSkip c pos := by
  have h0 := skipWs_le c (c.length + 1) pos
  simp only [semiSkip]
  split <;> omega

/-- The bracketed-array loop completes (and the cursor is monotone)
whenever the fuel covers the remaining input: every iteration advances
the cursor by at least one position, including on a character that is not
an identifier (the historical hang). -/
theorem arrLoop_complete (c : List Char) :
    ∀ fuel pos arr, c.length < fuel + pos →
    ∃ out, arrLoop c fuel pos arr = some out ∧ pos ≤ out.2 := by
  intro fuel
  induction fuel with
  | zero =>
    intro pos arr h
    have hge : pos ≥ c.length := by omega
    refine ⟨(arr, pos), ?_, Nat.le_refl _⟩
    rw [arrLoop]
    simp [hge]
  | succ fuel ih =>
    intro pos arr h
    rw [arrLoop]
    by_cases h0 : pos ≥ c.length ∨ chIs c pos ']' = true
    · exact ⟨(arr, pos), by simp [h0], Nat.le_refl _⟩
    · rw [if_neg h0]
      have hp1 : pos ≤ skipWs c (c.length + 1) pos := skipWs_le c _ pos
      by_cases h1 : skipWs c (c.length + 1) pos ≥ c.length ∨
          chIs c (skipWs c (c.length + 1) pos) ']' = true
      · exact ⟨(arr, skipWs c (c.length + 1) pos), by simp [h1], hp1⟩
      · rw [if_neg h1]
        cases hpi : parseIdent c (skipWs c (c.length + 1) pos) with
        | mk item pos₂ =>
          simp only []
          have hle₂ : skipWs c (c.length + 1) pos ≤ pos₂ := by
            have := parseIdent_le c (skipWs c (c.length + 1) pos)
            rw [hpi] at this; exact this
          by_cases hitem : item = []
          · -- the unrecognized-character branch: `pos++`
            have hnil : (parseIdent c (skipWs c (c.length + 1) pos)).1 = [] := by
              rw [hpi]; exact hitem
            have hpos₂ : pos₂ = skipWs c (c.length + 1) pos := by
              have h2 := parseIdent_nil c (skipWs c (c.length + 1) pos) hnil
              have h3 : skipWs c (c.length + 1) (skipWs c (c.length + 1) pos) =
                  skipWs c (c.length + 1) pos :=
                skipWs_noop c _ _ (skipWs_stop c (c.length + 1) pos (by omega))
              rw [hpi] at h2
              simpa [h3] using h2
            have hch : chIs c pos₂ ']' = false := by
              rw [hpos₂]
              rcases (not_or.mp h1).2 with h'
              simpa using h'
            have hcond : ¬(item ≠ []) := by simp [hitem]
            rw [if_neg hcond]
            simp only [hch, Bool.false_eq_true, if_false]
            have hcs := commaSkip_le c (pos₂ + 1)
            obtain ⟨out, hout, hle⟩ := ih (commaSkip c (pos₂ + 1)) arr (by omega)
            exact ⟨out, hout, by omega⟩
          · -- a real identifier was consumed
            have hadv : skipWs c (c.length + 1) pos + 1 ≤ pos₂ := by
              have := parseIdent_advance c (skipWs c (c.length + 1) pos)
                (by rw [hpi]; exact hitem)
              rw [hpi] at this; exact this
            simp only [if_pos hitem]
            have hcs := commaSkip_le c pos₂
            obtain ⟨out, hout, hle⟩ :=
              ih (commaSkip c pos₂) (arr ++ [mkStr item]) (by omega)
            exact ⟨out, hout, by omega⟩

theorem bvColon_le (c : List Char) (pos₂ : Nat) : pos₂ ≤ bvColon c pos₂ := by
  have := skipWs_le c (c.length + 1) pos₂
  simp only [bvColon]
  split <;> omega

theorem bvTupleComma_le (c : List Char) (pos₅ : Nat) :
    pos₅ ≤ bvTupleComma c pos₅ := by
  have h1 := parseNum_le c (pos₅ + 1)
  have h2 := skipWs_le c (c.length + 1) (parseNum c (pos₅ + 1)).2
  simp only [bvTupleComma]
  split <;> omega

theorem bvTupleEnd_le (c : List Char) (pos₅ : Nat) :
    pos₅ ≤ bvTupleEnd c pos₅ := by
  have h0 := bvTupleComma_le c pos₅
  have h1 := parseNum_le c (bvTupleComma c pos₅)
  have h2 := skipWs_le c (c.length + 1) (parseNum c (bvTupleComma c pos₅)).2
  simp only [bvTupleEnd]
  split <;> omega

theorem bvOther_le (c : List Char) (key : List Char) (pos₅ : Nat) (block : Block) :
    pos₅ ≤ (bvOther c key pos₅ block).2 := by
  simp only [bvOther]
  split
  · exact Nat.le_trans (bvTupleEnd_le c pos₅) (semiSkip_le c _)
  · split
    · exact Nat.le_trans (parseStr_le c pos₅) (semiSkip_le c _)
    · exact Nat.le_trans (parseIdent_le c pos₅) (semiSkip_le c _)

/-- One `key: value` entry always completes and moves the cursor
monotonically. -/
theorem blockValue_complete (c : List Char) (key : List Char) (pos₂ : Nat)
    (block : Block) :
    ∃ out, blockValue c key pos₂ block = some out ∧ pos₂ ≤ out.2 := by
  have hp5 : pos₂ ≤ skipWs c (c.length + 1) (bvColon c pos₂) :=
    Nat.le_trans (bvColon_le c pos₂) (skipWs_le c _ _)
  simp only [blockValue]
  split
  · -- bracketed array
    obtain ⟨out, hout, hle⟩ := arrLoop_complete c (c.length + 1)
      (skipWs c (c.length + 1) (bvColon c pos₂) + 1) [] (by omega)
    cases out with
    | mk arr pos₆ =>
      rw [hout]
      refine ⟨_, rfl, ?_⟩
      have h7 : pos₆ ≤ (if pos₆ < c.length then pos₆ + 1 else pos₆) := by
        split <;> omega
      have h8 := semiSkip_le c (if pos₆ < c.length then pos₆ + 1 else pos₆)
      simp only [] at hle ⊢
      omega
  · exact ⟨_, rfl, Nat.le_trans hp5 (bvOther_le c key _ block)⟩

/-- The block-body loop completes (cursor monotone) whenever the fuel
covers the remaining input: every iteration advances the cursor by at
least one position (`pos++` on an unrecognized key character, the key
length otherwise). -/
theorem blockLoop_complete (c : List Char) :
    ∀ fuel pos block, c.length < fuel + pos →
    ∃ out, blockLoop c fuel pos block = some out ∧ pos ≤ out.2 := by
  intro fuel
  induction fuel with
  | zero =>
    intro pos block h
    have hge : pos ≥ c.length := by omega
    refine ⟨(block, pos), ?_, Nat.le_refl _⟩
    rw [blockLoop]
    simp [hge]
  | succ fuel ih =>
    intro pos block h
    rw [blockLoop]
    by_cases h0 : pos ≥ c.length
    · exact ⟨(block, pos), by simp [h0], Nat.le_refl _⟩
    · rw [if_neg h0]
      have hp1 : pos ≤ skipWs c (c.length + 1) pos := skipWs_le c _ pos
      by_cases h1 : chIs c (skipWs c (c.length + 1) pos) '}' = true
      · refine ⟨(block, skipWs c (c.length + 1) pos + 1), by simp [h1], by omega⟩
      · rw [if_neg h1]
        cases hpi : parseIdent c (skipWs c (c.length + 1) pos) with
        | mk key pos₂ =>
          by_cases hkey : key = []
          · subst hkey
            simp only [if_pos rfl]
            have hle₂ : skipWs c (c.length + 1) pos ≤ pos₂ := by
              have := parseIdent_le c (skipWs c (c.length + 1) pos)
              rw [hpi] at this; exact this
            obtain ⟨out, hout, hle⟩ := ih (pos₂ + 1) block (by omega)
            exact ⟨out, hout, by omega⟩
          · simp only [if_neg hkey]
            have hadv : skipWs c (c.length + 1) pos + 1 ≤ pos₂ := by
              have := parseIdent_advance c (skipWs c (c.length + 1) pos)
                (by rw [hpi]; exact hkey)
              rw [hpi] at this; exact this
            obtain ⟨bv, hbv, hbvle⟩ := blockValue_complete c key pos₂ block
            cases bv with
            | mk block' pos' =>
              rw [hbv]
              obtain ⟨out, hout, hle⟩ := ih pos' block' (by omega)
              refine ⟨out, ?_, by omega⟩
              simpa using hout

/-- `parseBlock` always completes with a monotone cursor. -/
theorem parseBlock_complete (c : List Char) (pos : Nat) :
    ∃ out, parseBlock c pos = some out ∧ pos ≤ out.2 := by
  have h0 := skipWs_le c (c.length + 1) pos
  simp only [parseBlock]
  split
  · obtain ⟨out, hout, hle⟩ := blockLoop_complete c (c.length + 1)
      (skipWs c (c.length + 1) pos + 1) [] (by omega)
    exact ⟨out, hout, by omega⟩
  · exact ⟨_, rfl, h0⟩

theorem handleEvent_complete (c : List Char) (st : MState) :
    ∃ st', handleEvent c st = some st' ∧ st.pos ≤ st'.pos := by
  simp only [handleEvent]
  cases hpi : parseIdent c st.pos with
  | mk name pos₁ =>
    have h1 : st.pos ≤ pos₁ := by
      have := parseIdent_le c st.pos; rw [hpi] at this; exact this
    obtain ⟨out, hout, hle⟩ := parseBlock_complete c pos₁
    cases out with
    | mk block pos₂ =>
      rw [hout]
      refine ⟨_, rfl, ?_⟩
      show st.pos ≤ pos₂
      omega

theorem handleTransformation_complete (c : List Char) (st : MState) :
    ∃ st', handleTransformation c st = some st' ∧ st.pos ≤ st'.pos := by
  simp only [handleTransformation]
  cases hpi : parseIdent c st.pos with
  | mk name pos₁ =>
    have h1 : st.pos ≤ pos₁ := by
      have := parseIdent_le c st.pos; rw [hpi] at this; exact this
    obtain ⟨out, hout, hle⟩ := parseBlock_complete c pos₁
    cases out with
    | mk block pos₂ =>
      rw [hout]
      refine ⟨_, rfl, ?_⟩
      show st.pos ≤ pos₂
      omega

theorem handleNode_complete (c : List Char) (st : MState) :
    ∃ st', handleNode c st = some st' ∧ st.pos ≤ st'.pos := by
  simp only [handleNode]
  cases hpi : parseIdent c st.pos with
  | mk name pos₁ =>
    have h1 : st.pos ≤ pos₁ := by
      have := parseIdent_le c st.pos; rw [hpi] at this; exact this
    obtain ⟨out, hout, hle⟩ := parseBlock_complete c pos₁
    cases out with
    | mk block pos₂ =>
      rw [hout]
      refine ⟨_, rfl, ?_⟩
      show st.pos ≤ pos₂
      omega

theorem handleSubsystemKw_complete (c : List Char) (st : MState) :
    ∃ st', handleSubsystemKw c st = some st' ∧ st.pos ≤ st'.pos := by
  simp only [handleSubsystemKw]
  cases hps : parseStr c st.pos with
  | mk s pos₁ =>
    have h1 : st.pos ≤ pos₁ := by
      have := parseStr_le c st.pos; rw [hps] at this; exact this
    by_cases hs : s ≠ []
    · simp only [if_pos hs]
      obtain ⟨out, hout, hle⟩ := parseBlock_complete c pos₁
      cases out with
      | mk block pos₃ =>
        rw [hout]
        refine ⟨_, rfl, ?_⟩
        show st.pos ≤ pos₃
        omega
    · simp only [if_neg hs]
      cases hpi : parseIdent c pos₁ with
      | mk name pos₂ =>
        have h2 : pos₁ ≤ pos₂ := by
          have := parseIdent_le c pos₁; rw [hpi] at this; exact this
        obtain ⟨out, hout, hle⟩ := parseBlock_complete c pos₂
        cases out with
        | mk block pos₃ =>
          rw [hout]
          refine ⟨_, rfl, ?_⟩
          show st.pos ≤ pos₃
          omega

theorem handleFlow_complete (c : List Char) (st : MState) :
    ∃ st', handleFlow c st = some st' ∧ st.pos ≤ st'.pos := by
  simp only [handleFlow]
  cases hpi : parseIdent c st.pos with
  | mk name pos₁ =>
    have h1 : st.pos ≤ pos₁ := by
      have := parseIdent_le c st.pos; rw [hpi] at this; exact this
    obtain ⟨out, hout, hle⟩ := parseBlock_complete c pos₁
    cases out with
    | mk block pos₂ =>
      rw [hout]
      refine ⟨_, rfl, ?_⟩
      show st.pos ≤ pos₂
      omega

theorem handleOther_complete (c : List Char) (kw : List Char) (st : MState) :
    ∃ st', handleOther c kw st = some st' ∧ st.pos ≤ st'.pos := by
  simp only [handleOther]
  have h1 : st.pos ≤ skipWs c (c.length + 1) st.pos := skipWs_le c _ _
  split
  · -- edge shorthand
    cases hrl : readLine c (c.length + 1) (skipWs c (c.length + 1) st.pos) with
    | mk lineRest pos₂ =>
      have h2 : skipWs c (c.length + 1) st.pos ≤ pos₂ := by
        have := readLine_le c (c.length + 1) (skipWs c (c.length + 1) st.pos)
        rw [hrl] at this; exact this
      cases hpe : processEdgeLine (kw ++ lineRest) st.nodeMap st.edges with
      | mk nm es =>
        refine ⟨_, rfl, ?_⟩
        show st.pos ≤ pos₂
        omega
  · split
    · -- colon node definition
      cases hrl : readLine c (c.length + 1)
          (skipWs c (c.length + 1) (skipWs c (c.length + 1) st.pos + 1)) with
      | mk defLine pos₃ =>
        have h2 : skipWs c (c.length + 1) st.pos + 1 ≤ pos₃ := by
          have ha := skipWs_le c (c.length + 1) (skipWs c (c.length + 1) st.pos + 1)
          have hb := readLine_le c (c.length + 1)
            (skipWs c (c.length + 1) (skipWs c (c.length + 1) st.pos + 1))
          rw [hrl] at hb; omega
        refine ⟨_, rfl, ?_⟩
        show st.pos ≤ pos₃
        omega
    · exact ⟨_, rfl, h1⟩

theorem dispatch_complete (c : List Char) (kw : List Char) (st : MState) :
    ∃ st', dispatch c kw st = some st' ∧ st.pos ≤ st'.pos := by
  simp only [dispatch]
  split
  · exact handleEvent_complete c st
  · split
    · exact handleTransformation_complete c st
    · split
      · exact handleNode_complete c st
      · split
        · exact handleSubsystemKw_complete c st
        · split
          · exact handleFlow_complete c st
          · exact handleOther_complete c kw st

/-- The main keyword loop completes whenever the fuel covers the
remaining input: an iteration either consumes at least the keyword's
first character, or does `pos++` on a non-keyword character. -/
theorem mainLoop_complete (c : List Char) :
    ∀ fuel st, c.length < fuel + st.pos →
    ∃ st', mainLoop c fuel st = some st' := by
  intro fuel
  induction fuel with
  | zero =>
    intro st h
    have hge : st.pos ≥ c.length := by omega
    rw [mainLoop]
    exact ⟨st, by simp [hge]⟩
  | succ fuel ih =>
    intro st h
    rw [mainLoop]
    by_cases h0 : st.pos ≥ c.length
    · exact ⟨st, by simp [h0]⟩
    · rw [if_neg h0]
      have hp1 : st.pos ≤ skipWs c (c.length + 1) st.pos := skipWs_le c _ _
      by_cases h1 : skipWs c (c.length + 1) st.pos ≥ c.length
      · exact ⟨{ st with pos := skipWs c (c.length + 1) st.pos }, by simp [h1]⟩
      · rw [if_neg h1]
        cases hpi : parseIdent c (skipWs c (c.length + 1) st.pos) with
        | mk kw pos₂ =>
          by_cases hkw : kw = []
          · subst hkw
            simp only [if_pos rfl]
            have hle₂ : skipWs c (c.length + 1) st.pos ≤ pos₂ := by
              have := parseIdent_le c (skipWs c (c.length + 1) st.pos)
              rw [hpi] at this; exact this
            exact ih { st with pos := pos₂ + 1 } (by simp; omega)
          · simp only [if_neg hkw]
            have hadv : skipWs c (c.length + 1) st.pos + 1 ≤ pos₂ := by
              have := parseIdent_advance c (skipWs c (c.length + 1) st.pos)
                (by rw [hpi]; exact hkw)
              rw [hpi] at this; exact this
            obtain ⟨st', hdisp, hdle⟩ := dispatch_complete c kw { st with pos := pos₂ }
            rw [hdisp]
            obtain ⟨st'', hst''⟩ := ih st' (by simp at hdle ⊢; omega)
            exact ⟨st'', by simpa using hst''⟩

/-- `parseDSLMain` (the whole block-grammar pass) always completes. -/
theorem parseDSLMain_complete (s : String) :
    ∃ mst, parseDSLMain s = some mst := by
  exact mainLoop_complete (chs s) ((chs s).length + 1) initialMState (by simp [initialMState])

/-- `parseDSLRaw` never hits fuel exhaustion: `parseDSL` is total. -/
theorem parseDSLRaw_isSome (s : String) : ∃ t, parseDSLRaw s = some t := by
  by_cases hb : dslBlank s = true
  · exact ⟨emptyTopology, by simp [parseDSLRaw, hb]⟩
  · obtain ⟨mst, hmst⟩ := parseDSLMain_complete s
    refine ⟨assembleTopology mst (runLegacy s mst), ?_⟩
    simp [parseDSLRaw, hb, hmst]

theorem avalues_aset {β : Type} (m : List (String × β)) (k : String) (x v : β) :
    v ∈ avalues (aset m k x) → v = x ∨ v ∈ avalues m := by
  induction m with
  | nil => intro h; simpa [aset, avalues] using h
  | cons hd tl ih =>
    cases hd with
    | mk k' v' =>
      intro h
      by_cases hk : k' = k
      · simp only [aset, if_pos hk, avalues, List.map_cons, List.mem_cons] at h
        simp only [avalues, List.map_cons, List.mem_cons]
        tauto
      · simp only [aset, if_neg hk, avalues, List.map_cons, List.mem_cons] at h
        simp only [avalues, List.map_cons, List.mem_cons]
        rcases h with h | h
        · tauto
        · rcases ih h with h' | h' <;> tauto

theorem handleEvent_eventMap (c : List Char) (st st' : MState)
    (h : handleEvent c st = some st') :
    ∃ name ev, ev.rate = 2 ∧ st'.eventMap = aset st.eventMap name ev := by
  rcases hpi : parseIdent c st.pos with ⟨name, pos₁⟩
  rcases hpb : parseBlock c pos₁ with _ | ⟨block, pos₂⟩
  · simp [handleEvent, hpi, hpb] at h
  · simp only [handleEvent, hpi, hpb, Option.some_bind, Option.some.injEq] at h
    exact ⟨mkStr name, _, rfl, by rw [← h]⟩

theorem handleTransformation_eventMap (c : List Char) (st st' : MState)
    (h : handleTransformation c st = some st') : st'.eventMap = st.eventMap := by
  rcases hpi : parseIdent c st.pos with ⟨name, pos₁⟩
  rcases hpb : parseBlock c pos₁ with _ | ⟨block, pos₂⟩
  · simp [handleTransformation, hpi, hpb] at h
  · simp only [handleTransformation, hpi, hpb, Option.some_bind,
      Option.some.injEq] at h
    rw [← h]

theorem handleNode_eventMap (c : List Char) (st st' : MState)
    (h : handleNode c st = some st') : st'.eventMap = st.eventMap := by
  rcases hpi : parseIdent c st.pos with ⟨name, pos₁⟩
  rcases hpb : parseBlock c pos₁ with _ | ⟨block, pos₂⟩
  · simp [handleNode, hpi, hpb] at h
  · simp only [handleNode, hpi, hpb, Option.some_bind, Option.some.injEq] at h
    rw [← h]

theorem handleSubsystemKw_eventMap (c : List Char) (st st' : MState)
    (h : handleSubsystemKw c st = some st') : st'.eventMap = st.eventMap := by
  rcases hps : parseStr c st.pos with ⟨s, pos₁⟩
  simp only [handleSubsystemKw, hps] at h
  by_cases hs : s ≠ []
  · rw [if_pos hs] at h
    dsimp only at h
    rcases hpb : parseBlock c pos₁ with _ | ⟨block, pos₃⟩
    · rw [hpb] at h; simp at h
    · rw [hpb] at h
      simp only [Option.some_bind, Option.some.injEq] at h
      rw [← h]
  · rw [if_neg hs] at h
    rcases hpi : parseIdent c pos₁ with ⟨name, pos₂⟩
    rw [hpi] at h
    dsimp only at h
    rcases hpb : parseBlock c pos₂ with _ | ⟨block, pos₃⟩
    · rw [hpb] at h; simp at h
    · rw [hpb] at h
      simp only [Option.some_bind, Option.some.injEq] at h
      rw [← h]

theorem handleFlow_eventMap (c : List Char) (st st' : MState)
    (h : handleFlow c st = some st') : st'.eventMap = st.eventMap := by
  rcases hpi : parseIdent c st.pos with ⟨name, pos₁⟩
  rcases hpb : parseBlock c pos₁ with _ | ⟨block, pos₂⟩
  · simp [handleFlow, hpi, hpb] at h
  · simp only [handleFlow, hpi, hpb, Option.some_bind, Option.some.injEq] at h
    rw [← h]

theorem handleOther_eventMap (c : List Char) (kw : List Char) (st st' : MState)
    (h : handleOther c kw st = some st') : st'.eventMap = st.eventMap := by
  simp only [handleOther] at h
  split at h
  · rcases hrl : readLine c (c.length + 1) (skipWs c (c.length + 1) st.pos)
      with ⟨lineRest, pos₂⟩
    rw [hrl] at h
    simp only [Option.some.injEq] at h
    rw [← h]
  · split at h
    · rcases hrl : readLine c (c.length + 1)
        (skipWs c (c.length + 1) (skipWs c (c.length + 1) st.pos + 1))
        with ⟨defLine, pos₃⟩
      rw [hrl] at h
      simp only [Option.some.injEq] at h
      rw [← h]
      split <;> split <;> rfl
    · simp only [Option.some.injEq] at h
      rw [← h]

theorem dispatch_rates (c : List Char) (kw : List Char) (st st' : MState)
    (h : dispatch c kw st = some st') (hok : eventMapRatesOk st) :
    eventMapRatesOk st' := by
  simp only [dispatch] at h
  split at h
  · obtain ⟨name, ev, hev, hmap⟩ := handleEvent_eventMap c st st' h
    intro e he
    rw [hmap] at he
    rcases avalues_aset _ _ _ _ he with rfl | he'
    · exact hev
    · exact hok e he'
  · split at h
    · intro e he
      rw [handleTransformation_eventMap c st st' h] at he
      exact hok e he
    · split at h
      · intro e he
        rw [handleNode_eventMap c st st' h] at he
        exact hok e he
      · split at h
        · intro e he
          rw [handleSubsystemKw_eventMap c st st' h] at he
          exact hok e he
        · split at h
          · intro e he
            rw [handleFlow_eventMap c st st' h] at he
            exact hok e he
          · intro e he
            rw [handleOther_eventMap c kw st st' h] at he
            exact hok e he

theorem mainLoop_rates (c : List Char) :
    ∀ fuel st st', mainLoop c fuel st = some st' →
    eventMapRatesOk st → eventMapRatesOk st' := by
  intro fuel
  induction fuel with
  | zero =>
    intro st st' h hok
    rw [mainLoop] at h
    by_cases h0 : st.pos ≥ c.length
    · rw [if_pos h0] at h
      cases h
      exact hok
    · rw [if_neg h0] at h
      cases h
  | succ fuel ih =>
    intro st st' h hok
    rw [mainLoop] at h
    by_cases h0 : st.pos ≥ c.length
    · rw [if_pos h0] at h
      cases h
      exact hok
    · rw [if_neg h0] at h
      by_cases h1 : skipWs c (c.length + 1) st.pos ≥ c.length
      · rw [if_pos h1] at h
        cases h
        exact hok
      · rw [if_neg h1] at h
        rcases hpi : parseIdent c (skipWs c (c.length + 1) st.pos) with ⟨kw, pos₂⟩
        rw [hpi] at h
        dsimp only at h
        by_cases hkw : kw = []
        · rw [if_pos hkw] at h
          exact ih _ _ h hok
        · rw [if_neg hkw] at h
          rcases hd : dispatch c kw { st with pos := pos₂ } with _ | st₁
          · rw [hd] at h
            simp at h
          · rw [hd] at h
            simp only [Option.some_bind] at h
            exact ih _ _ h (dispatch_rates c kw _ _ hd (by
              intro e he
              exact hok e he))

theorem ite_pair_nil_iff (p q : Prop) [Decidable p] [Decidable q] (m m' : String) :
    ((if p then ([] : List String) else [m]) ++
     (if q then ([] : List String) else [m'])) = [] ↔ p ∧ q := by
  by_cases hp : p <;> by_cases hq : q <;> simp [hp, hq]

theorem ite_err_nil_iff (p : Prop) [Decidable p] (m : String) :
    (if p then [m] else ([] : List String)) = [] ↔ ¬ p := by
  by_cases hp : p <;> simp [hp]

/-- `validateTopology` reports no errors exactly on the truthiness-guarded
referential closure. -/
theorem validate_errors_iff_closure (t : Topology) :
    (validateTopology t).errors = [] ↔ referentialClosureCode t := by
  simp only [validateTopology, referentialClosureCode]
  rw [List.append_eq_nil, List.append_eq_nil, List.append_eq_nil,
    List.append_eq_nil]
  rw [List.bind_eq_nil, List.bind_eq_nil, List.bind_eq_nil, List.bind_eq_nil,
    List.bind_eq_nil]
  constructor
  · rintro ⟨⟨⟨⟨h1, h2⟩, h3⟩, h4⟩, h5⟩
    refine ⟨?_, ?_, ?_, ?_, ?_⟩
    · intro e he
      have := (ite_pair_nil_iff _ _ _ _).mp (h1 e he)
      exact ⟨List.elem_iff.mp this.1, List.elem_iff.mp this.2⟩
    · intro ev hev
      have h := h2 ev hev
      cases hs : ev.source with
      | none => simp [optionHolds]
      | some v =>
        rw [hs] at h
        rw [optionHolds_some]
        intro htr
        by_contra hmem
        simp [ite_err_nil_iff, htr, hmem] at h
    · intro tr htr
      have h := (List.append_eq_nil.mp (h3 tr htr))
      constructor
      · intro hin
        by_contra hmem
        simp [ite_err_nil_iff, hin, hmem] at h
      · intro hout
        by_contra hmem
        simp [ite_err_nil_iff, hout, hmem] at h
    · intro n hn
      have h := h4 n hn
      cases ha : aget n.attributes "transformation" with
      | none => simp [optionHolds]
      | some v =>
        rw [ha] at h
        rw [optionHolds_some]
        intro htr
        by_contra hmem
        simp [ite_err_nil_iff, htr, hmem] at h
    · intro sub hsub x hx
      have h := (List.bind_eq_nil.mp (h5 sub hsub)) x hx
      by_contra hmem
      have hnc : ¬ (t.nodes.map Node.id).contains x = true := by
        intro hc
        exact hmem (List.elem_iff.mp hc)
      simp [hnc] at h
      exact hmem (List.mem_map.mpr h)
  · rintro ⟨h1, h2, h3, h4, h5⟩
    refine ⟨⟨⟨⟨?_, ?_⟩, ?_⟩, ?_⟩, ?_⟩
    · intro e he
      have := h1 e he
      exact (ite_pair_nil_iff _ _ _ _).mpr
        ⟨List.elem_iff.mpr this.1, List.elem_iff.mpr this.2⟩
    · intro ev hev
      have h := h2 ev hev
      cases hs : ev.source with
      | none => simp
      | some v =>
        rw [hs, optionHolds_some] at h
        by_cases htr : v.truthy = true
        · simp [htr, h htr]
        · simp [htr]
    · intro tr htr
      have h := h3 tr htr
      rw [List.append_eq_nil]
      constructor
      · by_cases hin : tr.input.truthy = true
        · simp [hin, h.1 hin]
        · simp [hin]
      · by_cases hout : tr.output.truthy = true
        · simp [hout, h.2 hout]
        · simp [hout]
    · intro n hn
      have h := h4 n hn
      cases ha : aget n.attributes "transformation" with
      | none => simp
      | some v =>
        rw [ha, optionHolds_some] at h
        by_cases htr : v.truthy = true
        · simp [htr, h htr]
        · simp [htr]
    · intro sub hsub
      rw [List.bind_eq_nil]
      intro x hx
      simp [List.elem_iff.mpr (h5 sub hsub x hx)]
      exact List.mem_map.mp (h5 sub hsub x hx)

theorem validate_valid_iff (t : Topology) :
    (validateTopology t).valid = true ↔ (validateTopology t).errors = [] := by
  simp only [validateTopology]
  exact List.isEmpty_iff

theorem parseDSL_eq_of_main (s : String) (mst : MState)
    (hb : dslBlank s = false) (hm : parseDSLMain s = some mst) :
    parseDSL s = assembleTopology mst (runLegacy s mst) := by
  simp [parseDSL, parseDSLRaw, hb, hm]

/-- Assembly analysis: when neither grammar produced an event, exactly
the default event is returned; and for non-blank input the event list is
never empty. -/
theorem parseDSL_default_event_core (s : String) (hb : dslBlank s = false) :
    ((parsedFlowEvents s = [] ∧ parsedEventMap s = []) →
      (parseDSL s).events = [defaultEvent])
    ∧ (parseDSL s).events ≠ [] := by
  obtain ⟨mst, hm⟩ := parseDSLMain_complete s
  have heq := parseDSL_eq_of_main s mst hb hm
  constructor
  · rintro ⟨hf, he⟩
    have hf' : (runLegacy s mst).flowEvents = [] := by
      simpa [parsedFlowEvents, hm] using hf
    have he' : mst.eventMap = [] := by
      simpa [parsedEventMap, hm] using he
    rw [heq]
    simp [assembleTopology, hf', he', avalues]
  · rw [heq]
    simp only [assembleTopology]
    by_cases hf : (runLegacy s mst).flowEvents = []
    · simp only [hf, ne_eq, not_true_eq_false, if_false]
      by_cases hev : avalues mst.eventMap = []
      · simp [hev]
      · simp [hev]
    · simp [hf]

/-- Every parsed event either carries the literal default rate 2 or is a
flow-block/legacy event (whose declared rate is stored as written). -/
theorem parseDSL_rate_core (s : String) (e : FlowEvent)
    (he : e ∈ (parseDSL s).events) :
    e.rate = 2 ∨ e ∈ parsedFlowEvents s := by
  by_cases hb : dslBlank s = true
  · have : parseDSL s = emptyTopology := by simp [parseDSL, parseDSLRaw, hb]
    rw [this] at he
    simp [emptyTopology] at he
  · obtain ⟨mst, hm⟩ := parseDSLMain_complete s
    have heq := parseDSL_eq_of_main s mst (by simpa using hb) hm
    rw [heq] at he
    simp only [assembleTopology] at he
    by_cases hf : (runLegacy s mst).flowEvents = []
    · simp only [hf, ne_eq, not_true_eq_false, if_false] at he
      by_cases hev : avalues mst.eventMap = []
      · rw [if_pos hev] at he
        left
        simp only [List.mem_singleton] at he
        rw [he]
        rfl
      · rw [if_neg hev] at he
        left
        have hok : eventMapRatesOk mst := by
          refine mainLoop_rates (chs s) ((chs s).length + 1) initialMState mst ?_ ?_
          · exact hm
          · intro x hx
            simp [initialMState, avalues] at hx
        exact hok e he
    · rw [if_pos hf, if_neg hf] at he
      right
      simpa [parsedFlowEvents, hm] using he

/-! ## Claim C2 machinery: adjacency and the level-assignment recursion -/

theorem aget_aset_self {β : Type} (m : List (String × β)) (k : String) (v : β) :
    aget (aset m k v) k = some v := by
  induction m with
  | nil => simp [aset, aget]
  | cons hd tl ih =>
    cases hd with
    | mk k' v' =>
      by_cases hk : k' = k
      · simp [aset, aget, hk]
      · simp [aset, aget, hk, ih]

theorem aget_aset_ne {β : Type} (m : List (String × β)) (k k' : String) (v : β)
    (h : k' ≠ k) : aget (aset m k v) k' = aget m k' := by
  induction m with
  | nil => simp [aset, aget, Ne.symm h]
  | cons hd tl ih =>
    cases hd with
    | mk k₀ v₀ =>
      by_cases hk : k₀ = k
      · subst hk
        simp [aset, aget, Ne.symm h]
      · simp only [aset, if_neg hk, aget]
        by_cases hk' : k₀ = k'
        · simp [hk']
        · simp [hk', ih]

theorem ahas_aset {β : Type} (m : List (String × β)) (k k' : String) (v : β) :
    ahas (aset m k v) k' = true ↔ k' = k ∨ ahas m k' = true := by
  by_cases h : k' = k
  · subst h
    simp [ahas, aget_aset_self]
  · simp [ahas, aget_aset_ne m k k' v h, h]

theorem agetD_aset_self {β : Type} (m : List (String × β)) (k : String)
    (v d : β) : agetD (aset m k v) k d = v := by
  simp [agetD, aget_aset_self]

theorem agetD_aset_ne {β : Type} (m : List (String × β)) (k k' : String)
    (v d : β) (h : k' ≠ k) : agetD (aset m k v) k' d = agetD m k' d := by
  simp [agetD, aget_aset_ne m k k' v h]

theorem agetD_nonnil_ahas (m : List (String × List String)) (k : String)
    (h : agetD m k [] ≠ []) : ahas m k = true := by
  by_cases hh : (aget m k).isSome
  · simpa [ahas] using hh
  · exfalso
    apply h
    simp only [agetD]
    cases ha : aget m k with
    | none => simp
    | some v => rw [ha] at hh; simp at hh

/-- Keys of the initial adjacency maps are exactly the node ids. -/
theorem adjInit_keys (nodes : List Node) (k : String) :
    ahas (adjInit nodes) k = true ↔ k ∈ nodes.map Node.id := by
  unfold adjInit
  suffices hgen : ∀ (m₀ : List (String × List String)),
      ahas (nodes.foldl (fun m n => aset m n.id ([] : List String)) m₀) k = true ↔
      k ∈ nodes.map Node.id ∨ ahas m₀ k = true by
    rw [hgen []]
    simp [ahas, aget]
  induction nodes with
  | nil => intro m₀; simp
  | cons n tl ih =>
    intro m₀
    simp only [List.foldl_cons, List.map_cons, List.mem_cons]
    rw [ih (aset m₀ n.id [])]
    rw [ahas_aset]
    tauto

theorem adjInit_getD (nodes : List Node) (k : String) :
    agetD (adjInit nodes) k [] = [] := by
  unfold adjInit
  suffices hgen : ∀ (m₀ : List (String × List String)),
      (∀ k', agetD m₀ k' ([] : List String) = []) →
      agetD (nodes.foldl (fun m n => aset m n.id ([] : List String)) m₀) k [] = [] by
    exact hgen [] (fun k' => rfl)
  induction nodes with
  | nil => intro m₀ h; exact h k
  | cons n tl ih =>
    intro m₀ h
    simp only [List.foldl_cons]
    refine ih (aset m₀ n.id []) ?_
    intro k'
    by_cases hk : k' = n.id
    · subst hk; rw [agetD_aset_self]
    · rw [agetD_aset_ne _ _ _ _ _ hk]; exact h k'

theorem ahas_aset_of_mem {β : Type} (m : List (String × β)) (k : String)
    (v : β) (h : ahas m k = true) (k' : String) :
    ahas (aset m k v) k' = ahas m k' := by
  by_cases hk : k' = k
  · rw [hk, h]
    exact (ahas_aset m k k v).mpr (Or.inl rfl)
  · cases hb : ahas m k' with
    | true => exact (ahas_aset m k k' v).mpr (Or.inr hb)
    | false =>
      by_contra hc
      have := (ahas_aset m k k' v).mp (by
        cases hb' : ahas (aset m k v) k' with
        | true => rfl
        | false => rw [hb'] at hc; exact absurd rfl hc)
      rcases this with h1 | h2
      · exact hk h1
      · rw [h2] at hb; cases hb

theorem adjStep_pos (o i : List (String × List String)) (e : Edge)
    (h1 : ahas o e.fromId = true) (h2 : ahas i e.toId = true) :
    adjStep (o, i) e =
      (aset o e.fromId (agetD o e.fromId [] ++ [e.toId]),
       aset i e.toId (agetD i e.toId [] ++ [e.fromId])) := by
  unfold adjStep
  rw [if_pos ⟨h1, h2⟩]

theorem adjStep_neg (o i : List (String × List String)) (e : Edge)
    (h : ¬(ahas o e.fromId = true ∧ ahas i e.toId = true)) :
    adjStep (o, i) e = (o, i) := by
  unfold adjStep
  rw [if_neg h]

theorem adjFold_keys₁ (es : List Edge) (o i : List (String × List String))
    (k : String) : ahas (es.foldl adjStep (o, i)).1 k = ahas o k := by
  induction es generalizing o i with
  | nil => rfl
  | cons e tl ih =>
    rw [List.foldl_cons]
    by_cases hg : (ahas o e.fromId = true ∧ ahas i e.toId = true)
    · rw [adjStep_pos o i e hg.1 hg.2, ih, ahas_aset_of_mem o _ _ hg.1]
    · rw [adjStep_neg o i e hg, ih]

theorem adjFold_keys₂ (es : List Edge) (o i : List (String × List String))
    (k : String) : ahas (es.foldl adjStep (o, i)).2 k = ahas i k := by
  induction es generalizing o i with
  | nil => rfl
  | cons e tl ih =>
    rw [List.foldl_cons]
    by_cases hg : (ahas o e.fromId = true ∧ ahas i e.toId = true)
    · rw [adjStep_pos o i e hg.1 hg.2, ih, ahas_aset_of_mem i _ _ hg.2]
    · rw [adjStep_neg o i e hg, ih]

theorem adjFold_memsym (es : List Edge) (o i : List (String × List String))
    (h : ∀ a b, b ∈ agetD o a [] ↔ a ∈ agetD i b []) :
    ∀ a b, b ∈ agetD (es.foldl adjStep (o, i)).1 a [] ↔
           a ∈ agetD (es.foldl adjStep (o, i)).2 b [] := by
  induction es generalizing o i with
  | nil => exact h
  | cons e tl ih =>
    rw [List.foldl_cons]
    by_cases hg : (ahas o e.fromId = true ∧ ahas i e.toId = true)
    · rw [adjStep_pos o i e hg.1 hg.2]
      apply ih
      intro a b
      by_cases haf : a = e.fromId <;> by_cases hbt : b = e.toId
      · subst haf; subst hbt
        rw [agetD_aset_self, agetD_aset_self]
        constructor
        · intro hb
          rcases List.mem_append.mp hb with hb | hb
          · exact List.mem_append.mpr (Or.inl ((h _ _).mp hb))
          · exact List.mem_append.mpr (Or.inr (List.mem_singleton.mpr rfl))
        · intro hb
          rcases List.mem_append.mp hb with hb | hb
          · exact List.mem_append.mpr (Or.inl ((h _ _).mpr hb))
          · exact List.mem_append.mpr (Or.inr (List.mem_singleton.mpr rfl))
      · subst haf
        rw [agetD_aset_self, agetD_aset_ne _ _ _ _ _ hbt]
        constructor
        · intro hb
          rcases List.mem_append.mp hb with hb | hb
          · exact (h _ _).mp hb
          · exact absurd (List.mem_singleton.mp hb) hbt
        · intro hb; exact List.mem_append.mpr (Or.inl ((h _ _).mpr hb))
      · subst hbt
        rw [agetD_aset_ne _ _ _ _ _ haf, agetD_aset_self]
        constructor
        · intro hb; exact List.mem_append.mpr (Or.inl ((h _ _).mp hb))
        · intro hb
          rcases List.mem_append.mp hb with hb | hb
          · exact (h _ _).mpr hb
          · exact absurd (List.mem_singleton.mp hb) haf
      · rw [agetD_aset_ne _ _ _ _ _ haf, agetD_aset_ne _ _ _ _ _ hbt]
        exact h a b
    · rw [adjStep_neg o i e hg]
      exact ih o i h

theorem adjFold_mono₁ (es : List Edge) (o i : List (String × List String))
    (a x : String) (hx : x ∈ agetD o a []) :
    x ∈ agetD (es.foldl adjStep (o, i)).1 a [] := by
  induction es generalizing o i with
  | nil => exact hx
  | cons e tl ih =>
    rw [List.foldl_cons]
    by_cases hg : (ahas o e.fromId = true ∧ ahas i e.toId = true)
    · rw [adjStep_pos o i e hg.1 hg.2]
      apply ih
      by_cases haf : a = e.fromId
      · subst haf
        rw [agetD_aset_self]
        exact List.mem_append.mpr (Or.inl hx)
      · rw [agetD_aset_ne _ _ _ _ _ haf]
        exact hx
    · rw [adjStep_neg o i e hg]
      exact ih o i hx

theorem adjFold_edge (es : List Edge) (o i : List (String × List String))
    (e : Edge) (he : e ∈ es) (h1 : ahas o e.fromId = true)
    (h2 : ahas i e.toId = true) :
    e.toId ∈ agetD (es.foldl adjStep (o, i)).1 e.fromId [] := by
  induction es generalizing o i with
  | nil => cases he
  | cons e₀ tl ih =>
    rw [List.foldl_cons]
    rcases List.mem_cons.mp he with rfl | hmem
    · rw [adjStep_pos o i e h1 h2]
      apply adjFold_mono₁
      rw [agetD_aset_self]
      exact List.mem_append.mpr (Or.inr (List.mem_singleton.mpr rfl))
    · by_cases hg : (ahas o e₀.fromId = true ∧ ahas i e₀.toId = true)
      · rw [adjStep_pos o i e₀ hg.1 hg.2]
        refine ih _ _ hmem ?_ ?_
        · rw [ahas_aset_of_mem o _ _ hg.1]; exact h1
        · rw [ahas_aset_of_mem i _ _ hg.2]; exact h2
      · rw [adjStep_neg o i e₀ hg]
        exact ih o i hmem h1 h2

theorem adjFold_src (es : List Edge) (o i : List (String × List String))
    (a b : String)
    (h : b ∈ agetD (es.foldl adjStep (o, i)).1 a []) :
    b ∈ agetD o a [] ∨ ∃ e ∈ es, e.fromId = a ∧ e.toId = b := by
  induction es generalizing o i with
  | nil => exact Or.inl h
  | cons e tl ih =>
    rw [List.foldl_cons] at h
    by_cases hg : (ahas o e.fromId = true ∧ ahas i e.toId = true)
    · rw [adjStep_pos o i e hg.1 hg.2] at h
      rcases ih _ _ h with h0 | ⟨e', he', hf, ht⟩
      · by_cases haf : a = e.fromId
        · subst haf
          rw [agetD_aset_self] at h0
          rcases List.mem_append.mp h0 with h1 | h1
          · exact Or.inl h1
          · exact Or.inr ⟨e, List.mem_cons_self _ _,
              rfl, (List.mem_singleton.mp h1).symm⟩
        · rw [agetD_aset_ne _ _ _ _ _ haf] at h0
          exact Or.inl h0
      · exact Or.inr ⟨e', List.mem_cons_of_mem _ he', hf, ht⟩
    · rw [adjStep_neg o i e hg] at h
      rcases ih o i h with h0 | ⟨e', he', hf, ht⟩
      · exact Or.inl h0
      · exact Or.inr ⟨e', List.mem_cons_of_mem _ he', hf, ht⟩

theorem bA_keys₁ (t : Topology) (k : String) :
    ahas (buildAdjacency t).1 k = true ↔ k ∈ t.nodes.map Node.id := by
  unfold buildAdjacency
  rw [adjFold_keys₁]
  exact adjInit_keys t.nodes k

theorem bA_keys₂ (t : Topology) (k : String) :
    ahas (buildAdjacency t).2 k = true ↔ k ∈ t.nodes.map Node.id := by
  unfold buildAdjacency
  rw [adjFold_keys₂]
  exact adjInit_keys t.nodes k

theorem bA_memsym (t : Topology) (a b : String) :
    adjMem (buildAdjacency t).1 a b ↔ a ∈ agetD (buildAdjacency t).2 b [] := by
  unfold adjMem buildAdjacency
  exact adjFold_memsym t.edges _ _
    (fun a' b' => by rw [adjInit_getD, adjInit_getD]; simp) a b

theorem bA_endpoints (t : Topology) (a b : String)
    (h : adjMem (buildAdjacency t).1 a b) :
    a ∈ t.nodes.map Node.id ∧ b ∈ t.nodes.map Node.id := by
  constructor
  · refine (bA_keys₁ t a).mp (agetD_nonnil_ahas _ _ ?_)
    intro hnil
    unfold adjMem at h
    rw [hnil] at h
    cases h
  · refine (bA_keys₂ t b).mp (agetD_nonnil_ahas _ _ ?_)
    intro hnil
    have := (bA_memsym t a b).mp h
    rw [hnil] at this
    cases this

theorem bA_edge (t : Topology) (e : Edge) (he : e ∈ t.edges)
    (h1 : e.fromId ∈ t.nodes.map Node.id) (h2 : e.toId ∈ t.nodes.map Node.id) :
    adjMem (buildAdjacency t).1 e.fromId e.toId := by
  unfold adjMem buildAdjacency
  exact adjFold_edge t.edges _ _ e he
    ((adjInit_keys t.nodes e.fromId).mpr h1)
    ((adjInit_keys t.nodes e.toId).mpr h2)

theorem bA_src (t : Topology) (a b : String)
    (h : adjMem (buildAdjacency t).1 a b) :
    ∃ e ∈ t.edges, e.fromId = a ∧ e.toId = b := by
  unfold adjMem buildAdjacency at h
  rcases adjFold_src t.edges _ _ a b h with h0 | hex
  · rw [adjInit_getD] at h0; cases h0
  · exact hex

theorem len_filter_mono {α : Type} (l : List α) (p q : α → Bool)
    (h : ∀ x, p x = true → q x = true) :
    (l.filter p).length ≤ (l.filter q).length := by
  induction l with
  | nil => exact Nat.le_refl 0
  | cons a tl ih =>
    rw [List.filter_cons, List.filter_cons]
    by_cases hp : p a = true
    · rw [if_pos hp, if_pos (h a hp)]
      simp only [List.length_cons]
      exact Nat.succ_le_succ ih
    · rw [if_neg hp]
      by_cases hq : q a = true
      · rw [if_pos hq]
        simp only [List.length_cons]
        exact Nat.le_trans ih (Nat.le_succ _)
      · rw [if_neg hq]
        exact ih

theorem len_filter_lt {α : Type} (l : List α) (p q : α → Bool)
    (h : ∀ x, p x = true → q x = true) (n : α) (hn : n ∈ l)
    (hq : q n = true) (hp : p n = false) :
    (l.filter p).length < (l.filter q).length := by
  induction l with
  | nil => cases hn
  | cons a tl ih =>
    rw [List.filter_cons, List.filter_cons]
    rcases List.mem_cons.mp hn with rfl | hmem
    · rw [if_neg (by simp [hp]), if_pos hq]
      simp only [List.length_cons]
      exact Nat.lt_succ_of_le (len_filter_mono tl p q h)
    · by_cases hpa : p a = true
      · rw [if_pos hpa, if_pos (h a hpa)]
        simp only [List.length_cons]
        exact Nat.succ_lt_succ (ih hmem)
      · rw [if_neg hpa]
        by_cases hqa : q a = true
        · rw [if_pos hqa]
          simp only [List.length_cons]
          exact Nat.lt_succ_of_lt (ih hmem)
        · rw [if_neg hqa]
          exact ih hmem

theorem contains_iff_mem (l : List String) (x : String) :
    l.contains x = true ↔ x ∈ l := by
  simp [List.contains]

theorem unvisCount_mono (ids : List String) (st st' : LevelState)
    (h : ∀ x ∈ st.visited, x ∈ st'.visited) :
    unvisCount ids st' ≤ unvisCount ids st := by
  apply len_filter_mono
  intro x hx
  simp only [Bool.not_eq_true'] at hx ⊢
  cases hc : st.visited.contains x with
  | false => rfl
  | true =>
    have hxm : x ∈ st'.visited := h x ((contains_iff_mem _ x).mp hc)
    rw [(contains_iff_mem _ x).mpr hxm] at hx
    cases hx

theorem unvisCount_lt (ids : List String) (st : LevelState) (n : String)
    (hn : n ∈ ids) (hnv : n ∉ st.visited) (st' : LevelState)
    (hvis : st'.visited = n :: st.visited) :
    unvisCount ids st' < unvisCount ids st := by
  refine len_filter_lt _ _ _ ?_ n hn ?_ ?_
  · intro x hx
    simp only [Bool.not_eq_true'] at hx ⊢
    cases hc : st.visited.contains x with
    | false => rfl
    | true =>
      have hxm : x ∈ st'.visited := by
        rw [hvis]
        exact List.mem_cons_of_mem _ ((contains_iff_mem _ x).mp hc)
      rw [(contains_iff_mem _ x).mpr hxm] at hx
      cases hx
  · simp only [Bool.not_eq_true']
    cases hc : st.visited.contains n with
    | false => rfl
    | true => exact absurd ((contains_iff_mem _ n).mp hc) hnv
  · simp only [Bool.not_eq_false']
    refine (contains_iff_mem _ n).mpr ?_
    rw [hvis]
    exact List.mem_cons_self _ _

theorem unvisCount_le_length (ids : List String) (st : LevelState) :
    unvisCount ids st ≤ ids.length :=
  List.length_filter_le _ _

theorem mem_len_le_one {α : Type} {l : List α} {x y : α} (hx : x ∈ l)
    (hy : y ∈ l) (h : l.length ≤ 1) : x = y := by
  cases l with
  | nil => cases hx
  | cons a tl =>
    cases tl with
    | nil =>
      rw [List.mem_singleton.mp hx, List.mem_singleton.mp hy]
    | cons b tl' => simp at h

theorem assignLevel_succ_visited (o : List (String × List String)) (f : Nat)
    (st : LevelState) (n : String) (l : Nat) (hv : n ∈ st.visited) :
    assignLevel o (f + 1) st n l =
      { st with levels := aset st.levels n (max (agetD st.levels n 0) l) } := by
  simp only [assignLevel, if_pos hv]

theorem assignLevel_succ_unvisited (o : List (String × List String)) (f : Nat)
    (st : LevelState) (n : String) (l : Nat) (hv : n ∉ st.visited) :
    assignLevel o (f + 1) st n l =
      (agetD o n []).foldl (fun s nxt => assignLevel o f s nxt (l + 1))
        (pushNode st n l) := by
  simp only [assignLevel, if_neg hv, pushNode]

/-- Invariant preservation through one `assignLevel` call, under the
call-site discipline of `calculateLayout` and a forest-shaped adjacency
(every node has at most one predecessor).  The fuel hypothesis guarantees
the recursion never runs dry. -/
theorem assignLevel_main (o : List (String × List String)) (ids : List String)
    (Hend : ∀ a b, adjMem o a b → a ∈ ids ∧ b ∈ ids)
    (Huq : ∀ a a' b, adjMem o a b → adjMem o a' b → a = a') :
    ∀ (fuel : Nat) (st : LevelState) (n : String) (l : Nat)
      (E : List (String × String)),
      unvisCount ids st + 1 ≤ fuel → n ∈ ids →
      callOK o st n l → levInv o st → visClosed o st E →
      zeroInv o st → keysInv st → visIds ids st →
      (∀ x ∈ st.visited, x ∈ (assignLevel o fuel st n l).visited) ∧
      n ∈ (assignLevel o fuel st n l).visited ∧
      (∀ x ∈ st.visited, lvOf (assignLevel o fuel st n l) x = lvOf st x) ∧
      levInv o (assignLevel o fuel st n l) ∧
      visClosed o (assignLevel o fuel st n l) E ∧
      zeroInv o (assignLevel o fuel st n l) ∧
      keysInv (assignLevel o fuel st n l) ∧
      visIds ids (assignLevel o fuel st n l) := by
  intro fuel
  induction fuel with
  | zero =>
    intro st n l E hf
    exact absurd hf (by omega)
  | succ f IH =>
    intro st n l E hf hn hok hJ hV hZ hY hW
    by_cases hv : n ∈ st.visited
    · -- already visited: a pure max-update that is in fact a no-op
      rw [assignLevel_succ_visited o f st n l hv]
      have hmax : max (agetD st.levels n 0) l = agetD st.levels n 0 := by
        rcases hok with ⟨hl0, _⟩ | ⟨p, hp, hpv, hl⟩
        · rw [hl0]; exact Nat.max_zero _
        · have hlvn := (hJ p n hp hv).2
          rw [hl]
          rw [show lvOf st n = agetD st.levels n 0 from rfl] at hlvn
          rw [← hlvn]
          exact Nat.max_self _
      have hlv : ∀ x,
          lvOf { st with
              levels := aset st.levels n (max (agetD st.levels n 0) l) } x =
            lvOf st x := by
        intro x
        by_cases hx : x = n
        · subst hx
          show agetD (aset st.levels x (max (agetD st.levels x 0) l)) x 0 =
            agetD st.levels x 0
          rw [agetD_aset_self, hmax]
        · show agetD (aset st.levels n (max (agetD st.levels n 0) l)) x 0 =
            agetD st.levels x 0
          rw [agetD_aset_ne _ _ _ _ _ hx]
      refine ⟨fun x hx => hx, hv, fun x _ => hlv x, ?_, ?_, ?_, ?_, hW⟩
      · intro a b hab hb
        have h0 := hJ a b hab hb
        exact ⟨h0.1, by rw [hlv b, hlv a]; exact h0.2⟩
      · intro a b hab ha
        exact hV a b hab ha
      · intro x hx hxv
        rw [hlv x]
        exact hZ x hx hxv
      · intro x hx
        by_cases hxn : x = n
        · subst hxn; exact hv
        · refine hY x ?_
          rw [aget_aset_ne _ _ _ _ hxn] at hx
          exact hx
    · -- first visit: assign, then descend into the successors
      rw [assignLevel_succ_unvisited o f st n l hv]
      have hf' : unvisCount ids st ≤ f := by omega
      have hf₁ : unvisCount ids (pushNode st n l) + 1 ≤ f := by
        have := unvisCount_lt ids st n hn hv (pushNode st n l) rfl
        omega
      have hns1 : n ∈ (pushNode st n l).visited :=
        List.mem_cons_self _ _
      have hlv1 : lvOf (pushNode st n l) n = l := by
        show agetD (aset st.levels n l) n 0 = l
        rw [agetD_aset_self]
      have hJ₁ : levInv o (pushNode st n l) := by
        intro a b hab hb
        by_cases hbn : b = n
        · subst hbn
          rcases hok with ⟨_, hnp⟩ | ⟨p, hp, hpv, hl⟩
          · exact absurd hab (hnp a)
          · have hap : a = p := Huq a p b hab hp
            subst hap
            have hane : a ≠ b := fun hc => hv (hc ▸ hpv)
            refine ⟨List.mem_cons_of_mem _ hpv, ?_⟩
            show agetD (aset st.levels b l) b 0 =
              agetD (aset st.levels b l) a 0 + 1
            rw [agetD_aset_self, agetD_aset_ne _ _ _ _ _ hane, hl]
            rfl
        · have hb' : b ∈ st.visited := by
            rcases List.mem_cons.mp hb with hc | hc
            · exact absurd hc hbn
            · exact hc
          have h0 := hJ a b hab hb'
          have hane : a ≠ n := fun hc => hv (hc ▸ h0.1)
          refine ⟨List.mem_cons_of_mem _ h0.1, ?_⟩
          show agetD (aset st.levels n l) b 0 = agetD (aset st.levels n l) a 0 + 1
          rw [agetD_aset_ne _ _ _ _ _ hbn, agetD_aset_ne _ _ _ _ _ hane]
          exact h0.2
      have hV₁ : visClosed o (pushNode st n l)
          (E ++ (agetD o n []).map (fun c => (n, c))) := by
        intro a b hab ha
        rcases List.mem_cons.mp ha with rfl | ha'
        · refine Or.inr (List.mem_append.mpr (Or.inr ?_))
          exact List.mem_map.mpr ⟨b, hab, rfl⟩
        · rcases hV a b hab ha' with hb | hE
          · exact Or.inl (List.mem_cons_of_mem _ hb)
          · exact Or.inr (List.mem_append.mpr (Or.inl hE))
      have hZ₁ : zeroInv o (pushNode st n l) := by
        intro x hx hxv
        by_cases hxn : x = n
        · subst hxn
          rcases hok with ⟨hl0, _⟩ | ⟨p, hp, _, _⟩
          · show agetD (aset st.levels x l) x 0 = 0
            rw [agetD_aset_self, hl0]
          · exact absurd hp (hx p)
        · have hx' : x ∈ st.visited := by
            rcases List.mem_cons.mp hxv with hc | hc
            · exact absurd hc hxn
            · exact hc
          show agetD (aset st.levels n l) x 0 = 0
          rw [agetD_aset_ne _ _ _ _ _ hxn]
          exact hZ x hx hx'
      have hY₁ : keysInv (pushNode st n l) := by
        intro x hx
        by_cases hxn : x = n
        · subst hxn; exact List.mem_cons_self _ _
        · rw [show (pushNode st n l).levels = aset st.levels n l from rfl] at hx
          rw [aget_aset_ne _ _ _ _ hxn] at hx
          exact List.mem_cons_of_mem _ (hY x hx)
      have hW₁ : visIds ids (pushNode st n l) := by
        intro x hx
        rcases List.mem_cons.mp hx with rfl | hx'
        · exact hn
        · exact hW x hx'
      -- inner induction over the successor list
      have inner : ∀ (cs : List String), (∀ c ∈ cs, adjMem o n c) →
          ∀ (s : LevelState), n ∈ s.visited → lvOf s n = l →
          unvisCount ids s + 1 ≤ f →
          levInv o s → visClosed o s (E ++ cs.map (fun c => (n, c))) →
          zeroInv o s → keysInv s → visIds ids s →
          (∀ x ∈ s.visited,
            x ∈ (cs.foldl (fun s nxt => assignLevel o f s nxt (l + 1)) s).visited) ∧
          (∀ x ∈ s.visited,
            lvOf (cs.foldl (fun s nxt => assignLevel o f s nxt (l + 1)) s) x =
              lvOf s x) ∧
          levInv o (cs.foldl (fun s nxt => assignLevel o f s nxt (l + 1)) s) ∧
          visClosed o (cs.foldl (fun s nxt => assignLevel o f s nxt (l + 1)) s) E ∧
          zeroInv o (cs.foldl (fun s nxt => assignLevel o f s nxt (l + 1)) s) ∧
          keysInv (cs.foldl (fun s nxt => assignLevel o f s nxt (l + 1)) s) ∧
          visIds ids (cs.foldl (fun s nxt => assignLevel o f s nxt (l + 1)) s) ∧
          (∀ c ∈ cs,
            c ∈ (cs.foldl (fun s nxt => assignLevel o f s nxt (l + 1)) s).visited) := by
        intro cs
        induction cs with
        | nil =>
          intro _ s _ _ _ hJs hVs hZs hYs hWs
          refine ⟨fun x hx => hx, fun x _ => rfl, hJs, ?_, hZs, hYs, hWs,
            fun c hc => absurd hc (List.not_mem_nil c)⟩
          intro a b hab ha
          rcases hVs a b hab ha with hb | hE
          · exact Or.inl hb
          · rcases List.mem_append.mp hE with hE | hE
            · exact Or.inr hE
            · simp at hE
        | cons c cs' ihc =>
          intro hcs s hns hlvn hfs hJs hVs hZs hYs hWs
          have hadj : adjMem o n c := hcs c (List.mem_cons_self _ _)
          have hcid : c ∈ ids := (Hend n c hadj).2
          have hok' : callOK o s c (l + 1) :=
            Or.inr ⟨n, hadj, hns, by rw [hlvn]⟩
          obtain ⟨m1, m2, m3, mJ, mV, mZ, mY, mW⟩ :=
            IH s c (l + 1) (E ++ (c :: cs').map (fun c => (n, c))) hfs hcid hok'
              hJs hVs hZs hYs hWs
          have hV₂ : visClosed o (assignLevel o f s c (l + 1))
              (E ++ cs'.map (fun c => (n, c))) := by
            intro a b hab ha
            rcases mV a b hab ha with hb | hE
            · exact Or.inl hb
            · rcases List.mem_append.mp hE with hE | hE
              · exact Or.inr (List.mem_append.mpr (Or.inl hE))
              · rw [List.map_cons] at hE
                rcases List.mem_cons.mp hE with heq | hE'
                · have hbc : b = c := (Prod.mk.injEq _ _ _ _ ▸ heq).2
                  exact Or.inl (hbc ▸ m2)
                · exact Or.inr (List.mem_append.mpr (Or.inr hE'))
          have hfs₂ : unvisCount ids (assignLevel o f s c (l + 1)) + 1 ≤ f := by
            have := unvisCount_mono ids s (assignLevel o f s c (l + 1)) m1
            omega
          obtain ⟨n1, n2, nJ, nV, nZ, nY, nW, ncs⟩ :=
            ihc (fun c' hc' => hcs c' (List.mem_cons_of_mem _ hc'))
              (assignLevel o f s c (l + 1)) (m1 n hns)
              (by rw [m3 n hns]; exact hlvn) hfs₂ mJ hV₂ mZ mY mW
          rw [List.foldl_cons]
          refine ⟨?_, ?_, nJ, nV, nZ, nY, nW, ?_⟩
          · intro x hx
            exact n1 x (m1 x hx)
          · intro x hx
            rw [n2 x (m1 x hx), m3 x hx]
          · intro c' hc'
            rcases List.mem_cons.mp hc' with rfl | hc''
            · exact n1 c' (m2)
            · exact ncs c' hc''
      obtain ⟨i1, i2, iJ, iV, iZ, iY, iW, ich⟩ :=
        inner (agetD o n []) (fun c hc => hc) (pushNode st n l)
          hns1 hlv1 hf₁ hJ₁ hV₁ hZ₁ hY₁ hW₁
      refine ⟨?_, ?_, ?_, iJ, iV, iZ, iY, iW⟩
      · intro x hx
        exact i1 x (List.mem_cons_of_mem _ hx)
      · exact i1 n hns1
      · intro x hx
        have hxn : x ≠ n := fun hc => hv (hc ▸ hx)
        rw [i2 x (List.mem_cons_of_mem _ hx)]
        show agetD (aset st.levels n l) x 0 = agetD st.levels x 0
        rw [agetD_aset_ne _ _ _ _ _ hxn]

theorem calculateLevels_eq (t : Topology) (hnn : ¬ t.nodes = [])
    (hsrc : ¬ t.nodes.filter
      (fun n => agetD (buildAdjacency t).2 n.id [] = []) = []) :
    calculateLevels t =
      t.nodes.foldl
        (fun s n => if n.id ∈ s.visited then s
          else assignLevel (buildAdjacency t).1 (t.nodes.length + 1) s n.id 0)
        ((t.nodes.filter (fun n => agetD (buildAdjacency t).2 n.id [] = [])).foldl
          (fun s n => assignLevel (buildAdjacency t).1 (t.nodes.length + 1) s n.id 0)
          ⟨[], []⟩) := by
  unfold calculateLevels
  rw [if_neg hnn]
  dsimp only
  rw [if_neg hsrc]

/-- The seeding passes of `calculateLayout`: folding `assignLevel · 0`
over parentless nodes preserves all invariants and visits every seed. -/
theorem seedFold (o : List (String × List String)) (ids : List String)
    (Hend : ∀ a b, adjMem o a b → a ∈ ids ∧ b ∈ ids)
    (Huq : ∀ a a' b, adjMem o a b → adjMem o a' b → a = a')
    (fuel : Nat) (hfuel : ids.length + 1 ≤ fuel) :
    ∀ (ns : List Node) (st : LevelState),
      (∀ n ∈ ns, n.id ∈ ids) →
      (∀ n ∈ ns, ∀ a, ¬ adjMem o a n.id) →
      levInv o st → visClosed o st [] → zeroInv o st → keysInv st →
      visIds ids st →
      (∀ x ∈ st.visited,
        x ∈ (ns.foldl (fun s n => assignLevel o fuel s n.id 0) st).visited) ∧
      levInv o (ns.foldl (fun s n => assignLevel o fuel s n.id 0) st) ∧
      visClosed o (ns.foldl (fun s n => assignLevel o fuel s n.id 0) st) [] ∧
      zeroInv o (ns.foldl (fun s n => assignLevel o fuel s n.id 0) st) ∧
      keysInv (ns.foldl (fun s n => assignLevel o fuel s n.id 0) st) ∧
      visIds ids (ns.foldl (fun s n => assignLevel o fuel s n.id 0) st) ∧
      (∀ n ∈ ns,
        n.id ∈ (ns.foldl (fun s n => assignLevel o fuel s n.id 0) st).visited) := by
  intro ns
  induction ns with
  | nil =>
    intro st _ _ hJ hV hZ hY hW
    exact ⟨fun x hx => hx, hJ, hV, hZ, hY, hW,
      fun n hn => absurd hn (List.not_mem_nil n)⟩
  | cons n tl ih =>
    intro st hid hnp hJ hV hZ hY hW
    have hok : callOK o st n.id 0 :=
      Or.inl ⟨rfl, hnp n (List.mem_cons_self _ _)⟩
    have hfu : unvisCount ids st + 1 ≤ fuel :=
      Nat.le_trans (Nat.succ_le_succ (unvisCount_le_length ids st)) hfuel
    obtain ⟨m1, m2, _, mJ, mV, mZ, mY, mW⟩ :=
      assignLevel_main o ids Hend Huq fuel st n.id 0 [] hfu
        (hid n (List.mem_cons_self _ _)) hok hJ hV hZ hY hW
    obtain ⟨n1, nJ, nV, nZ, nY, nW, nvis⟩ :=
      ih (assignLevel o fuel st n.id 0)
        (fun m hm => hid m (List.mem_cons_of_mem _ hm))
        (fun m hm => hnp m (List.mem_cons_of_mem _ hm)) mJ mV mZ mY mW
    rw [List.foldl_cons]
    refine ⟨fun x hx => n1 x (m1 x hx), nJ, nV, nZ, nY, nW, ?_⟩
    intro m hm
    rcases List.mem_cons.mp hm with rfl | hm'
    · exact n1 m.id m2
    · exact nvis m hm'

/-- The final pass of `calculateLayout` is a no-op when everything is
already visited. -/
theorem ensureFold (o : List (String × List String)) (fuel : Nat) :
    ∀ (ns : List Node) (st : LevelState),
      (∀ n ∈ ns, n.id ∈ st.visited) →
      ns.foldl
        (fun s n => if n.id ∈ s.visited then s else assignLevel o fuel s n.id 0)
        st = st := by
  intro ns
  induction ns with
  | nil => intro st _; rfl
  | cons n tl ih =>
    intro st hvis
    rw [List.foldl_cons, if_pos (hvis n (List.mem_cons_self _ _))]
    exact ih st (fun m hm => hvis m (List.mem_cons_of_mem _ hm))

theorem list_exists_min_image {α : Type} (l : List α) (f : α → Nat)
    (h : l ≠ []) : ∃ a ∈ l, ∀ b ∈ l, f a ≤ f b := by
  induction l with
  | nil => exact absurd rfl h
  | cons a tl ih =>
    cases tl with
    | nil =>
      refine ⟨a, List.mem_cons_self _ _, fun b hb => ?_⟩
      rw [List.mem_singleton.mp hb]
    | cons c tl' =>
      obtain ⟨m, hm, hmin⟩ := ih (by simp)
      by_cases hc : f a ≤ f m
      · refine ⟨a, List.mem_cons_self _ _, fun b hb => ?_⟩
        rcases List.mem_cons.mp hb with rfl | hb'
        · exact Nat.le_refl _
        · exact Nat.le_trans hc (hmin b hb')
      · refine ⟨m, List.mem_cons_of_mem _ hm, fun b hb => ?_⟩
        rcases List.mem_cons.mp hb with rfl | hb'
        · omega
        · exact hmin b hb'

/-- Level assignment on a ranked (acyclic) topology in which every node
has at most one predecessor: parentless nodes sit at level 0 and every
recorded edge climbs exactly one level. -/
theorem levels_forest_spec (t : Topology) (r : String → Nat)
    (hrank : ∀ e ∈ t.edges, e.fromId ∈ t.nodes.map Node.id →
      e.toId ∈ t.nodes.map Node.id → r e.fromId < r e.toId)
    (hdeg : ∀ id ∈ t.nodes.map Node.id, inDegree t id ≤ 1) :
    (∀ id, inDegree t id = 0 → levelOf t id = 0) ∧
    (∀ e ∈ t.edges, e.fromId ∈ t.nodes.map Node.id →
      e.toId ∈ t.nodes.map Node.id →
      levelOf t e.fromId < levelOf t e.toId) := by
  by_cases hnn : t.nodes = []
  · constructor
    · intro id _
      unfold levelOf calculateLevels
      rw [if_pos hnn]
      rfl
    · intro e he hf ht
      rw [hnn] at hf
      simp at hf
  · have hend := fun a b h => bA_endpoints t a b h
    have huq : ∀ a a' b, adjMem (buildAdjacency t).1 a b →
        adjMem (buildAdjacency t).1 a' b → a = a' := by
      intro a a' b h1 h2
      exact mem_len_le_one ((bA_memsym t a b).mp h1)
        ((bA_memsym t a' b).mp h2) (hdeg b (bA_endpoints t a b h1).2)
    have hradj : ∀ a b, adjMem (buildAdjacency t).1 a b → r a < r b := by
      intro a b h
      obtain ⟨ha, hb⟩ := bA_endpoints t a b h
      obtain ⟨e, he, hfe, hte⟩ := bA_src t a b h
      subst hfe
      subst hte
      exact hrank e he ha hb
    have hnoparent : ∀ x, agetD (buildAdjacency t).2 x [] = [] →
        ∀ a, ¬ adjMem (buildAdjacency t).1 a x := by
      intro x hx a ha
      have hmem := (bA_memsym t a x).mp ha
      rw [hx] at hmem
      cases hmem
    have hparent : ∀ x, agetD (buildAdjacency t).2 x [] ≠ [] →
        ∃ a, adjMem (buildAdjacency t).1 a x := by
      intro x hx
      cases hin : agetD (buildAdjacency t).2 x [] with
      | nil => exact absurd hin hx
      | cons p ps =>
        exact ⟨p, (bA_memsym t p x).mpr
          (by rw [hin]; exact List.mem_cons_self _ _)⟩
    have hsrc : ¬ t.nodes.filter
        (fun n => agetD (buildAdjacency t).2 n.id [] = []) = [] := by
      intro hempty
      obtain ⟨n₀, hn₀, hmin⟩ :=
        list_exists_min_image t.nodes (fun n => r n.id) (by
          intro hc
          exact hnn hc)
      have hne : agetD (buildAdjacency t).2 n₀.id [] ≠ [] := by
        intro hnil
        have hmem : n₀ ∈ t.nodes.filter
            (fun n => agetD (buildAdjacency t).2 n.id [] = []) :=
          List.mem_filter.mpr ⟨hn₀, decide_eq_true hnil⟩
        rw [hempty] at hmem
        cases hmem
      obtain ⟨p, hp⟩ := hparent n₀.id hne
      obtain ⟨m, hm, hmid⟩ := List.mem_map.mp (hend p n₀.id hp).1
      have h1 : r p < r n₀.id := hradj p n₀.id hp
      have h2 : r n₀.id ≤ r m.id := hmin m hm
      rw [hmid] at h2
      omega
    obtain ⟨_, aJ, aV, aZ, aY, _, avis⟩ :=
      seedFold (buildAdjacency t).1 (t.nodes.map Node.id) hend huq
        (t.nodes.length + 1) (by rw [List.length_map])
        (t.nodes.filter (fun n => agetD (buildAdjacency t).2 n.id [] = []))
        ⟨[], []⟩
        (fun n hn => List.mem_map.mpr ⟨n, (List.mem_filter.mp hn).1, rfl⟩)
        (fun n hn => hnoparent n.id (of_decide_eq_true (List.mem_filter.mp hn).2))
        (fun a b _ hb => absurd hb (List.not_mem_nil b))
        (fun a b _ ha => absurd ha (List.not_mem_nil a))
        (fun x _ hx => absurd hx (List.not_mem_nil x))
        (fun x hx => absurd rfl hx)
        (fun x hx => absurd hx (List.not_mem_nil x))
    generalize hgen : (t.nodes.filter
        (fun n => agetD (buildAdjacency t).2 n.id [] = [])).foldl
      (fun s n => assignLevel (buildAdjacency t).1 (t.nodes.length + 1) s n.id 0)
      (⟨[], []⟩ : LevelState) = A at aJ aV aZ aY avis
    have hallA : ∀ x ∈ t.nodes.map Node.id, x ∈ A.visited := by
      have key : ∀ k x, x ∈ t.nodes.map Node.id → r x < k → x ∈ A.visited := by
        intro k
        induction k with
        | zero => intro x _ hx; omega
        | succ k ihk =>
          intro x hxid hxk
          by_cases hin : agetD (buildAdjacency t).2 x [] = []
          · obtain ⟨n, hn, hnid⟩ := List.mem_map.mp hxid
            subst hnid
            exact avis n (List.mem_filter.mpr ⟨hn, decide_eq_true hin⟩)
          · obtain ⟨p, hp⟩ := hparent x hin
            have hpvis := ihk p (hend p x hp).1
              (by have := hradj p x hp; omega)
            rcases aV p x hp hpvis with h | h
            · exact h
            · cases h
      intro x hx
      exact key (r x + 1) x hx (Nat.lt_succ_self _)
    have hfinal : calculateLevels t = A := by
      rw [calculateLevels_eq t hnn hsrc, hgen]
      exact ensureFold (buildAdjacency t).1 (t.nodes.length + 1) t.nodes A
        (fun n hn => hallA n.id (List.mem_map.mpr ⟨n, hn, rfl⟩))
    constructor
    · intro id hdeg0
      have hnp : ∀ a, ¬ adjMem (buildAdjacency t).1 a id :=
        hnoparent id (List.length_eq_zero.mp hdeg0)
      unfold levelOf
      rw [hfinal]
      by_cases hv : id ∈ A.visited
      · exact aZ id hnp hv
      · by_cases hk : aget A.levels id = none
        · unfold agetD
          rw [hk]
          rfl
        · exact absurd (aY id hk) hv
    · intro e he hf ht
      have hadj := bA_edge t e he hf ht
      have hvto := hallA e.toId ht
      have hstep := (aJ e.fromId e.toId hadj hvto).2
      unfold levelOf
      rw [hfinal]
      have h2 : agetD A.levels e.toId 0 = agetD A.levels e.fromId 0 + 1 := hstep
      omega

/-! ## Claim C6 machinery: the spawn catch-up loop -/

theorem spawnLoop_spec (i : ℚ) (hi : 0 < i) :
    ∀ (budget : Nat) (t : ℚ) (count : Nat),
      ∃ k : Nat, k ≤ budget ∧
        spawnLoop budget t i count = (t - (k : ℚ) * i, count + k) ∧
        (k < budget → t - (k : ℚ) * i < i) ∧
        (0 < k → 0 ≤ t - (k : ℚ) * i) := by
  intro budget
  induction budget with
  | zero =>
    intro t count
    refine ⟨0, Nat.le_refl 0, ?_, fun h => absurd h (by omega), fun h => absurd h (by omega)⟩
    simp [spawnLoop]
  | succ b ih =>
    intro t count
    by_cases hge : t ≥ i
    · obtain ⟨k', hk', heq, hres, hnn⟩ := ih (t - i) (count + 1)
      refine ⟨k' + 1, by omega, ?_, ?_, ?_⟩
      · show spawnLoop (b + 1) t i count = _
        simp only [spawnLoop, if_pos hge, qsub_eq]
        rw [heq]
        have h1 : t - i - (k' : ℚ) * i = t - ((k' + 1 : ℕ) : ℚ) * i := by
          push_cast
          ring
        have h2 : count + 1 + k' = count + (k' + 1) := by omega
        rw [h1, h2]
      · intro h
        have hlt := hres (by omega)
        have h1 : t - ((k' + 1 : ℕ) : ℚ) * i = t - i - (k' : ℚ) * i := by
          push_cast
          ring
        rw [h1]
        exact hlt
      · intro _
        rcases Nat.eq_zero_or_pos k' with rfl | hk0
        · have h1 : t - ((0 + 1 : ℕ) : ℚ) * i = t - i := by
            push_cast
            ring
          rw [h1]
          linarith
        · have hge2 := hnn hk0
          have h1 : t - ((k' + 1 : ℕ) : ℚ) * i = t - i - (k' : ℚ) * i := by
            push_cast
            ring
          rw [h1]
          exact hge2
    · refine ⟨0, Nat.zero_le _, ?_, ?_, fun h => absurd h (by omega)⟩
      · simp only [spawnLoop, if_neg hge]
        rw [show ((0 : ℕ) : ℚ) * i = 0 by push_cast; ring]
        rw [sub_zero, Nat.add_zero]
      · intro _
        rw [show ((0 : ℕ) : ℚ) * i = 0 by push_cast; ring, sub_zero]
        exact lt_of_not_ge hge

/-- Behaviour of one spawn-timer tick: the spawn count is capped at 5, the
residual timer never exceeds one interval, and below the cap the timer is
exactly the accumulated time minus one interval per spawn (with no reset
applied).  The two closing equations instantiate the rate-2 scenario: a
1200 ms tick at speed 1 spawns 3 particles from a fresh (pre-loaded)
timer and 2 from an empty one, leaving 200 ms of backlog. -/
theorem updateEventTimer_spec (t elapsed speed rate globalRate : ℚ)
    (hpos : 0 < effectiveRate rate globalRate) :
    ((updateEventTimer t elapsed speed rate globalRate).2 ≤ 5) ∧
    ((updateEventTimer t elapsed speed rate globalRate).1 ≤
      1000 / effectiveRate rate globalRate) ∧
    ((updateEventTimer t elapsed speed rate globalRate).2 < 5 →
      (updateEventTimer t elapsed speed rate globalRate).1 =
        t + elapsed * speed -
          (((updateEventTimer t elapsed speed rate globalRate).2 : ℚ)) *
            (1000 / effectiveRate rate globalRate) ∧
      (updateEventTimer t elapsed speed rate globalRate).1 <
        1000 / effectiveRate rate globalRate) ∧
    updateEventTimer (freshTimer 2 2) 1200 1 2 2 = (200, 3) ∧
    updateEventTimer 0 1200 1 2 2 = (200, 2) := by
  have hiq : qdiv 1000 (effectiveRate rate globalRate) =
      1000 / effectiveRate rate globalRate := qdiv_eq _ _
  have hi : 0 < qdiv 1000 (effectiveRate rate globalRate) := by
    rw [hiq]
    exact div_pos (by norm_num) hpos
  obtain ⟨k, hk5, heq, hres, hnn⟩ :=
    spawnLoop_spec _ hi 5 (qadd t (qmul elapsed speed)) 0
  have hsum : qadd t (qmul elapsed speed) = t + elapsed * speed := by
    rw [qadd_eq, qmul_eq]
  have hmain : updateEventTimer t elapsed speed rate globalRate =
      (if t + elapsed * speed - (k : ℚ) * (1000 / effectiveRate rate globalRate) >
          1000 / effectiveRate rate globalRate
        then 0
        else t + elapsed * speed -
          (k : ℚ) * (1000 / effectiveRate rate globalRate), k) := by
    unfold updateEventTimer
    dsimp only
    rw [heq]
    rw [hsum, hiq]
    simp only [Nat.zero_add]
  refine ⟨?_, ?_, ?_, by decide, by decide⟩
  · rw [hmain]
    simpa using hk5
  · rw [hmain]
    by_cases hgt : t + elapsed * speed -
        (k : ℚ) * (1000 / effectiveRate rate globalRate) >
        1000 / effectiveRate rate globalRate
    · show (if _ > _ then (0 : ℚ) else _) ≤ _
      rw [if_pos hgt, ← hiq]
      exact le_of_lt hi
    · show (if _ > _ then (0 : ℚ) else _) ≤ _
      rw [if_neg hgt]
      exact le_of_not_gt hgt
  · rw [hmain]
    intro hklt
    have hk5' : k < 5 := hklt
    have hlt := hres hk5'
    rw [hsum, hiq] at hlt
    have hng : ¬ (t + elapsed * speed -
        (k : ℚ) * (1000 / effectiveRate rate globalRate) >
        1000 / effectiveRate rate globalRate) := lt_asymm hlt
    constructor
    · show (if _ > _ then (0 : ℚ) else _) = _
      rw [if_neg hng]
    · show (if _ > _ then (0 : ℚ) else _) < _
      rw [if_neg hng]
      exact hlt

/-! ## Claims C7–C10 machinery: particle stepping -/

theorem qprog_eq (p : Particle) (deltaTime speed : ℚ) :
    qadd p.progress (qmul (qmul baseSpeed deltaTime) speed) =
    p.progress + baseSpeed * deltaTime * speed := by
  rw [qadd_eq, qmul_eq, qmul_eq]

theorem travelStep_advance (layoutEdges : List LayoutEdge)
    (layoutNodes : List (String × LayoutNodeSim)) (deltaTime speed : ℚ)
    (r : Nat) (p : Particle) (edge : LayoutEdge)
    (hedge : layoutEdges.get? p.currentEdgeIndex = some edge)
    (hlt : ¬ 1 ≤ p.progress + baseSpeed * deltaTime * speed) :
    ∃ p', travelStep layoutEdges layoutNodes deltaTime speed r p = .travel p' ∧
      p'.currentEdgeIndex = p.currentEdgeIndex ∧
      p'.progress = p.progress + baseSpeed * deltaTime * speed := by
  unfold travelStep
  rw [hedge]
  dsimp only
  rw [qprog_eq]
  rw [if_neg hlt]
  exact ⟨_, rfl, rfl, rfl⟩

theorem travelStep_arrival_zero (layoutEdges : List LayoutEdge)
    (layoutNodes : List (String × LayoutNodeSim)) (deltaTime speed : ℚ)
    (r : Nat) (p : Particle) (edge : LayoutEdge)
    (hedge : layoutEdges.get? p.currentEdgeIndex = some edge)
    (harr : 1 ≤ p.progress + baseSpeed * deltaTime * speed) :
    ∀ p', travelStep layoutEdges layoutNodes deltaTime speed r p = .travel p' →
      p'.progress = 0 := by
  intro p' h
  unfold travelStep at h
  rw [hedge] at h
  dsimp only at h
  rw [qprog_eq, if_pos harr] at h
  by_cases hd : (match aget layoutNodes edge.toId with
    | some nd => nd.delay.getD 0
    | none => 0) > 0
  · rw [if_pos hd] at h
    simp at h
  · rw [if_neg hd] at h
    split at h
    · have hrec := StepOutcome.travel.inj h
      rw [← hrec]
    · simp at h

theorem travelStep_park_shape (layoutEdges : List LayoutEdge)
    (layoutNodes : List (String × LayoutNodeSim)) (deltaTime speed : ℚ)
    (r : Nat) (p : Particle) (edge : LayoutEdge) (nd : LayoutNodeSim)
    (hedge : layoutEdges.get? p.currentEdgeIndex = some edge)
    (hnd : aget layoutNodes edge.toId = some nd)
    (harr : 1 ≤ p.progress + baseSpeed * deltaTime * speed)
    (hdel : 0 < nd.delay.getD 0) :
    ∃ d, travelStep layoutEdges layoutNodes deltaTime speed r p = .park d ∧
      d.remainingDelay = nd.delay.getD 0 ∧ d.totalDelay = nd.delay.getD 0 ∧
      d.atNodeId = edge.toId ∧
      d.particle.currentEdgeIndex = p.currentEdgeIndex ∧
      d.particle.progress = p.progress + baseSpeed * deltaTime * speed := by
  unfold travelStep
  rw [hedge]
  dsimp only
  rw [qprog_eq, if_pos harr, hnd]
  dsimp only
  rw [if_pos hdel]
  exact ⟨_, rfl, rfl, rfl, rfl, rfl, rfl⟩

theorem travelStep_park_pos (layoutEdges : List LayoutEdge)
    (layoutNodes : List (String × LayoutNodeSim)) (deltaTime speed : ℚ)
    (r : Nat) (p : Particle) (d : DelayedParticle)
    (h : travelStep layoutEdges layoutNodes deltaTime speed r p = .park d) :
    0 < d.remainingDelay := by
  unfold travelStep at h
  cases hedge : layoutEdges.get? p.currentEdgeIndex with
  | none => rw [hedge] at h; simp at h
  | some edge =>
    rw [hedge] at h
    dsimp only at h
    by_cases hge : qadd p.progress (qmul (qmul baseSpeed deltaTime) speed) ≥ 1
    · rw [if_pos hge] at h
      by_cases hd : (match aget layoutNodes edge.toId with
        | some nd => nd.delay.getD 0
        | none => 0) > 0
      · rw [if_pos hd] at h
        have hrec := StepOutcome.park.inj h
        rw [← hrec]
        exact hd
      · rw [if_neg hd] at h
        split at h
        · simp at h
        · simp at h
    · rw [if_neg hge] at h
      simp at h

theorem addParticle_spawn_progress (layoutEdges : List LayoutEdge)
    (event : FlowEvent) (startNodeId : String) (particles : List Particle)
    (q : Particle)
    (h : (addParticle layoutEdges event startNodeId particles).2 = some q) :
    q.progress = 0 := by
  unfold addParticle at h
  rcases hsel : addParticleSelect layoutEdges event startNodeId with ⟨pi, ei⟩
  rw [hsel] at h
  dsimp only at h
  cases ei with
  | none => simp at h
  | some i =>
    dsimp only at h
    cases hgi : layoutEdges.get? i with
    | none => rw [hgi] at h; simp at h
    | some edge =>
      rw [hgi] at h
      dsimp only at h
      have hq := Option.some.inj h
      rw [← hq]

theorem delayedFold_resumed (layoutEdges : List LayoutEdge)
    (layoutNodes : List (String × LayoutNodeSim)) (rand : Nat → Nat) :
    ∀ (ds : List DelayedParticle)
      (acc : List DelayedParticle × List Particle × List Particle × Nat),
      (∀ q ∈ acc.2.1, q.progress = 0) →
      ∀ q ∈ (ds.foldl (delayedStep layoutEdges layoutNodes rand) acc).2.1,
        q.progress = 0 := by
  intro ds
  induction ds with
  | nil => intro acc h; exact h
  | cons d tl ih =>
    intro acc h
    rw [List.foldl_cons]
    refine ih _ ?_
    unfold delayedStep
    by_cases hd : d.remainingDelay ≤ 0
    · rw [if_pos hd]
      rcases hres : resumeDelayed layoutEdges layoutNodes d (rand acc.2.2.2)
        with ⟨p₁, ei⟩
      cases ei with
      | some i =>
        dsimp only
        intro q hq
        rcases List.mem_append.mp hq with hq | hq
        · exact h q hq
        · rw [List.mem_singleton.mp hq]
      | none =>
        dsimp only
        exact fun q hq => h q hq
    · rw [if_neg hd]
      exact fun q hq => h q hq

theorem delayedFold_kept (layoutEdges : List LayoutEdge)
    (layoutNodes : List (String × LayoutNodeSim)) (rand : Nat → Nat) :
    ∀ (ds : List DelayedParticle)
      (acc : List DelayedParticle × List Particle × List Particle × Nat),
      ∀ d' ∈ (ds.foldl (delayedStep layoutEdges layoutNodes rand) acc).1,
        d' ∈ acc.1 ∨ (d' ∈ ds ∧ 0 < d'.remainingDelay) := by
  intro ds
  induction ds with
  | nil => intro acc d' h; exact Or.inl h
  | cons d tl ih =>
    intro acc d' h
    rw [List.foldl_cons] at h
    rcases ih _ d' h with h0 | ⟨hmem, hpos⟩
    · unfold delayedStep at h0
      by_cases hd : d.remainingDelay ≤ 0
      · rw [if_pos hd] at h0
        rcases hres : resumeDelayed layoutEdges layoutNodes d (rand acc.2.2.2)
          with ⟨p₁, ei⟩
        rw [hres] at h0
        cases ei with
        | some i => exact Or.inl h0
        | none => exact Or.inl h0
      · rw [if_neg hd] at h0
        rcases List.mem_cons.mp h0 with rfl | h1
        · exact Or.inr ⟨List.mem_cons_self _ _, lt_of_not_le hd⟩
        · exact Or.inl h1
    · exact Or.inr ⟨List.mem_cons_of_mem _ hmem, hpos⟩

theorem travelFold_parked (layoutEdges : List LayoutEdge)
    (layoutNodes : List (String × LayoutNodeSim)) (deltaTime speed : ℚ)
    (rand : Nat → Nat) :
    ∀ (ps : List Particle)
      (acc : List Particle × List DelayedParticle × List Particle × Nat),
      (∀ d ∈ acc.2.1, 0 < d.remainingDelay) →
      ∀ d ∈ (ps.foldl (travelPStep layoutEdges layoutNodes deltaTime speed rand)
        acc).2.1, 0 < d.remainingDelay := by
  intro ps
  induction ps with
  | nil => intro acc h; exact h
  | cons p tl ih =>
    intro acc h
    rw [List.foldl_cons]
    refine ih _ ?_
    unfold travelPStep
    cases hts : travelStep layoutEdges layoutNodes deltaTime speed
      (rand acc.2.2.2) p with
    | travel p' => exact fun d hd => h d hd
    | park d0 =>
      dsimp only
      intro d hd
      rcases List.mem_append.mp hd with hd | hd
      · exact h d hd
      · rw [List.mem_singleton.mp hd]
        exact travelStep_park_pos layoutEdges layoutNodes deltaTime speed
          (rand acc.2.2.2) p d0 hts
    | complete p' => exact fun d hd => h d hd

theorem delayedPhase_resumed (layoutEdges : List LayoutEdge)
    (layoutNodes : List (String × LayoutNodeSim)) (deltaTime speed : ℚ)
    (rand : Nat → Nat) (delayed : List DelayedParticle) :
    ∀ q ∈ (delayedPhase layoutEdges layoutNodes deltaTime speed rand
      delayed).2.1, q.progress = 0 := by
  unfold delayedPhase
  dsimp only
  exact delayedFold_resumed layoutEdges layoutNodes rand _ ([], [], [], 0)
    (fun q hq => absurd hq (List.not_mem_nil q))

theorem delayedPhase_kept (layoutEdges : List LayoutEdge)
    (layoutNodes : List (String × LayoutNodeSim)) (deltaTime speed : ℚ)
    (rand : Nat → Nat) (delayed : List DelayedParticle) :
    ∀ d' ∈ (delayedPhase layoutEdges layoutNodes deltaTime speed rand
      delayed).1,
      0 < d'.remainingDelay ∧
      ∃ d ∈ delayed, d'.particle = d.particle ∧ d'.atNodeId = d.atNodeId ∧
        d'.totalDelay = d.totalDelay ∧
        d'.remainingDelay = d.remainingDelay - deltaTime * speed := by
  intro d' hd'
  unfold delayedPhase at hd'
  dsimp only at hd'
  rcases delayedFold_kept layoutEdges layoutNodes rand _ _ d' hd'
    with h0 | ⟨hmem, hpos⟩
  · exact absurd h0 (List.not_mem_nil d')
  · refine ⟨hpos, ?_⟩
    rw [List.mem_reverse] at hmem
    obtain ⟨d, hd, hmap⟩ := List.mem_map.mp hmem
    refine ⟨d, hd, ?_, ?_, ?_, ?_⟩
    · rw [← hmap]
    · rw [← hmap]
    · rw [← hmap]
    · rw [← hmap]
      show qsub d.remainingDelay (qmul deltaTime speed) = _
      rw [qsub_eq, qmul_eq]

theorem travelPhase_parked (layoutEdges : List LayoutEdge)
    (layoutNodes : List (String × LayoutNodeSim)) (deltaTime speed : ℚ)
    (rand : Nat → Nat) (k₁ : Nat) (ps : List Particle) :
    ∀ d ∈ (travelPhase layoutEdges layoutNodes deltaTime speed rand k₁
      ps).2.1, 0 < d.remainingDelay := by
  unfold travelPhase
  exact travelFold_parked layoutEdges layoutNodes deltaTime speed rand _
    ([], [], [], k₁) (fun d hd => absurd hd (List.not_mem_nil d))

theorem addParticleSelect_sink (layoutEdges : List LayoutEdge)
    (event : FlowEvent) (startNodeId : String)
    (hsink : ∀ e ∈ layoutEdges, ¬ e.fromId = startNodeId) :
    (addParticleSelect layoutEdges event startNodeId).2 = none := by
  have hplain : layoutEdges.findIdx? (fun e => e.fromId = startNodeId) = none :=
    List.findIdx?_eq_none_iff.mpr (fun e he => decide_eq_false (hsink e he))
  unfold addParticleSelect
  cases hp : event.path with
  | none =>
    dsimp only
    rw [hplain]
  | some steps =>
    cases steps with
    | nil =>
      dsimp only
      rw [hplain]
    | cons s0 rest =>
      cases rest with
      | nil =>
        dsimp only
        rw [hplain]
      | cons s1 rest' =>
        dsimp only
        by_cases hsn : s0.nodeId = startNodeId
        · rw [if_pos hsn]
          rw [show layoutEdges.findIdx?
              (fun e => decide (e.fromId = startNodeId ∧ e.toId = s1.nodeId)) = none from
            List.findIdx?_eq_none_iff.mpr
              (fun e he => decide_eq_false (fun hc => hsink e he hc.1))]
          dsimp only
          rw [hplain]
        · rw [if_neg hsn]
          cases hfi : (s0 :: s1 :: rest').findIdx? (fun s => s.nodeId = startNodeId) with
          | none =>
            dsimp only
            rw [hplain]
          | some idx =>
            dsimp only
            by_cases hlt : idx < (s0 :: s1 :: rest').length - 1
            · rw [if_pos hlt]
              rw [show layoutEdges.findIdx? (fun e =>
                  decide (e.fromId = startNodeId ∧
                    ((s0 :: s1 :: rest').get? (idx + 1)).map PathStep.nodeId =
                      some e.toId)) = none from
                List.findIdx?_eq_none_iff.mpr
                  (fun e he => decide_eq_false (fun hc => hsink e he hc.1))]
              dsimp only
              rw [hplain]
            · rw [if_neg hlt]
              dsimp only
              rw [hplain]

theorem addParticle_sink (layoutEdges : List LayoutEdge)
    (event : FlowEvent) (startNodeId : String) (particles : List Particle)
    (hsink : ∀ e ∈ layoutEdges, ¬ e.fromId = startNodeId) :
    addParticle layoutEdges event startNodeId particles = (particles, none) := by
  unfold addParticle
  rcases hsel : addParticleSelect layoutEdges event startNodeId with ⟨pi, ei⟩
  have h2 := addParticleSelect_sink layoutEdges event startNodeId hsink
  rw [hsel] at h2
  dsimp only at h2
  rw [h2]

theorem addParticleSelect_short (layoutEdges : List LayoutEdge)
    (event : FlowEvent) (startNodeId : String) (steps : List PathStep)
    (hp : event.path = some steps) (hlen : steps.length ≤ 1) :
    addParticleSelect layoutEdges event startNodeId =
      addParticleSelect layoutEdges { event with path := none } startNodeId := by
  unfold addParticleSelect
  rw [hp]
  cases steps with
  | nil => rfl
  | cons s rest =>
    cases rest with
    | nil => rfl
    | cons s' rest' => simp at hlen

theorem getNextEdge_short (layoutEdges : List LayoutEdge) (p : Particle)
    (nodeId : String) (r : Nat) (steps : List PathStep)
    (hp : p.event.path = some steps) (hlen : steps.length ≤ 1) :
    (getNextEdge layoutEdges p nodeId r).1 = p ∧
    (getNextEdge layoutEdges p nodeId r).2 =
      (getNextEdge layoutEdges
        { p with event := { p.event with path := none } } nodeId r).2 ∧
    (getNextEdge layoutEdges
      { p with event := { p.event with path := none } } nodeId r).1 =
      { p with event := { p.event with path := none } } := by
  have hnone : ∀ (q : Particle),
      q.event.path = none →
      getNextEdge layoutEdges q nodeId r =
        (if houts : outgoingIdxs layoutEdges nodeId ≠ [] then
          (q, some ((outgoingIdxs layoutEdges nodeId).get
            ⟨r % (outgoingIdxs layoutEdges nodeId).length, by
              have : (outgoingIdxs layoutEdges nodeId).length ≠ 0 :=
                fun h => houts (List.length_eq_zero.mp h)
              exact Nat.mod_lt _ (Nat.pos_of_ne_zero this)⟩))
        else (q, none)) := by
    intro q hq
    unfold getNextEdge
    rw [hq]
  have hfall : getNextEdge layoutEdges p nodeId r =
      (if houts : outgoingIdxs layoutEdges nodeId ≠ [] then
        (p, some ((outgoingIdxs layoutEdges nodeId).get
          ⟨r % (outgoingIdxs layoutEdges nodeId).length, by
            have : (outgoingIdxs layoutEdges nodeId).length ≠ 0 :=
              fun h => houts (List.length_eq_zero.mp h)
            exact Nat.mod_lt _ (Nat.pos_of_ne_zero this)⟩))
      else (p, none)) := by
    unfold getNextEdge
    rw [hp]
    cases steps with
    | nil => rfl
    | cons s rest =>
      cases rest with
      | cons s' rest' => simp at hlen
      | nil =>
        dsimp only
        rw [if_pos (by simp)]
        rw [show ([s] : List PathStep).get? (p.pathIndex + 1) = none from
          List.get?_eq_none.mpr (by simp)]
        dsimp only
        by_cases hsn : s.nodeId = nodeId
        · rw [show ([s] : List PathStep).findIdx?
              (fun s' => s'.nodeId = nodeId) = some 0 by
            simp [List.findIdx?_cons, hsn]]
          dsimp only
          rw [if_neg (by simp)]
        · rw [show ([s] : List PathStep).findIdx?
              (fun s' => s'.nodeId = nodeId) = none by
            simp [List.findIdx?_cons, hsn]]
  rw [hfall, hnone { p with event := { p.event with path := none } } rfl]
  by_cases houts : outgoingIdxs layoutEdges nodeId ≠ []
  · rw [dif_pos houts, dif_pos houts]
    exact ⟨rfl, rfl, rfl⟩
  · rw [dif_neg houts, dif_neg houts]
    exact ⟨rfl, rfl, rfl⟩

/-- A node `x` with no incoming adjacency is only ever proposed level 0,
so its level entry stays absent or 0 through any `assignLevel` call whose
own proposal respects that (as every `calculateLayout` call site does). -/
theorem assignLevel_zeroAt (o : List (String × List String)) (x : String)
    (hfree : ∀ a, ¬ adjMem o a x) :
    ∀ (fuel : Nat) (st : LevelState) (n : String) (l : Nat),
      (n = x → l = 0) →
      (aget st.levels x = none ∨ aget st.levels x = some 0) →
      (aget (assignLevel o fuel st n l).levels x = none ∨
       aget (assignLevel o fuel st n l).levels x = some 0) := by
  intro fuel
  induction fuel with
  | zero => intro st n l _ hP; exact hP
  | succ f IH =>
    intro st n l hnl hP
    by_cases hv : n ∈ st.visited
    · rw [assignLevel_succ_visited o f st n l hv]
      by_cases hnx : n = x
      · subst hnx
        rw [hnl rfl]
        have hag : agetD st.levels n 0 = 0 := by
          rcases hP with h0 | h0 <;> unfold agetD <;> rw [h0] <;> rfl
        right
        show aget (aset st.levels n (max (agetD st.levels n 0) 0)) n = some 0
        rw [Nat.max_zero, hag]
        exact aget_aset_self _ _ _
      · show aget (aset st.levels n _) x = none ∨
          aget (aset st.levels n _) x = some 0
        rw [aget_aset_ne _ _ _ _ (fun hc => hnx hc.symm)]
        exact hP
    · rw [assignLevel_succ_unvisited o f st n l hv]
      have hP1 : aget (pushNode st n l).levels x = none ∨
          aget (pushNode st n l).levels x = some 0 := by
        by_cases hnx : n = x
        · subst hnx
          rw [hnl rfl]
          right
          show aget (aset st.levels n 0) n = some 0
          exact aget_aset_self _ _ _
        · show aget (aset st.levels n l) x = none ∨
            aget (aset st.levels n l) x = some 0
          rw [aget_aset_ne _ _ _ _ (fun hc => hnx hc.symm)]
          exact hP
      have inner : ∀ (cs : List String), (∀ c ∈ cs, c ≠ x) →
          ∀ (s : LevelState),
            (aget s.levels x = none ∨ aget s.levels x = some 0) →
            (aget ((cs.foldl (fun s nxt => assignLevel o f s nxt (l + 1))
                s)).levels x = none ∨
             aget ((cs.foldl (fun s nxt => assignLevel o f s nxt (l + 1))
                s)).levels x = some 0) := by
        intro cs
        induction cs with
        | nil => intro _ s hPs; exact hPs
        | cons c cs' ihc =>
          intro hcs s hPs
          rw [List.foldl_cons]
          refine ihc (fun c' hc' => hcs c' (List.mem_cons_of_mem _ hc')) _ ?_
          exact IH s c (l + 1)
            (fun hc => absurd hc (hcs c (List.mem_cons_self _ _))) hPs
      refine inner (agetD o n []) ?_ (pushNode st n l) hP1
      intro c hc hcx
      exact hfree n (hcx ▸ hc)

/-- The seeding folds of `calculateLayout` propose level 0 only. -/
theorem seedFold_zeroAt (o : List (String × List String)) (x : String)
    (fuel : Nat) (hfree : ∀ a, ¬ adjMem o a x) :
    ∀ (ns : List Node) (s : LevelState),
      (aget s.levels x = none ∨ aget s.levels x = some 0) →
      (aget ((ns.foldl (fun s n => assignLevel o fuel s n.id 0) s)).levels x =
        none ∨
       aget ((ns.foldl (fun s n => assignLevel o fuel s n.id 0) s)).levels x =
        some 0) := by
  intro ns
  induction ns with
  | nil => intro s hP; exact hP
  | cons n tl ih =>
    intro s hP
    rw [List.foldl_cons]
    exact ih _ (assignLevel_zeroAt o x hfree fuel s n.id 0 (fun _ => rfl) hP)

/-- The ensure-all-visited fold of `calculateLayout` proposes level 0 only. -/
theorem ensureFold_zeroAt (o : List (String × List String)) (x : String)
    (fuel : Nat) (hfree : ∀ a, ¬ adjMem o a x) :
    ∀ (ns : List Node) (s : LevelState),
      (aget s.levels x = none ∨ aget s.levels x = some 0) →
      (aget ((ns.foldl (fun s n => if n.id ∈ s.visited then s
          else assignLevel o fuel s n.id 0) s)).levels x = none ∨
       aget ((ns.foldl (fun s n => if n.id ∈ s.visited then s
          else assignLevel o fuel s n.id 0) s)).levels x = some 0) := by
  intro ns
  induction ns with
  | nil => intro s hP; exact hP
  | cons n tl ih =>
    intro s hP
    rw [List.foldl_cons]
    refine ih _ ?_
    by_cases hv : n.id ∈ s.visited
    · rw [if_pos hv]
      exact hP
    · rw [if_neg hv]
      exact assignLevel_zeroAt o x hfree fuel s n.id 0 (fun _ => rfl) hP

/-- Through all of `calculateLevels`, a node with no incoming adjacency
keeps an absent-or-zero level entry. -/
theorem calculateLevels_zeroAt (t : Topology) (x : String)
    (hfree : ∀ a, ¬ adjMem (buildAdjacency t).1 a x) :
    aget (calculateLevels t).levels x = none ∨
    aget (calculateLevels t).levels x = some 0 := by
  unfold calculateLevels
  by_cases hnn : t.nodes = []
  · rw [if_pos hnn]
    left
    rfl
  · rw [if_neg hnn]
    dsimp only
    apply ensureFold_zeroAt _ _ _ hfree
    apply seedFold_zeroAt _ _ _ hfree
    by_cases hs : t.nodes.filter
        (fun n => agetD (buildAdjacency t).2 n.id [] = []) = []
    · rw [if_pos hs]
      cases hnodes : t.nodes with
      | nil => exact absurd hnodes hnn
      | cons n tl =>
        exact assignLevel_zeroAt _ x hfree _ _ n.id 0 (fun _ => rfl)
          (Or.inl rfl)
    · rw [if_neg hs]
      left
      rfl

/-- Unconditionally, every id of in-degree zero ends at level 0. -/
theorem inDegree_zero_levelOf (t : Topology) (id : String)
    (h : inDegree t id = 0) : levelOf t id = 0 := by
  have hfree : ∀ a, ¬ adjMem (buildAdjacency t).1 a id := by
    intro a ha
    have hmem := (bA_memsym t a id).mp ha
    rw [List.length_eq_zero.mp h] at hmem
    cases hmem
  unfold levelOf
  rcases calculateLevels_zeroAt t id hfree with h0 | h0
  · unfold agetD
    rw [h0]
    rfl
  · unfold agetD
    rw [h0]
    rfl

/-! ## The claims -/

/-- C1: `parseDSL` terminates on every input string: every scanning loop
advances the cursor by at least one position per iteration, so the fuel
`content.length + 1` the embedding threads through the main keyword loop,
the block-body loop and the bracketed-array loop (the loops that return
`none` on fuel exhaustion) is never exhausted, and the parser always
returns a topology. -/
theorem claim_C1_parse_total (s : String) : ∃ t, parseDSLRaw s = some t :=
  parseDSLRaw_isSome s

/-- C2 (corrected): on every topology, every id of in-degree zero is
assigned level 0; and on an acyclic topology (one with a topological
ranking) in which every node has at most one predecessor, every edge
between existing nodes strictly climbs levels.  For general acyclic
topologies the strict-increase half of the claim is false (see the
counterexample). -/
theorem claim_C2_layout_levels (t : Topology) :
    (∀ id, inDegree t id = 0 → levelOf t id = 0) ∧
    (∀ r : String → Nat,
      (∀ e ∈ t.edges, e.fromId ∈ t.nodes.map Node.id →
        e.toId ∈ t.nodes.map Node.id → r e.fromId < r e.toId) →
      (∀ id ∈ t.nodes.map Node.id, inDegree t id ≤ 1) →
      ∀ e ∈ t.edges, e.fromId ∈ t.nodes.map Node.id →
        e.toId ∈ t.nodes.map Node.id →
        levelOf t e.fromId < levelOf t e.toId) :=
  ⟨fun id h => inDegree_zero_levelOf t id h,
   fun r hrank hdeg => (levels_forest_spec t r hrank hdeg).2⟩

/-- C2, counterexample to the claim as stated: `diamondT` is acyclic
(`diamondRank` is a topological ranking), yet the edge `C → D` connects
two nodes of equal level — the max-update on the revisited `C` does not
re-walk its successors. -/
theorem claim_C2_counterexample :
    (∀ e ∈ diamondT.edges, diamondRank e.fromId < diamondRank e.toId) ∧
    (∃ e ∈ diamondT.edges, e.fromId ∈ diamondT.nodes.map Node.id ∧
      e.toId ∈ diamondT.nodes.map Node.id ∧
      ¬ levelOf diamondT e.fromId < levelOf diamondT e.toId) := by
  decide

/-- C2, witness: the chain `a → ab → abc` satisfies the strict-increase
conjunct's hypotheses (string length is a ranking, in-degrees are ≤ 1),
its source is at level 0 and levels increase along the first edge. -/
theorem claim_C2_witness :
    levelOf chainT "a" = 0 ∧ levelOf chainT "a" < levelOf chainT "ab" := by
  have h := claim_C2_layout_levels chainT
  exact ⟨h.1 "a" (by decide),
    h.2 (fun s => s.length) (by decide) (by decide)
      ⟨"a", "ab", "right", "left"⟩ (by decide) (by decide) (by decide)⟩

/-- C3 (corrected): `validateTopology` reports zero errors exactly when
the topology is referentially closed in the *code's* sense — edge
endpoints resolve, *truthy* event sources resolve (an empty-string source
is skipped, where the claim said "non-null"), truthy transformation
inputs/outputs resolve, truthy node `transformation` attributes resolve,
and subsystem members resolve; `valid` is precisely emptiness of the
error list. -/
theorem claim_C3_validate_iff (t : Topology) :
    ((validateTopology t).errors = [] ↔ referentialClosureCode t) ∧
    ((validateTopology t).valid = true ↔ (validateTopology t).errors = []) :=
  ⟨validate_errors_iff_closure t, validate_valid_iff t⟩

/-- C3, counterexample to the claim as stated: the parsed event of
`events:` / `- name: e` / `source:` has the non-null (but falsy) source
`""`, which names no node, yet validation reports zero errors. -/
theorem claim_C3_counterexample :
    (validateTopology (parseDSL "events:\n- name: e\n  source:")).errors = [] ∧
    ¬ referentialClosureClaim (parseDSL "events:\n- name: e\n  source:") := by
  decide

/-- C4 (corrected): for *non-blank* input on which neither grammar
produces an event, `parseDSL` returns exactly one default event, and its
event list is never empty; for blank input the claim's "never empty" half
is false (see the counterexample). -/
theorem claim_C4_default_event (s : String) (hb : dslBlank s = false) :
    ((parsedFlowEvents s = [] ∧ parsedEventMap s = []) →
      (parseDSL s).events = [defaultEvent]) ∧
    (parseDSL s).events ≠ [] :=
  parseDSL_default_event_core s hb

/-- C4, counterexample to the claim as stated: the empty input takes the
blank-input early return, whose topology has an empty event list. -/
theorem claim_C4_counterexample : (parseDSL "").events = [] := by decide

/-- C4, witness: `"node a"` is non-blank, produces no event in either
grammar, and comes back with exactly the default event. -/
theorem claim_C4_witness :
    dslBlank "node a" = false ∧
    (((parsedFlowEvents "node a" = [] ∧ parsedEventMap "node a" = []) →
      (parseDSL "node a").events = [defaultEvent]) ∧
    (parseDSL "node a").events ≠ []) :=
  ⟨by decide, claim_C4_default_event "node a" (by decide)⟩

/-- C5 (corrected): every parsed event either carries the literal default
rate 2 or is a flow-block/legacy event whose declared rate was stored
verbatim — and a declared rate of 0 is stored as 0, so the claimed
invariant `rate > 0` is false (see the counterexample). -/
theorem claim_C5_rates (s : String) (e : FlowEvent)
    (he : e ∈ (parseDSL s).events) :
    e.rate = 2 ∨ e ∈ parsedFlowEvents s :=
  parseDSL_rate_core s e he

/-- C5, counterexample to the claim as stated: a flow block may declare
`rate: 0` and the parser keeps it. -/
theorem claim_C5_counterexample :
    ∃ e ∈ (parseDSL "flow f { rate: 0 }").events, ¬ 0 < e.rate := by
  decide

/-- C5, witness: the single event of `"event ping"` has rate 2. -/
theorem claim_C5_witness :
    EVping ∈ (parseDSL "event ping").events ∧
    (EVping.rate = 2 ∨ EVping ∈ parsedFlowEvents "event ping") :=
  ⟨by decide, claim_C5_rates "event ping" EVping (by decide)⟩

/-- C6 (corrected): a spawn tick accumulates `elapsed × speed`, spawns one
particle per whole interval up to the cap of 5, never leaves more than one
interval of backlog (a residual above one interval is reset to 0), and
below the cap the residual is exactly the accumulated time minus one
interval per spawn.  In the claim's rate-2 scenario the fresh timer is
pre-loaded with a full interval, so the 1200 ms tick spawns 3 particles
(not 2); 2 is the count from an empty timer. -/
theorem claim_C6_spawning (t elapsed speed rate globalRate : ℚ)
    (hpos : 0 < effectiveRate rate globalRate) :
    ((updateEventTimer t elapsed speed rate globalRate).2 ≤ 5) ∧
    ((updateEventTimer t elapsed speed rate globalRate).1 ≤
      1000 / effectiveRate rate globalRate) ∧
    ((updateEventTimer t elapsed speed rate globalRate).2 < 5 →
      (updateEventTimer t elapsed speed rate globalRate).1 =
        t + elapsed * speed -
          (((updateEventTimer t elapsed speed rate globalRate).2 : ℚ)) *
            (1000 / effectiveRate rate globalRate) ∧
      (updateEventTimer t elapsed speed rate globalRate).1 <
        1000 / effectiveRate rate globalRate) ∧
    updateEventTimer (freshTimer 2 2) 1200 1 2 2 = (200, 3) ∧
    updateEventTimer 0 1200 1 2 2 = (200, 2) :=
  updateEventTimer_spec t elapsed speed rate globalRate hpos

/-- C6, counterexample to the claim as stated: at rate 2 the fresh timer
already holds a full 500 ms interval, so a single 1200 ms tick at speed 1
spawns 3 particles, not the claimed 2. -/
theorem claim_C6_counterexample :
    freshTimer 2 2 = 500 ∧
    (updateEventTimer (freshTimer 2 2) 1200 1 2 2).2 = 3 := by
  decide

theorem claim_C6_witness :
    (0 : ℚ) < effectiveRate 2 2 ∧
    (((updateEventTimer 0 1200 1 2 2).2 ≤ 5) ∧
     ((updateEventTimer 0 1200 1 2 2).1 ≤ 1000 / effectiveRate 2 2) ∧
     ((updateEventTimer 0 1200 1 2 2).2 < 5 →
       (updateEventTimer 0 1200 1 2 2).1 =
         0 + 1200 * 1 - (((updateEventTimer 0 1200 1 2 2).2 : ℚ)) *
           (1000 / effectiveRate 2 2) ∧
       (updateEventTimer 0 1200 1 2 2).1 < 1000 / effectiveRate 2 2) ∧
     updateEventTimer (freshTimer 2 2) 1200 1 2 2 = (200, 3) ∧
     updateEventTimer 0 1200 1 2 2 = (200, 2)) :=
  ⟨by decide, claim_C6_spawning 0 1200 1 2 2 (by decide)⟩

/-- C7: travelling progress is monotone within an edge and resets to 0 on
every new edge: below the arrival threshold a tick with non-negative
elapsed time and speed advances the particle on the same edge by exactly
`baseSpeed × deltaTime × speed ≥ 0`; a particle that keeps travelling
past an arrival has progress exactly 0; a spawned particle starts at
progress 0; and every particle resumed out of the parked set re-enters
the travelling set at progress 0. -/
theorem claim_C7_progress (layoutEdges : List LayoutEdge)
    (layoutNodes : List (String × LayoutNodeSim)) (deltaTime speed : ℚ)
    (r : Nat) (rand : Nat → Nat) (p : Particle) (edge : LayoutEdge)
    (event : FlowEvent) (startNodeId : String) (particles : List Particle)
    (delayed : List DelayedParticle)
    (hdt : 0 ≤ deltaTime) (hsp : 0 ≤ speed)
    (hedge : layoutEdges.get? p.currentEdgeIndex = some edge) :
    (¬ 1 ≤ p.progress + baseSpeed * deltaTime * speed →
      ∃ p', travelStep layoutEdges layoutNodes deltaTime speed r p = .travel p' ∧
        p'.currentEdgeIndex = p.currentEdgeIndex ∧
        p'.progress = p.progress + baseSpeed * deltaTime * speed ∧
        p.progress ≤ p'.progress) ∧
    (1 ≤ p.progress + baseSpeed * deltaTime * speed →
      ∀ p', travelStep layoutEdges layoutNodes deltaTime speed r p = .travel p' →
        p'.progress = 0) ∧
    (∀ q, (addParticle layoutEdges event startNodeId particles).2 = some q →
      q.progress = 0) ∧
    (∀ q ∈ (delayedPhase layoutEdges layoutNodes deltaTime speed rand
      delayed).2.1, q.progress = 0) := by
  refine ⟨?_, ?_, ?_, ?_⟩
  · intro hlt
    obtain ⟨p', h1, h2, h3⟩ :=
      travelStep_advance layoutEdges layoutNodes deltaTime speed r p edge
        hedge hlt
    refine ⟨p', h1, h2, h3, ?_⟩
    rw [h3]
    have hbs : (0 : ℚ) ≤ baseSpeed := by decide
    have hnn : 0 ≤ baseSpeed * deltaTime * speed :=
      mul_nonneg (mul_nonneg hbs hdt) hsp
    linarith
  · intro harr p' h
    exact travelStep_arrival_zero layoutEdges layoutNodes deltaTime speed r p
      edge hedge harr p' h
  · exact fun q h =>
      addParticle_spawn_progress layoutEdges event startNodeId particles q h
  · exact delayedPhase_resumed layoutEdges layoutNodes deltaTime speed rand
      delayed

/-- C7, witness: a fresh particle on the straight edge advances on its own
edge by exactly `baseSpeed × 100` in a 100 ms tick at speed 1. -/
theorem claim_C7_witness :
    (0 : ℚ) ≤ 100 ∧ (0 : ℚ) ≤ 1 ∧
    (¬ 1 ≤ P0.progress + baseSpeed * 100 * 1 →
      ∃ p', travelStep [E0] [] 100 1 0 P0 = .travel p' ∧
        p'.currentEdgeIndex = P0.currentEdgeIndex ∧
        p'.progress = P0.progress + baseSpeed * 100 * 1 ∧
        P0.progress ≤ p'.progress) :=
  ⟨by decide, by decide,
   (claim_C7_progress [E0] [] 100 1 0 (fun _ => 0) P0 E0 EV0 "A" [] [D5]
     (by decide) (by decide) (by decide)).1⟩

/-- C8 (corrected): arrival at a delaying node parks the particle with
countdown equal to the node's delay and its next edge unresolved; each
tick decrements every parked countdown by exactly `deltaTime × speed`
(strictly decreasing when `deltaTime × speed > 0` — speed alone is not
enough, see the counterexample — and non-increasing when it is ≥ 0); and
every particle still parked after a tick, kept or newly parked, has a
strictly positive countdown. -/
theorem claim_C8_parked (layoutEdges : List LayoutEdge)
    (layoutNodes : List (String × LayoutNodeSim)) (deltaTime speed : ℚ)
    (r : Nat) (rand : Nat → Nat) (p : Particle) (edge : LayoutEdge)
    (nd : LayoutNodeSim) (delayed : List DelayedParticle) (k₁ : Nat)
    (ps : List Particle)
    (hedge : layoutEdges.get? p.currentEdgeIndex = some edge)
    (hnd : aget layoutNodes edge.toId = some nd)
    (harr : 1 ≤ p.progress + baseSpeed * deltaTime * speed)
    (hdel : 0 < nd.delay.getD 0) :
    (∃ d, travelStep layoutEdges layoutNodes deltaTime speed r p = .park d ∧
      d.remainingDelay = nd.delay.getD 0 ∧ d.totalDelay = nd.delay.getD 0 ∧
      d.atNodeId = edge.toId ∧
      d.particle.currentEdgeIndex = p.currentEdgeIndex) ∧
    (∀ d' ∈ (delayedPhase layoutEdges layoutNodes deltaTime speed rand
      delayed).1,
      0 < d'.remainingDelay ∧
      ∃ d ∈ delayed,
        d'.remainingDelay = d.remainingDelay - deltaTime * speed ∧
        (0 < deltaTime * speed → d'.remainingDelay < d.remainingDelay) ∧
        (0 ≤ deltaTime * speed → d'.remainingDelay ≤ d.remainingDelay)) ∧
    (∀ d' ∈ (travelPhase layoutEdges layoutNodes deltaTime speed rand k₁
      ps).2.1, 0 < d'.remainingDelay) := by
  refine ⟨?_, ?_, ?_⟩
  · obtain ⟨d, h1, h2, h3, h4, h5, _⟩ :=
      travelStep_park_shape layoutEdges layoutNodes deltaTime speed r p edge
        nd hedge hnd harr hdel
    exact ⟨d, h1, h2, h3, h4, h5⟩
  · intro d' hd'
    obtain ⟨hpos, d, hd, _, _, _, hrem⟩ :=
      delayedPhase_kept layoutEdges layoutNodes deltaTime speed rand delayed
        d' hd'
    refine ⟨hpos, d, hd, hrem, ?_, ?_⟩
    · intro h
      rw [hrem]
      linarith
    · intro h
      rw [hrem]
      linarith
  · exact travelPhase_parked layoutEdges layoutNodes deltaTime speed rand k₁ ps

/-- C8, counterexample to the claim as stated: at speed 1 but elapsed
time 0 a parked particle's countdown does not strictly decrease — the
claimed "strictly decreasing whenever speed > 0" needs elapsed × speed
to be positive. -/
theorem claim_C8_counterexample :
    (0 : ℚ) < 1 ∧
    ∃ d' ∈ (delayedPhase [] [] 0 1 (fun _ => 0) [D5]).1,
      ¬ d'.remainingDelay < D5.remainingDelay := by
  decide

/-- C8, witness: a particle arriving at the 3 ms-delay node `B` is parked
with countdown exactly 3 and its edge cursor untouched. -/
theorem claim_C8_witness :
    1 ≤ P9.progress + baseSpeed * 1000 * 1 ∧
    (0 : ℚ) < ND3.delay.getD 0 ∧
    (∃ d, travelStep [E0] [("B", ND3)] 1000 1 0 P9 = .park d ∧
      d.remainingDelay = ND3.delay.getD 0 ∧
      d.totalDelay = ND3.delay.getD 0 ∧
      d.atNodeId = E0.toId ∧
      d.particle.currentEdgeIndex = P9.currentEdgeIndex) :=
  ⟨by norm_num [P9, baseSpeed, Rat.mkRat_eq_div], by decide,
   (claim_C8_parked [E0] [("B", ND3)] 1000 1 0 (fun _ => 0) P9 E0 ND3 [D5] 0
     [] (by decide) (by decide)
     (by norm_num [P9, baseSpeed, Rat.mkRat_eq_div]) (by decide)).1⟩

/-- C9: an event path of length ≤ 1 behaves exactly like no path at all:
spawn-time edge selection is identical to that of the same event with a
null path, and next-edge resolution leaves the particle untouched and
picks the same edge as it would for a null path. -/
theorem claim_C9_short_path (layoutEdges : List LayoutEdge) (p : Particle)
    (nodeId : String) (r : Nat) (event : FlowEvent) (startNodeId : String)
    (steps steps' : List PathStep)
    (hp : p.event.path = some steps) (hlen : steps.length ≤ 1)
    (hq : event.path = some steps') (hlen' : steps'.length ≤ 1) :
    (addParticleSelect layoutEdges event startNodeId =
      addParticleSelect layoutEdges { event with path := none } startNodeId) ∧
    ((getNextEdge layoutEdges p nodeId r).1 = p ∧
     (getNextEdge layoutEdges p nodeId r).2 =
       (getNextEdge layoutEdges
         { p with event := { p.event with path := none } } nodeId r).2 ∧
     (getNextEdge layoutEdges
       { p with event := { p.event with path := none } } nodeId r).1 =
       { p with event := { p.event with path := none } }) :=
  ⟨addParticleSelect_short layoutEdges event startNodeId steps' hq hlen',
   getNextEdge_short layoutEdges p nodeId r steps hp hlen⟩

/-- C9, witness: a particle with the one-step path `[B]` is left untouched
by next-edge resolution, exactly as with no path. -/
theorem claim_C9_witness :
    Pshort.event.path = some [SB] ∧ ([SB] : List PathStep).length ≤ 1 ∧
    (getNextEdge [E0] Pshort "B" 0).1 = Pshort :=
  ⟨by decide, by decide,
   (claim_C9_short_path [E0] Pshort "B" 0 EVshort "A" [SB] [SB] (by decide)
     (by decide) (by decide) (by decide)).2.1⟩

/-- C10: spawning an event at a node with no outgoing edge in the layout
is silently dropped: `addParticle` returns `null` and leaves the particle
collection unchanged. -/
theorem claim_C10_sink_drop (layoutEdges : List LayoutEdge)
    (event : FlowEvent) (startNodeId : String) (particles : List Particle)
    (hsink : ∀ e ∈ layoutEdges, ¬ e.fromId = startNodeId) :
    addParticle layoutEdges event startNodeId particles = (particles, none) :=
  addParticle_sink layoutEdges event startNodeId particles hsink

/-- C10, witness: spawning at the sink `B` of the single edge `A → B`
creates nothing. -/
theorem claim_C10_witness :
    (∀ e ∈ [E0], ¬ e.fromId = "B") ∧
    addParticle [E0] EV0 "B" [P0] = ([P0], none) :=
  ⟨by decide, claim_C10_sink_drop [E0] EV0 "B" [P0] (by decide)⟩
